import Mathlib

/-! Exchange rate path engine.

A shallow embedding of `exchange_rate_processor.cpp` / `string_tokenizer.cpp`
and a verification development over it.

Modelling conventions

* `std::time_t` is `Int`; `double` factors are exact rationals `ℚ`
  (NaN, infinities and rounding are outside the model).
* `std::size_t` indices are `Nat`; the sentinel `INVALID_INDEX`
  (`std::numeric_limits<std::size_t>::max()`) is `none` of `Option Nat`.
* `std::vector` is `List`; an access outside the bounds of a vector is
  undefined behaviour in the source and is made explicit: the embedded
  function returns `none` (or a dedicated outcome) at that point.
* `std::unordered_set<std::string>` is a duplicate-free `List String` that is
  iterated in insertion order (the source leaves the order unspecified).
* `std::time(nullptr)` is a parameter `clock : Nat → Int`: the value of the
  `k`-th reading taken while one line is processed.
-/

namespace ExchangeRate

/-! ## Two-dimensional tables -/

/-- Read `t[i][j]`, with `dflt` outside the table. -/
def get2 {α : Type} (dflt : α) (t : List (List α)) (i j : Nat) : α :=
  (t.getD i []).getD j dflt

/-- Write `t[i][j] = v` (no effect outside the table). -/
def set2 {α : Type} (t : List (List α)) (i j : Nat) (v : α) : List (List α) :=
  t.set i ((t.getD i []).set j v)

/-- A table cell: `(timestamp, factor)`; a value-initialised cell is `(0, 0)`. -/
abbrev Cell := Int × ℚ

/-- The type of `m_adjacencyTable`. -/
abbrev AdjacencyTable := List (List Cell)

/-- The cell `m_adjacencyTable[i][j]` (value-initialised outside the table). -/
def cellAt (t : AdjacencyTable) (i j : Nat) : Cell := get2 (0, 0) t i j

/-- Edge presence as tested by the solver: `if (sourceCell.first)`. -/
def isEdge (t : AdjacencyTable) (i j : Nat) : Prop := (cellAt t i j).1 ≠ 0

instance (t : AdjacencyTable) (i j : Nat) : Decidable (isEdge t i j) := by
  unfold isEdge; infer_instance

/-- The factor stored in cell `(i, j)`. -/
def factor (t : AdjacencyTable) (i j : Nat) : ℚ := (cellAt t i j).2

/-! ## `generateExchangePath` -/

/-- The local table `rate`. -/
abbrev RateTable := List (List ℚ)

/-- The local table `next`; `none` is `INVALID_INDEX`. -/
abbrev NextTable := List (List (Option Nat))

/-- Lines 316-320: `n` rows of `n` zeros. -/
def zeroRate (n : Nat) : RateTable := List.replicate n (List.replicate n 0)

/-- Lines 324-327: `n` rows of `n` times `INVALID_INDEX`. -/
def invalidNext (n : Nat) : NextTable := List.replicate n (List.replicate n none)

/-- Body of the fill loop (lines 335-340) for one `(i, j)`. -/
def fillCell (t : AdjacencyTable) (i j : Nat) (st : RateTable × NextTable) :
    RateTable × NextTable :=
  if (cellAt t i j).1 ≠ 0 then
    (set2 st.1 i j (cellAt t i j).2, set2 st.2 i j (some j))
  else st

/-- The fill loops (lines 330-342). -/
def fillTables (t : AdjacencyTable) (n : Nat) (st : RateTable × NextTable) :
    RateTable × NextTable :=
  (List.range n).foldl
    (fun st i => (List.range n).foldl (fun st j => fillCell t i j st) st) st

/-- Body of the innermost Floyd-Warshall loop (lines 351-356): the tables are
read at the moment the iteration runs (the update is in place). -/
def relax (k i j : Nat) (st : RateTable × NextTable) : RateTable × NextTable :=
  let r := get2 0 st.1 i j
  let newR := get2 0 st.1 i k * get2 0 st.1 k j
  if r < newR then (set2 st.1 i j newR, set2 st.2 i j (get2 none st.2 i k)) else st

/-- The loop over `j` (lines 350-357). -/
def relaxRow (n k i : Nat) (st : RateTable × NextTable) : RateTable × NextTable :=
  (List.range n).foldl (fun st j => relax k i j st) st

/-- The loop over `i` (lines 347-358). -/
def relaxPhase (n k : Nat) (st : RateTable × NextTable) : RateTable × NextTable :=
  (List.range n).foldl (fun st i => relaxRow n k i st) st

/-- The loop over `k` (lines 345-359). -/
def floydWarshall (n : Nat) (st : RateTable × NextTable) : RateTable × NextTable :=
  (List.range n).foldl (fun st k => relaxPhase n k st) st

/-- The tables `rate` and `next` when the reconstruction starts (line 367). -/
def solverTables (t : AdjacencyTable) : RateTable × NextTable :=
  floydWarshall t.length
    (fillTables t t.length (zeroRate t.length, invalidNext t.length))

/-- What `generateExchangePath` does. -/
inductive PathResult where
  /-- `next[source][destination]` is `INVALID_INDEX`: the empty path, silently. -/
  | noPath
  /-- The walk reached the destination: the path is returned. -/
  | found (path : List Nat)
  /-- The visited-set guard fired at `u` (lines 376-396): a warning is
  printed and the empty path is returned. -/
  | cycleDetected (u : Nat) (path : List Nat)
  /-- The walk read `INVALID_INDEX` from `next[u][destination]`; the
  source pushes it and indexes `next` with it (undefined behaviour). -/
  | invalidIndex (path : List Nat)
  /-- A vector is indexed outside its bounds before the walk (a row of the
  adjacency table shorter than the table, or an argument that is no index). -/
  | outOfBounds
  /-- The iteration budget of the embedding is spent (never the case with a
  budget of `n`; the source loop has no such exit). -/
  | outOfFuel
  deriving DecidableEq, Repr

/-- The `while (u != destinationIndex)` loop (lines 374-399). `path` is the
vector `path`, whose elements are exactly those of the set `visited`. -/
def walk (next : NextTable) (d : Nat) : Nat → Nat → List Nat → PathResult
  | fuel, u, path =>
    if u = d then .found path
    else match fuel with
      | 0 => .outOfFuel
      | fuel + 1 =>
        match get2 none next u d with
        | none => .invalidIndex path
        | some v =>
          if v ∈ path then .cycleDetected v path
          else walk next d fuel v (path ++ [v])

/-- Lines 367-402 on given tables. -/
def constructPath (n : Nat) (next : NextTable) (s d : Nat) : PathResult :=
  match get2 none next s d with
  | none => .noPath
  | some _ => walk next d n s [s]

/-- `ExchangeRateProcessor::generateExchangePath` on the adjacency table `t`. -/
def generateExchangePath (t : AdjacencyTable) (s d : Nat) : PathResult :=
  if (∀ row ∈ t, t.length ≤ row.length) ∧ s < t.length ∧ d < t.length then
    constructPath t.length (solverTables t).2 s d
  else .outOfBounds

/-- The vector returned to the caller, when the call returns. -/
def PathResult.returned : PathResult → Option (List Nat)
  | .noPath => some []
  | .found path => some path
  | .cycleDetected _ _ => some []
  | .invalidIndex _ => none
  | .outOfBounds => none
  | .outOfFuel => none

/-- Product of the edge factors along a vertex sequence. -/
def pathProduct (t : AdjacencyTable) : List Nat → ℚ
  | u :: v :: rest => factor t u v * pathProduct t (v :: rest)
  | _ => 1

/-- Every two consecutive vertices are joined by an edge of the table. -/
def IsChain (t : AdjacencyTable) : List Nat → Prop
  | u :: v :: rest => isEdge t u v ∧ IsChain t (v :: rest)
  | _ => True


/-! ## The engine state -/

/-- The data members of `ExchangeRateProcessor`. -/
structure Engine where
  /-- All known exchanges. -/
  m_exchanges : List String
  /-- All known currencies. -/
  m_currencies : List String
  /-- Mapping of exchange/currency pair to its index. -/
  m_exchangeCurrencyPairToIndexMapping : List ((String × String) × Nat)
  /-- Exchange/currency pair names at the respective index. -/
  m_exchangeCurrencyPairsByIndex : List (String × String)
  /-- Adjacency table of the exchange rate graph. -/
  m_adjacencyTable : AdjacencyTable
  deriving DecidableEq

/-- The constructor (lines 16-22): every container is empty. -/
def Engine.empty : Engine := ⟨[], [], [], [], []⟩

/-- Insertion `std::unordered_set::insert`: the set afterwards and whether
the value was inserted (`pib.second`). -/
def setInsert (s : List String) (x : String) : List String × Bool :=
  if x ∈ s then (s, false) else (s ++ [x], true)

/-- Lookup `std::unordered_map::find`; `none` is `end()`. -/
def mapFind : List ((String × String) × Nat) → String × String → Option Nat
  | [], _ => none
  | (k, v) :: rest, key => if k = key then some v else mapFind rest key

/-- `findExchangeCurrencyPair` (lines 245-252); `none` is `INVALID_INDEX`. -/
def findExchangeCurrencyPair (e : Engine) (exchange currency : String) : Option Nat :=
  mapFind e.m_exchangeCurrencyPairToIndexMapping (exchange, currency)

/-- `extendAdjancencyTable` (lines 254-264): one value-initialised cell is
pushed on every row, then a row of `m_exchangeCurrencyPairsByIndex.size()`
value-initialised cells is pushed. -/
def extendAdjancencyTable (e : Engine) : Engine :=
  { e with
    m_adjacencyTable :=
      e.m_adjacencyTable.map (fun row => row ++ [((0, 0) : Cell)]) ++
        [List.replicate e.m_exchangeCurrencyPairsByIndex.length ((0, 0) : Cell)] }

/-- `addExchangeCurrencyPair` (lines 230-243): the engine afterwards and the
index returned. -/
def addExchangeCurrencyPair (e : Engine) (exchange currency : String) : Engine × Nat :=
  match mapFind e.m_exchangeCurrencyPairToIndexMapping (exchange, currency) with
  | some i => (e, i)
  | none =>
    (extendAdjancencyTable
      { e with
        m_exchangeCurrencyPairToIndexMapping :=
          e.m_exchangeCurrencyPairToIndexMapping ++
            [((exchange, currency), e.m_exchangeCurrencyPairsByIndex.length)]
        m_exchangeCurrencyPairsByIndex :=
          e.m_exchangeCurrencyPairsByIndex ++ [(exchange, currency)] },
     e.m_exchangeCurrencyPairsByIndex.length)

/-- The assignment `m_adjacencyTable[i][j] = c`; `none` when `i` or `j` is
`INVALID_INDEX` or lies outside the table (undefined behaviour). -/
def writeCell (t : AdjacencyTable) (i j : Option Nat) (c : Cell) : Option AdjacencyTable :=
  match i, j with
  | some i, some j =>
    if i < t.length ∧ j < (t.getD i []).length then some (set2 t i j c) else none
  | _, _ => none

/-- Lines 286-288 and 304-306: one reading of the clock, written to the
cells `(index1, index2)` and `(index2, index1)` with factor `1.0`. The
state is the engine and the number of clock readings taken so far. -/
def connect (clock : Nat → Int) (st : Engine × Nat) (index1 index2 : Option Nat) :
    Option (Engine × Nat) :=
  match writeCell st.1.m_adjacencyTable index1 index2 (clock st.2, 1) with
  | none => none
  | some t1 =>
    match writeCell t1 index2 index1 (clock st.2, 1) with
    | none => none
    | some t2 => some ({ st.1 with m_adjacencyTable := t2 }, st.2 + 1)

/-- First loop of `provisionNewCurrency` (lines 269-273). -/
def addPairs (currency : String) (exchanges : List String) (e : Engine) : Engine :=
  exchanges.foldl (fun e exchange1 => (addExchangeCurrencyPair e exchange1 currency).1) e

/-- Inner loop of `provisionNewCurrency` (lines 282-289) over the exchanges
that follow `exchange1`. -/
def connectFollowing (clock : Nat → Int) (currency : String) (index1 : Option Nat) :
    List String → Engine × Nat → Option (Engine × Nat)
  | [], st => some st
  | exchange2 :: rest, st =>
    match connect clock st index1 (findExchangeCurrencyPair st.1 exchange2 currency) with
    | none => none
    | some st1 => connectFollowing clock currency index1 rest st1

/-- Second loop of `provisionNewCurrency` (lines 276-290). -/
def connectPairs (clock : Nat → Int) (currency : String) :
    List String → Engine × Nat → Option (Engine × Nat)
  | [], st => some st
  | exchange1 :: rest, st =>
    match connectFollowing clock currency
        (findExchangeCurrencyPair st.1 exchange1 currency) rest st with
    | none => none
    | some st1 => connectPairs clock currency rest st1

/-- `provisionNewCurrency` (lines 266-291). -/
def provisionNewCurrency (clock : Nat → Int) (currency : String) (st : Engine × Nat) :
    Option (Engine × Nat) :=
  connectPairs clock currency st.1.m_exchanges
    (addPairs currency st.1.m_exchanges st.1, st.2)

/-- The loop of `provisionCurrencyForExchange` (lines 300-308). -/
def connectOthers (clock : Nat → Int) (currency exchange : String) (index1 : Nat) :
    List String → Engine × Nat → Option (Engine × Nat)
  | [], st => some st
  | otherExchange :: rest, st =>
    if otherExchange ≠ exchange then
      match connect clock st (some index1)
          (findExchangeCurrencyPair st.1 otherExchange currency) with
      | none => none
      | some st1 => connectOthers clock currency exchange index1 rest st1
    else connectOthers clock currency exchange index1 rest st

/-- `provisionCurrencyForExchange` (lines 293-309). -/
def provisionCurrencyForExchange (clock : Nat → Int) (currency exchange : String)
    (st : Engine × Nat) : Option (Engine × Nat) :=
  connectOthers clock currency exchange (addExchangeCurrencyPair st.1 exchange currency).2
    (addExchangeCurrencyPair st.1 exchange currency).1.m_exchanges
    ((addExchangeCurrencyPair st.1 exchange currency).1, st.2)

/-- The fields of a rate update after parsing (lines 53-58). -/
structure RateUpdate where
  timestamp : Int
  exchange : String
  sourceCurrency : String
  destinationCurrency : String
  forwardFactor : ℚ
  backwardFactor : ℚ
  deriving DecidableEq

/-- Validation of the factors (lines 60-69): the message of the exception
thrown, if any. -/
def validateFactors (forwardFactor backwardFactor : ℚ) : Option String :=
  if forwardFactor ≤ 0 then some "invalid forward factor"
  else if backwardFactor ≤ 0 then some "invalid backward factor"
  else if forwardFactor * backwardFactor > 1 then
    some "invalid combination of forward and backward factors"
  else none

/-- Insertion of the exchange and the currencies (lines 75-77): the engine
afterwards and the three `pib.second` flags (exchange, source currency,
destination currency). -/
def insertNames (e : Engine) (u : RateUpdate) : Engine × Bool × Bool × Bool :=
  ({ e with
      m_exchanges := (setInsert e.m_exchanges u.exchange).1
      m_currencies :=
        (setInsert (setInsert e.m_currencies u.sourceCurrency).1 u.destinationCurrency).1 },
    (setInsert e.m_exchanges u.exchange).2,
    (setInsert e.m_currencies u.sourceCurrency).2,
    (setInsert (setInsert e.m_currencies u.sourceCurrency).1 u.destinationCurrency).2)

/-- One `if / else if` of lines 79-94 for one currency of the update. -/
def provisionFor (clock : Nat → Int) (newCurrency newExchange : Bool)
    (currency exchange : String) (st : Engine × Nat) : Option (Engine × Nat) :=
  if newCurrency then provisionNewCurrency clock currency st
  else if newExchange then provisionCurrencyForExchange clock currency exchange st
  else some st

/-- Lines 75-94: insertion of the names and provisioning of identity edges. -/
def provision (clock : Nat → Int) (e : Engine) (u : RateUpdate) : Option Engine :=
  match provisionFor clock (insertNames e u).2.2.1 (insertNames e u).2.1
      u.sourceCurrency u.exchange ((insertNames e u).1, 0) with
  | none => none
  | some st1 =>
    match provisionFor clock (insertNames e u).2.2.2 (insertNames e u).2.1
        u.destinationCurrency u.exchange st1 with
    | none => none
    | some st2 => some st2.1

/-- Lines 101-105 and 108-112: the cell `(i, j)` is bound to a reference and
overwritten if its timestamp is older than `timestamp`; `none` when `i` or
`j` is `INVALID_INDEX` or lies outside the table (undefined behaviour). -/
def updateCell (t : AdjacencyTable) (i j : Option Nat) (timestamp : Int) (f : ℚ) :
    Option AdjacencyTable :=
  match i, j with
  | some i, some j =>
    if i < t.length ∧ j < (t.getD i []).length then
      some (if (cellAt t i j).1 < timestamp then set2 t i j (timestamp, f) else t)
    else none
  | _, _ => none

/-- Lines 96-112: lookup of the two vertices and the timestamp-gated update
of the two cells. -/
def directUpdate (e : Engine) (u : RateUpdate) : Option Engine :=
  match updateCell e.m_adjacencyTable
      (findExchangeCurrencyPair e u.exchange u.sourceCurrency)
      (findExchangeCurrencyPair e u.exchange u.destinationCurrency)
      u.timestamp u.forwardFactor with
  | none => none
  | some t1 =>
    match updateCell t1
        (findExchangeCurrencyPair e u.exchange u.destinationCurrency)
        (findExchangeCurrencyPair e u.exchange u.sourceCurrency)
        u.timestamp u.backwardFactor with
    | none => none
    | some t2 => some { e with m_adjacencyTable := t2 }

/-- Lines 71-112 of `processInfo`: the graph update for parsed and
validated fields; `none` is undefined behaviour. -/
def applyRateUpdate (clock : Nat → Int) (e : Engine) (u : RateUpdate) : Option Engine :=
  match provision clock e u with
  | none => none
  | some e1 => directUpdate e1 u


/-! ## `StringTokenizer` -/

/-- The constant `TOKEN_DELIMITERS`: space, tab, vertical tab, CR, LF. -/
def TOKEN_DELIMITERS : List Char := [' ', '\t', '\x0b', '\r', '\n']

/-- The constant `EXCHANGE_RATE_REQUEST`. -/
def EXCHANGE_RATE_REQUEST : String := "EXCHANGE_RATE_REQUEST"

/-- The constant `BEST_RATES_BEGIN`. -/
def BEST_RATES_BEGIN : String := "BEST_RATES_BEGIN"

/-- The constant `BEST_RATES_END`. -/
def BEST_RATES_END : String := "BEST_RATES_END"

/-- Position of the first character at or after `pos` that satisfies `p`
(`std::string::find_first_of` / `find_first_not_of`); `none` is `npos`. -/
def findFrom (p : Char → Bool) : List Char → Nat → Option Nat
  | [], _ => none
  | c :: cs, 0 => if p c then some 0 else (findFrom p cs 0).map (· + 1)
  | _ :: cs, pos + 1 => (findFrom p cs pos).map (· + 1)

/-- The data members of `StringTokenizer`. -/
structure StringTokenizer where
  /-- String to be parsed. -/
  m_string : List Char
  /-- Last parsed token. -/
  m_token : List Char
  /-- Current offset. -/
  m_offset : Nat
  deriving DecidableEq

/-- The constructor of `StringTokenizer`. -/
def StringTokenizer.new (s : List Char) : StringTokenizer := ⟨s, [], 0⟩

/-- `StringTokenizer::reset`. -/
def StringTokenizer.reset (t : StringTokenizer) : StringTokenizer :=
  { t with m_offset := 0, m_token := [] }

/-- `StringTokenizer::parseNextToken`: the value returned and the tokenizer
afterwards. -/
def StringTokenizer.parseNextToken (t : StringTokenizer) (delimiters : List Char) :
    Bool × StringTokenizer :=
  match findFrom (fun c => decide (c ∉ delimiters)) t.m_string t.m_offset with
  | none => (false, { t with m_offset := t.m_string.length })
  | some i =>
    match findFrom (fun c => decide (c ∈ delimiters)) t.m_string i with
    | none => (true, { t with m_token := t.m_string.drop i, m_offset := t.m_string.length })
    | some j => (true, { t with m_token := (t.m_string.drop i).take (j - i), m_offset := j })

/-! ## Field parsing -/

/-- The fields of `std::tm` that the source reads or that `std::get_time`
fills for the two formats used. -/
structure Tm where
  tm_sec : Int
  tm_min : Int
  tm_hour : Int
  tm_mday : Int
  tm_mon : Int
  tm_year : Int
  deriving DecidableEq

/-- The standard library functions the decoder calls. They are not part of
the repository and are taken as parameters. -/
structure StdLib where
  /-- The extraction `stream >> std::get_time(&tm, format)` on a zeroed
  `tm`: the `tm` afterwards and `stream.fail()`. -/
  get_time : (format : String) → (input : List Char) → Tm × Bool
  /-- The call `std::mktime(&tm)`. -/
  mktime : Tm → Int
  /-- The call `std::stod(s, &pos)`: `none` when it throws, otherwise the
  value and `pos`. -/
  stod : List Char → Option (ℚ × Nat)
  /-- The message `ex.what()` of the exception thrown by `std::stod`. -/
  stodWhat : List Char → String

/-- `parseStringField` (lines 151-165): the message of the exception, or the
token and the tokenizer afterwards. -/
def parseStringField (data : StringTokenizer) (fieldName : String) :
    Except String (List Char × StringTokenizer) :=
  if (data.parseNextToken TOKEN_DELIMITERS).1 = false then
    .error ("missing " ++ fieldName)
  else if (data.parseNextToken TOKEN_DELIMITERS).2.m_token = [] then
    .error ("empty " ++ fieldName)
  else
    .ok ((data.parseNextToken TOKEN_DELIMITERS).2.m_token,
         (data.parseNextToken TOKEN_DELIMITERS).2)

/-- Lines 171-210 of `parseTimestampField` on the token read. The test of
line 201 reads the fail flag of the stream of the date and time, as the
source does. -/
def timestampOfToken (lib : StdLib) (timestamp : List Char) (fieldName : String) :
    Except String Int :=
  if timestamp.length ≠ 25 then
    .error ("invalid length of time field " ++ fieldName)
  else if ¬ (timestamp.getD 19 ' ' = '-' ∨ timestamp.getD 19 ' ' = '+') then
    .error ("invalid value of time field " ++ fieldName)
  else if (lib.get_time "%Y-%m-%dT%H:%M:%S" (timestamp.take 19)).2 = true then
    .error ("invalid date or time in time field " ++ fieldName)
  else if (lib.get_time "%Y-%m-%dT%H:%M:%S" (timestamp.take 19)).2 = true then
    .error ("invalid time zone in time field " ++ fieldName)
  else
    .ok (lib.mktime (lib.get_time "%Y-%m-%dT%H:%M:%S" (timestamp.take 19)).1 +
      (if timestamp.getD 19 ' ' = '+' then -1 else 1) *
        (((lib.get_time "%H:%M" (timestamp.drop 20)).1.tm_min +
          60 * (lib.get_time "%H:%M" (timestamp.drop 20)).1.tm_hour) * 60))

/-- `parseTimestampField` (lines 167-211). -/
def parseTimestampField (lib : StdLib) (data : StringTokenizer) (fieldName : String) :
    Except String (Int × StringTokenizer) :=
  match parseStringField data fieldName with
  | .error what => .error what
  | .ok (timestamp, data1) =>
    match timestampOfToken lib timestamp fieldName with
    | .error what => .error what
    | .ok t => .ok (t, data1)

/-- `parseDoubleField` (lines 213-228). -/
def parseDoubleField (lib : StdLib) (data : StringTokenizer) (fieldName : String) :
    Except String (ℚ × StringTokenizer) :=
  match parseStringField data fieldName with
  | .error what => .error what
  | .ok (s, data1) =>
    match lib.stod s with
    | none => .error ("invalid value of " ++ fieldName ++ ": " ++ lib.stodWhat s)
    | some (v, pos) =>
      if pos < s.length then
        .error ("invalid value of " ++ fieldName ++ ": " ++ "invalid floating-point number")
      else .ok (v, data1)

/-- The six fields of a rate update (lines 53-58), in the order they are read. -/
def parseInfoFields (lib : StdLib) (data : StringTokenizer) : Except String RateUpdate :=
  match parseTimestampField lib data "timestamp" with
  | .error what => .error what
  | .ok (timestamp, data1) =>
    match parseStringField data1 "exchange" with
    | .error what => .error what
    | .ok (exchange, data2) =>
      match parseStringField data2 "source_currency" with
      | .error what => .error what
      | .ok (sourceCurrency, data3) =>
        match parseStringField data3 "destination_currency" with
        | .error what => .error what
        | .ok (destinationCurrency, data4) =>
          match parseDoubleField lib data4 "forward_factor" with
          | .error what => .error what
          | .ok (forwardFactor, data5) =>
            match parseDoubleField lib data5 "backward_factor" with
            | .error what => .error what
            | .ok (backwardFactor, _) =>
              .ok ⟨timestamp, String.mk exchange, String.mk sourceCurrency,
                String.mk destinationCurrency, forwardFactor, backwardFactor⟩


/-! ## Processing one line -/

/-- The engine together with what has been written to the two streams. -/
structure World where
  /-- The processor object. -/
  engine : Engine
  /-- Lines written to `std::cout`. -/
  cout : List String
  /-- Lines written to `std::cerr`. -/
  cerr : List String
  deriving DecidableEq

/-- How a member function ends. -/
inductive Outcome where
  /-- It returns; the world at that moment. -/
  | done (w : World)
  /-- It throws `std::invalid_argument(what)`; the world at that moment. -/
  | thrown (what : String) (w : World)
  /-- It indexes a vector outside its bounds. -/
  | undefinedBehaviour
  deriving DecidableEq

/-- `processInfo` (lines 50-113). -/
def processInfo (lib : StdLib) (clock : Nat → Int) (data : StringTokenizer) (w : World) :
    Outcome :=
  match parseInfoFields lib data with
  | .error what => .thrown what w
  | .ok u =>
    match validateFactors u.forwardFactor u.backwardFactor with
    | some what => .thrown what w
    | none =>
      match applyRateUpdate clock w.engine u with
      | none => .undefinedBehaviour
      | some e1 => .done { w with engine := e1 }

/-- One body line of `printPath` (lines 413-414); `none` when `index` is
outside `m_exchangeCurrencyPairsByIndex`. -/
def pathLine (e : Engine) (index : Nat) : Option String :=
  match e.m_exchangeCurrencyPairsByIndex.get? index with
  | none => none
  | some pair => some (pair.1 ++ ", " ++ pair.2)

/-- The body lines of `printPath` (lines 412-415). -/
def pathLines (e : Engine) : List Nat → Option (List String)
  | [] => some []
  | index :: rest =>
    match pathLine e index, pathLines e rest with
    | some l, some ls => some (l :: ls)
    | _, _ => none

/-- `printPath` (lines 405-418): the lines written to `std::cout`; `path`
is `none` for `nullptr`. -/
def printPath (e : Engine) (sourceExchange sourceCurrency destinationExchange
    destinationCurrency : String) (path : Option (List Nat)) : Option (List String) :=
  match path with
  | none =>
    some [BEST_RATES_BEGIN ++ " " ++ sourceExchange ++ " " ++ sourceCurrency ++ " " ++
      destinationExchange ++ " " ++ destinationCurrency, BEST_RATES_END]
  | some p =>
    match pathLines e p with
    | none => none
    | some body =>
      some ([BEST_RATES_BEGIN ++ " " ++ sourceExchange ++ " " ++ sourceCurrency ++ " " ++
        destinationExchange ++ " " ++ destinationCurrency] ++ body ++ [BEST_RATES_END])

/-- One vertex of the warning of lines 379-391: `index (exchange/currency)`. -/
def vertexText (e : Engine) (index : Nat) : Option String :=
  match e.m_exchangeCurrencyPairsByIndex.get? index with
  | none => none
  | some pair => some (toString index ++ " (" ++ pair.1 ++ "/" ++ pair.2 ++ ")")

/-- The vertices of the path in the warning, joined by an arrow (lines 382-392). -/
def vertexTexts (e : Engine) : List Nat → Option (List String)
  | [] => some []
  | index :: rest =>
    match vertexText e index, vertexTexts e rest with
    | some l, some ls => some (l :: ls)
    | _, _ => none

/-- What `generateExchangePath` writes to `std::cerr` (lines 378-393). -/
def pathWarning (e : Engine) : PathResult → Option (List String)
  | .cycleDetected u path =>
    match vertexText e u, vertexTexts e path with
    | some start, some vs =>
      some ["Warning: endless loop over cycle detected: starting with: " ++ start ++
        ", path: " ++ " -> ".intercalate vs]
    | _, _ => none
  | _ => some []

/-- Lines 123-148 of `processRequest` on the four parsed fields. -/
def answerRequest (sourceExchange sourceCurrency destinationExchange
    destinationCurrency : String) (w : World) : Outcome :=
  match findExchangeCurrencyPair w.engine sourceExchange sourceCurrency with
  | none =>
    match printPath w.engine sourceExchange sourceCurrency destinationExchange
        destinationCurrency none with
    | none => .undefinedBehaviour
    | some out =>
      .thrown ("source currency/exchnage pair " ++ sourceExchange ++ "/" ++
        sourceCurrency ++ " is unknown") { w with cout := w.cout ++ out }
  | some sourceIndex =>
    match findExchangeCurrencyPair w.engine destinationExchange destinationCurrency with
    | none =>
      match printPath w.engine sourceExchange sourceCurrency destinationExchange
          destinationCurrency none with
      | none => .undefinedBehaviour
      | some out =>
        .thrown ("destination currency/exchnage pair " ++ destinationExchange ++ "/" ++
          destinationCurrency ++ " is unknown") { w with cout := w.cout ++ out }
    | some destinationIndex =>
      match (generateExchangePath w.engine.m_adjacencyTable sourceIndex
               destinationIndex).returned,
            pathWarning w.engine (generateExchangePath w.engine.m_adjacencyTable
               sourceIndex destinationIndex) with
      | some path, some warning =>
        match printPath w.engine sourceExchange sourceCurrency destinationExchange
            destinationCurrency (some path) with
        | none => .undefinedBehaviour
        | some out => .done { w with cout := w.cout ++ out, cerr := w.cerr ++ warning }
      | _, _ => .undefinedBehaviour

/-- `processRequest` (lines 115-149). -/
def processRequest (data : StringTokenizer) (w : World) : Outcome :=
  match parseStringField data "source_exchange" with
  | .error what => .thrown what w
  | .ok (sourceExchange, data1) =>
    match parseStringField data1 "source_currency" with
    | .error what => .thrown what w
    | .ok (sourceCurrency, data2) =>
      match parseStringField data2 "destination_exchange" with
      | .error what => .thrown what w
      | .ok (destinationExchange, data3) =>
        match parseStringField data3 "destination_currency" with
        | .error what => .thrown what w
        | .ok (destinationCurrency, _) =>
          answerRequest (String.mk sourceExchange) (String.mk sourceCurrency)
            (String.mk destinationExchange) (String.mk destinationCurrency) w

/-- The `try` block of `processData` (lines 27-43). -/
def processDataBody (lib : StdLib) (clock : Nat → Int) (data : List Char) (w : World) :
    Outcome :=
  if ((StringTokenizer.new data).parseNextToken TOKEN_DELIMITERS).1 = false then
    .thrown "could not get first token" w
  else if String.mk ((StringTokenizer.new data).parseNextToken TOKEN_DELIMITERS).2.m_token
      = EXCHANGE_RATE_REQUEST then
    processRequest ((StringTokenizer.new data).parseNextToken TOKEN_DELIMITERS).2 w
  else
    processInfo lib clock
      ((StringTokenizer.new data).parseNextToken TOKEN_DELIMITERS).2.reset w

/-- `processData` (lines 24-48): an exception is caught and reported on
`std::cerr`; `none` is undefined behaviour. -/
def processData (lib : StdLib) (clock : Nat → Int) (data : List Char) (w : World) :
    Option World :=
  match processDataBody lib clock data w with
  | .done w1 => some w1
  | .thrown what w1 =>
    some { w1 with
      cerr := w1.cerr ++ ["Error: " ++ what ++ ", data (" ++ String.mk data ++ ")"] }
  | .undefinedBehaviour => none


/-- The factors of the update pass the validation of lines 60-69. -/
def RateUpdate.Valid (u : RateUpdate) : Prop :=
  validateFactors u.forwardFactor u.backwardFactor = none

instance (u : RateUpdate) : Decidable u.Valid := by
  unfold RateUpdate.Valid; infer_instance

/-- Successive rate updates, each with the clock readings of its own
processing; `none` once undefined behaviour has occurred. -/
def applyRateUpdates (e : Engine) : List ((Nat → Int) × RateUpdate) → Option Engine
  | [] => some e
  | (clock, u) :: rest =>
    match applyRateUpdate clock e u with
    | none => none
    | some e1 => applyRateUpdates e1 rest

/-- Engine states reachable from the empty engine by rate updates that pass
validation (rejected lines and queries leave the engine as it is). -/
inductive Reachable : Engine → Prop
  | empty : Reachable Engine.empty
  | step (clock : Nat → Int) (e : Engine) (u : RateUpdate) (e1 : Engine) :
      Reachable e → u.Valid → applyRateUpdate clock e u = some e1 → Reachable e1


/-! ## Predicates and sample data used in the statements -/

/-- Every entry of the next-hop table is a direct successor of its row. -/
def NextAlongEdges (t : AdjacencyTable) (next : NextTable) : Prop :=
  ∀ i j v, get2 none next i j = some v → isEdge t i v

/-- A clock that reads the same positive instant at every call. -/
def sampleClock : Nat → Int := fun _ => 1509529343

/-- A rate update from its six fields. -/
def mkUpdate (timestamp : Int) (exchange sourceCurrency destinationCurrency : String)
    (forwardFactor backwardFactor : ℚ) : RateUpdate :=
  ⟨timestamp, exchange, sourceCurrency, destinationCurrency, forwardFactor, backwardFactor⟩

/-- Five quotes of one exchange over four currencies; the quotes
EUR -> GBP -> JPY -> EUR multiply to 4. -/
def arbitrageUpdates : List ((Nat → Int) × RateUpdate) :=
  [(sampleClock, mkUpdate 1 "X" "USD" "EUR" (1/2) (1/2)),
   (sampleClock, mkUpdate 1 "X" "EUR" "GBP" 1 (1/2)),
   (sampleClock, mkUpdate 1 "X" "USD" "JPY" (1/2) (1/2)),
   (sampleClock, mkUpdate 1 "X" "EUR" "JPY" (1/2) 2),
   (sampleClock, mkUpdate 1 "X" "GBP" "JPY" 2 (1/2))]

/-- The adjacency table after `arbitrageUpdates`; the vertices are
0 = X/USD, 1 = X/EUR, 2 = X/GBP, 3 = X/JPY. -/
def arbitrageTable : AdjacencyTable :=
  [[(0, 0), (1, 1/2), (0, 0), (1, 1/2)],
   [(1, 1/2), (0, 0), (1, 1), (1, 1/2)],
   [(0, 0), (1, 1/2), (0, 0), (1, 2)],
   [(1, 1/2), (1, 2), (1, 1/2), (0, 0)]]

/-- The engine after `arbitrageUpdates`. -/
def arbitrageEngine : Engine :=
  { m_exchanges := ["X"]
    m_currencies := ["USD", "EUR", "GBP", "JPY"]
    m_exchangeCurrencyPairToIndexMapping :=
      [(("X", "USD"), 0), (("X", "EUR"), 1), (("X", "GBP"), 2), (("X", "JPY"), 3)]
    m_exchangeCurrencyPairsByIndex := [("X", "USD"), ("X", "EUR"), ("X", "GBP"), ("X", "JPY")]
    m_adjacencyTable := arbitrageTable }

/-- A library whose parsers reject every input. -/
def rejectingLib : StdLib :=
  { get_time := fun _ _ => (⟨0, 0, 0, 0, 0, 0⟩, true)
    mktime := fun _ => 0
    stod := fun _ => none
    stodWhat := fun _ => "stod" }

/-- A world around an engine with nothing written yet. -/
def World.init (e : Engine) : World := ⟨e, [], []⟩

/-- Quotes on two exchanges: `A` offers USD, EUR and GBP, `B` offers USD and
GBP; the pair `B`/EUR is not registered. -/
def twoExchangeUpdates : List ((Nat → Int) × RateUpdate) :=
  [(sampleClock, mkUpdate 1509529343 "A" "USD" "EUR" 1 1),
   (sampleClock, mkUpdate 1509529343 "B" "USD" "GBP" 1 1)]

/-- The engine after `twoExchangeUpdates`. -/
def twoExchangeEngine : Engine :=
  { m_exchanges := ["A", "B"]
    m_currencies := ["USD", "EUR", "GBP"]
    m_exchangeCurrencyPairToIndexMapping :=
      [(("A", "USD"), 0), (("A", "EUR"), 1), (("B", "USD"), 2), (("A", "GBP"), 3),
       (("B", "GBP"), 4)]
    m_exchangeCurrencyPairsByIndex :=
      [("A", "USD"), ("A", "EUR"), ("B", "USD"), ("A", "GBP"), ("B", "GBP")]
    m_adjacencyTable :=
      [[(0, 0), (1509529343, 1), (1509529343, 1), (0, 0), (0, 0)],
       [(1509529343, 1), (0, 0), (0, 0), (0, 0), (0, 0)],
       [(1509529343, 1), (0, 0), (0, 0), (0, 0), (1509529343, 1)],
       [(0, 0), (0, 0), (0, 0), (0, 0), (1509529343, 1)],
       [(0, 0), (0, 0), (1509529343, 1), (1509529343, 1), (0, 0)]] }

/-- The engine `twoExchangeEngine` after `B` quotes USD -> GBP at 1/2 and 2
with a newer timestamp. -/
def quotedEngine : Engine :=
  { twoExchangeEngine with
    m_adjacencyTable :=
      [[(0, 0), (1509529343, 1), (1509529343, 1), (0, 0), (0, 0)],
       [(1509529343, 1), (0, 0), (0, 0), (0, 0), (0, 0)],
       [(1509529343, 1), (0, 0), (0, 0), (0, 0), (1509529400, 1/2)],
       [(0, 0), (0, 0), (0, 0), (0, 0), (1509529343, 1)],
       [(0, 0), (0, 0), (1509529400, 2), (1509529343, 1), (0, 0)]] }

/-- The two engines have the same sets of exchanges and currencies. -/
def SameNames (e e1 : Engine) : Prop :=
  e1.m_exchanges = e.m_exchanges ∧ e1.m_currencies = e.m_currencies

/-- The two engines differ in the adjacency table only. -/
def SameRegistry (e e1 : Engine) : Prop :=
  e1.m_exchanges = e.m_exchanges ∧ e1.m_currencies = e.m_currencies ∧
    e1.m_exchangeCurrencyPairToIndexMapping = e.m_exchangeCurrencyPairToIndexMapping ∧
    e1.m_exchangeCurrencyPairsByIndex = e.m_exchangeCurrencyPairsByIndex

/-- The engine after a first quote `A` USD -> EUR whose timestamp is not
positive: both vertices are registered and no cell has been written. -/
def unquotedEngine : Engine :=
  { m_exchanges := ["A"]
    m_currencies := ["USD", "EUR"]
    m_exchangeCurrencyPairToIndexMapping := [(("A", "USD"), 0), (("A", "EUR"), 1)]
    m_exchangeCurrencyPairsByIndex := [("A", "USD"), ("A", "EUR")]
    m_adjacencyTable := [[(0, 0), (0, 0)], [(0, 0), (0, 0)]] }

/-- The cell `(i, j)` is an edge with factor exactly 1. -/
def IdentityCell (t : AdjacencyTable) (i j : Nat) : Prop :=
  (cellAt t i j).1 ≠ 0 ∧ (cellAt t i j).2 = 1

/-- Every entry of the pair-to-index map points at its own pair in the
index-to-pair vector. -/
def RegistryConsistent (e : Engine) : Prop :=
  ∀ p i, mapFind e.m_exchangeCurrencyPairToIndexMapping p = some i →
    e.m_exchangeCurrencyPairsByIndex.get? i = some p

/-- Every exchange of `exchanges` has a vertex for `currency`, and the
vertices of every two distinct exchanges are joined by identity cells in
both directions. -/
def IdentityLinked (exchanges : List String) (currency : String) (e : Engine) : Prop :=
  (∀ x ∈ exchanges, ∃ i, findExchangeCurrencyPair e x currency = some i) ∧
  (∀ x1 ∈ exchanges, ∀ x2 ∈ exchanges, x1 ≠ x2 →
    ∃ i j, findExchangeCurrencyPair e x1 currency = some i ∧
      findExchangeCurrencyPair e x2 currency = some j ∧
      IdentityCell e.m_adjacencyTable i j ∧ IdentityCell e.m_adjacencyTable j i)

/-- Three exchanges that each quote USD -> EUR, in the order `A`, `B`, `C`. -/
def threeExchangeUpdates : List ((Nat → Int) × RateUpdate) :=
  [(sampleClock, mkUpdate 1509529343 "A" "USD" "EUR" (9/10) 1),
   (sampleClock, mkUpdate 1509529343 "B" "USD" "EUR" (9/10) 1),
   (sampleClock, mkUpdate 1509529343 "C" "USD" "EUR" (9/10) 1)]

/-- The engine after `threeExchangeUpdates`; the USD vertices are
0 = A/USD, 2 = B/USD and 4 = C/USD. -/
def threeExchangeEngine : Engine :=
  { m_exchanges := ["A", "B", "C"]
    m_currencies := ["USD", "EUR"]
    m_exchangeCurrencyPairToIndexMapping :=
      [(("A", "USD"), 0), (("A", "EUR"), 1), (("B", "USD"), 2), (("B", "EUR"), 3),
       (("C", "USD"), 4), (("C", "EUR"), 5)]
    m_exchangeCurrencyPairsByIndex :=
      [("A", "USD"), ("A", "EUR"), ("B", "USD"), ("B", "EUR"), ("C", "USD"), ("C", "EUR")]
    m_adjacencyTable :=
      [[(0, 0), (1509529343, 9/10), (1509529343, 1), (0, 0), (1509529343, 1), (0, 0)],
       [(1509529343, 1), (0, 0), (0, 0), (1509529343, 1), (0, 0), (1509529343, 1)],
       [(1509529343, 1), (0, 0), (0, 0), (1509529343, 9/10), (1509529343, 1), (0, 0)],
       [(0, 0), (1509529343, 1), (1509529343, 1), (0, 0), (0, 0), (1509529343, 1)],
       [(1509529343, 1), (0, 0), (1509529343, 1), (0, 0), (0, 0), (1509529343, 9/10)],
       [(0, 0), (1509529343, 1), (0, 0), (1509529343, 1), (1509529343, 1), (0, 0)]] }

/-- The engine `twoExchangeEngine` after `A` quotes the new currency JPY
against USD; the JPY vertices are 5 = A/JPY and 6 = B/JPY. -/
def newCurrencyEngine : Engine :=
  { m_exchanges := ["A", "B"]
    m_currencies := ["USD", "EUR", "GBP", "JPY"]
    m_exchangeCurrencyPairToIndexMapping :=
      [(("A", "USD"), 0), (("A", "EUR"), 1), (("B", "USD"), 2), (("A", "GBP"), 3),
       (("B", "GBP"), 4), (("A", "JPY"), 5), (("B", "JPY"), 6)]
    m_exchangeCurrencyPairsByIndex :=
      [("A", "USD"), ("A", "EUR"), ("B", "USD"), ("A", "GBP"), ("B", "GBP"), ("A", "JPY"),
       ("B", "JPY")]
    m_adjacencyTable :=
      [[(0, 0), (1509529343, 1), (1509529343, 1), (0, 0), (0, 0), (1509529400, 2), (0, 0)],
       [(1509529343, 1), (0, 0), (0, 0), (0, 0), (0, 0), (0, 0), (0, 0)],
       [(1509529343, 1), (0, 0), (0, 0), (0, 0), (1509529343, 1), (0, 0), (0, 0)],
       [(0, 0), (0, 0), (0, 0), (0, 0), (1509529343, 1), (0, 0), (0, 0)],
       [(0, 0), (0, 0), (1509529343, 1), (1509529343, 1), (0, 0), (0, 0), (0, 0)],
       [(1509529400, 1/2), (0, 0), (0, 0), (0, 0), (0, 0), (0, 0), (1509529343, 1)],
       [(0, 0), (0, 0), (0, 0), (0, 0), (0, 0), (1509529343, 1), (0, 0)]] }

/-- Every entry of the next-hop table is a vertex of the table. -/
def NextInRange (n : Nat) (next : NextTable) : Prop :=
  ∀ i j v, get2 none next i j = some v → v < n

/-- The cell `(a, b)` joins the vertices of one currency on two different
exchanges. -/
def CrossCell (e : Engine) (a b : Nat) : Prop :=
  ∃ x1 x2 c, x1 ≠ x2 ∧ findExchangeCurrencyPair e x1 c = some a ∧
    findExchangeCurrencyPair e x2 c = some b

/-- Every cell of `e` that differs from the cell of `e0` joins the vertices
of one currency on two different exchanges. -/
def OnlyCrossChanged (e0 e : Engine) : Prop :=
  ∀ a b, cellAt e.m_adjacencyTable a b ≠ cellAt e0.m_adjacencyTable a b → CrossCell e a b

/-- The engine `twoExchangeEngine` after `A` quotes EUR -> GBP at 1/2 and 2;
the vertices are 1 = A/EUR and 3 = A/GBP. -/
def firstQuoteEngine : Engine :=
  { twoExchangeEngine with
    m_adjacencyTable :=
      [[(0, 0), (1509529343, 1), (1509529343, 1), (0, 0), (0, 0)],
       [(1509529343, 1), (0, 0), (0, 0), (1509529400, 1/2), (0, 0)],
       [(1509529343, 1), (0, 0), (0, 0), (0, 0), (1509529343, 1)],
       [(0, 0), (1509529400, 2), (0, 0), (0, 0), (1509529343, 1)],
       [(0, 0), (0, 0), (1509529343, 1), (1509529343, 1), (0, 0)]] }


/-! ## Walks, paths and cycles of the rate graph -/

/-- A directed path without repeated vertices from `s` to `d` in the table. -/
def IsSimplePath (t : AdjacencyTable) (s d : Nat) (q : List Nat) : Prop :=
  q.head? = some s ∧ q.getLast? = some d ∧ q.Nodup ∧ IsChain t q ∧ ∀ v ∈ q, v < t.length

/-- A directed cycle of the table: a closed vertex sequence `v, ..., v` of
one or more edges (a self-loop is `[v, v]`) that repeats no vertex apart
from its endpoint. -/
def IsCycle (t : AdjacencyTable) (c : List Nat) : Prop :=
  ∃ v rest, c = v :: rest ∧ rest ≠ [] ∧ rest.getLast? = some v ∧ rest.Nodup ∧
    IsChain t c ∧ ∀ x ∈ c, x < t.length

/-- No directed cycle multiplies to more than 1. -/
def NoArbitrage (t : AdjacencyTable) : Prop :=
  ∀ c, IsCycle t c → pathProduct t c ≤ 1

/-- Every edge carries a positive factor. -/
def PositiveFactors (t : AdjacencyTable) : Prop :=
  ∀ i j, isEdge t i j → 0 < factor t i j

/-- `Walk t k i j c`: there is a directed walk of one or more edges from
`i` to `j` whose inner vertices are all smaller than `k` and whose factors
multiply to `c`. -/
inductive Walk (t : AdjacencyTable) (k : Nat) : Nat → Nat → ℚ → Prop
  | edge (i j : Nat) : isEdge t i j → Walk t k i j (factor t i j)
  | cons (i m j : Nat) (c : ℚ) :
      isEdge t i m → m < k → Walk t k m j c → Walk t k i j (factor t i m * c)

/-- No closed walk multiplies to more than 1. -/
def NoGain (t : AdjacencyTable) : Prop :=
  ∀ v c, v < t.length → Walk t t.length v v c → c ≤ 1

/-- `Via t n i m j c`: a walk from `i` to `j` with product `c` whose first
hop is the edge from `i` to `m`. -/
def Via (t : AdjacencyTable) (n i m j : Nat) (c : ℚ) : Prop :=
  isEdge t i m ∧
    ((m = j ∧ c = factor t i j) ∨ (m < n ∧ ∃ c1, Walk t n m j c1 ∧ c = factor t i m * c1))

/-- The entry `rate[i][j]`. -/
def rateAt (st : RateTable × NextTable) (i j : Nat) : ℚ := get2 0 st.1 i j

/-- The entry `next[i][j]`. -/
def nextAt (st : RateTable × NextTable) (i j : Nat) : Option Nat := get2 none st.2 i j

/-- Both local tables have `n` rows of `n` entries. -/
def TableShape (n : Nat) (st : RateTable × NextTable) : Prop :=
  st.1.length = n ∧ (∀ a, a < n → (st.1.getD a []).length = n) ∧
    st.2.length = n ∧ (∀ a, a < n → (st.2.getD a []).length = n)

/-- No entry of `rate` is negative. -/
def NonnegRate (st : RateTable × NextTable) : Prop := ∀ a b, 0 ≤ rateAt st a b

/-- Every positive entry of `rate` is the product of a walk whose first hop
is the entry of `next`. -/
def Witnessed (t : AdjacencyTable) (n : Nat) (st : RateTable × NextTable) : Prop :=
  ∀ a b, 0 < rateAt st a b → ∃ m, nextAt st a b = some m ∧ Via t n a m b (rateAt st a b)

/-- Every walk whose inner vertices are below `k` is matched by `rate`. -/
def LowerBound (t : AdjacencyTable) (n k : Nat) (st : RateTable × NextTable) : Prop :=
  ∀ i j c, i < n → j < n → Walk t k i j c → c ≤ rateAt st i j

/-- The facts about the local tables that hold at every moment of the solver. -/
def Sound (t : AdjacencyTable) (n : Nat) (st : RateTable × NextTable) : Prop :=
  TableShape n st ∧ NonnegRate st ∧ Witnessed t n st


/-! ## Invariants of the registry and the table -/

/-- The adjacency table has as many rows as there are registered vertices
and every row has as many cells. -/
def SquareTable (e : Engine) : Prop :=
  e.m_adjacencyTable.length = e.m_exchangeCurrencyPairsByIndex.length ∧
    ∀ row ∈ e.m_adjacencyTable, row.length = e.m_exchangeCurrencyPairsByIndex.length

/-- The pair-to-index map and the index-to-pair vector are inverse to each
other. -/
def RegistryBijective (e : Engine) : Prop :=
  ∀ p i, mapFind e.m_exchangeCurrencyPairToIndexMapping p = some i ↔
    e.m_exchangeCurrencyPairsByIndex.get? i = some p

/-- The snapshot with the vertices 0 = A/USD, 1 = B/EUR, 2 = C/GBP and the
edges 0 -> 1 (0.9), 1 -> 0 (1.05), 1 -> 2 (0.8), 2 -> 1 (1.2), the first
pair stamped `t1` and the second `t2`. -/
def scenarioTable (t1 t2 : Int) : AdjacencyTable :=
  [[(0, 0), (t1, 9/10), (0, 0)],
   [(t1, 105/100), (0, 0), (t2, 8/10)],
   [(0, 0), (t2, 12/10), (0, 0)]]


/-- A library whose `get_time` accepts the date and time format and reports
failure, leaving the `tm` zeroed, for the format of the time zone; `mktime`
returns one fixed instant and `stod` reads every token as 1. -/
def zoneRejectingLib : StdLib :=
  { get_time := fun format _ =>
      (⟨0, 0, 0, 0, 0, 0⟩, decide (format = "%H:%M"))
    mktime := fun _ => 1509529343
    stod := fun s => some (1, s.length)
    stodWhat := fun _ => "stod" }

/-- The timestamp token `2017-11-01T09:42:23+XX:YY`, whose offset portion is
not an `HH:MM` value. -/
def badZoneToken : List Char := "2017-11-01T09:42:23+XX:YY".toList

/-- A rate update line whose timestamp is `badZoneToken`. -/
def badZoneLine : List Char := "2017-11-01T09:42:23+XX:YY A USD EUR 1.0 1.0".toList

/-- The tokens read by calling `parseNextToken` until it returns `false`;
`fuel` bounds the number of calls and `none` means that it ran out. -/
def StringTokenizer.allTokens (delimiters : List Char) :
    Nat → StringTokenizer → Option (List (List Char))
  | 0, _ => none
  | fuel + 1, t =>
    if (t.parseNextToken delimiters).1 = false then some []
    else
      (StringTokenizer.allTokens delimiters fuel (t.parseNextToken delimiters).2).map
        (fun ts => (t.parseNextToken delimiters).2.m_token :: ts)

/-- The list `ts` is the list of the maximal runs of characters of `s` that
are outside `delimiters`, in order: `s` is read from the left, a delimiter
is skipped, and a run is a non-empty block without a delimiter that ends at
the end of `s` or right before a delimiter. -/
inductive MaximalRuns (delimiters : List Char) : List Char → List (List Char) → Prop
  | nil : MaximalRuns delimiters [] []
  | skip (c : Char) (s : List Char) (ts : List (List Char)) :
      c ∈ delimiters → MaximalRuns delimiters s ts → MaximalRuns delimiters (c :: s) ts
  | run (tok rest : List Char) (ts : List (List Char)) :
      tok ≠ [] → (∀ c ∈ tok, c ∉ delimiters) →
      (rest = [] ∨ ∃ c rest1, c ∈ delimiters ∧ rest = c :: rest1) →
      MaximalRuns delimiters rest ts → MaximalRuns delimiters (tok ++ rest) (tok :: ts)

/-- Every registered pair is made of a known exchange and a known currency. -/
def NamesKnown (e : Engine) : Prop :=
  ∀ x c i, findExchangeCurrencyPair e x c = some i →
    x ∈ e.m_exchanges ∧ c ∈ e.m_currencies

/-- The cell `(i, j)` holds an identity edge: `i` and `j` are the vertices
of one currency on two different exchanges (the cells that lines 286-288
and 304-306 write), the timestamp is set and the factor is 1. -/
def IdentityEdge (e : Engine) (i j : Nat) : Prop :=
  CrossCell e i j ∧ IdentityCell e.m_adjacencyTable i j

/-- The engine `e` has every vertex of `e0` at its index, a consistent
registry, and the cells between vertices of `e0` as they are in `e0`. -/
def KeepsOld (e0 e : Engine) : Prop :=
  (∀ x c i, findExchangeCurrencyPair e0 x c = some i →
    findExchangeCurrencyPair e x c = some i) ∧
  RegistryConsistent e ∧
  ∀ a b, a < e0.m_exchangeCurrencyPairsByIndex.length →
    b < e0.m_exchangeCurrencyPairsByIndex.length →
    cellAt e.m_adjacencyTable a b = cellAt e0.m_adjacencyTable a b

/-- The local tables after the fill loops and the first `K` rounds of the
loop over `k` (lines 345-359). -/
def phaseTables (t : AdjacencyTable) (K : Nat) : RateTable × NextTable :=
  (List.range K).foldl (fun st k => relaxPhase t.length k st)
    (fillTables t t.length (zeroRate t.length, invalidNext t.length))

/-- Every entry of `next` other than `INVALID_INDEX` stands at a positive
entry of `rate`. -/
def Backed (st : RateTable × NextTable) : Prop :=
  ∀ a b m, nextAt st a b = some m → 0 < rateAt st a b

/-- Every walk whose inner vertices are below `k` has a positive entry in
`rate`. -/
def Connected (t : AdjacencyTable) (n k : Nat) (st : RateTable × NextTable) : Prop :=
  ∀ i j c, i < n → j < n → Walk t k i j c → 0 < rateAt st i j

/-- A table of three vertices in which no edge enters or leaves vertex 2. -/
def isolatedTable : AdjacencyTable :=
  [[(0, 0), (1509529343, 1/2), (0, 0)],
   [(1509529343, 2), (0, 0), (0, 0)],
   [(0, 0), (0, 0), (0, 0)]]

/-- The entry `rate[a][b]` after the round of `k`, computed from the tables
`st` as they are when the round begins. -/
def phaseRate (k : Nat) (st : RateTable × NextTable) (a b : Nat) : ℚ :=
  if rateAt st a b < rateAt st a k * rateAt st k b then rateAt st a k * rateAt st k b
  else rateAt st a b

/-- The entry `next[a][b]` after the round of `k`, computed from the tables
`st` as they are when the round begins. -/
def phaseNext (k : Nat) (st : RateTable × NextTable) (a b : Nat) : Option Nat :=
  if rateAt st a b < rateAt st a k * rateAt st k b then nextAt st a k else nextAt st a b

/-- During the round of `k` that began with the tables `st`, every entry of
the tables `s` is as it was in `st` or as it will be when the round ends. -/
def PhaseInv (n k : Nat) (st s : RateTable × NextTable) : Prop :=
  TableShape n s ∧
    ∀ a b, (rateAt s a b = rateAt st a b ∧ nextAt s a b = nextAt st a b) ∨
      (rateAt s a b = phaseRate k st a b ∧ nextAt s a b = phaseNext k st a b)

/-- The last round among the first `K` that changed the entry `(a, b)`:
`k + 1` for the round of `k`, and `0` when the entry is as the fill loops
left it. -/
def lastUpdate (t : AdjacencyTable) : Nat → Nat → Nat → Nat
  | 0, _, _ => 0
  | K + 1, a, b =>
    if rateAt (phaseTables t K) a b <
        rateAt (phaseTables t K) a K * rateAt (phaseTables t K) K b then K + 1
    else lastUpdate t K a b

/-- `Chase next d u l`: following the entries `next[.][d]` from `u` reaches
`d` after `l` hops. -/
inductive Chase (next : NextTable) (d : Nat) : Nat → Nat → Prop
  | here : Chase next d d 0
  | hop (u v l : Nat) : u ≠ d → get2 none next u d = some v → Chase next d v l →
      Chase next d u (l + 1)

/-! ## Invariants of the cells -/

/-- The two cells between a pair of vertices carry the same timestamp. -/
def SymmetricCells (t : AdjacencyTable) : Prop :=
  ∀ i j, (cellAt t i j).1 = (cellAt t j i).1

/-- The factors of the two edges between two distinct vertices multiply to
at most 1. -/
def PairBounded (t : AdjacencyTable) : Prop :=
  ∀ i j, i ≠ j → isEdge t i j → factor t i j * factor t j i ≤ 1

/-- Every edge between vertices of two different exchanges joins vertices
of one currency and has the factor 1. -/
def CrossIdentity (e : Engine) : Prop :=
  ∀ x1 c1 x2 c2 i j, findExchangeCurrencyPair e x1 c1 = some i →
    findExchangeCurrencyPair e x2 c2 = some j → x1 ≠ x2 →
    isEdge e.m_adjacencyTable i j → c1 = c2 ∧ factor e.m_adjacencyTable i j = 1

/-- Every cell of `e` is as it is in `e0` or holds the factor 1. -/
def OldOrUnit (e0 e : Engine) : Prop :=
  ∀ a b, cellAt e.m_adjacencyTable a b = cellAt e0.m_adjacencyTable a b ∨
    (cellAt e.m_adjacencyTable a b).2 = 1
/-! ## Facts about two-dimensional tables -/

theorem length_set2 {α : Type} (t : List (List α)) (i j : Nat) (v : α) :
    (set2 t i j v).length = t.length := by
  simp [set2]

theorem getD_set2_length {α : Type} (t : List (List α)) (i j : Nat) (v : α) (a : Nat) :
    ((set2 t i j v).getD a []).length = (t.getD a []).length := by
  unfold set2
  by_cases h : i < t.length
  · by_cases ha : a = i
    · subst ha
      simp [List.getD_eq_getElem?_getD, List.getElem?_set, h]
    · simp [List.getD_eq_getElem?_getD, List.getElem?_set, Ne.symm ha]
  · rw [List.set_eq_of_length_le (by omega)]

theorem get2_set2 {α : Type} (dflt : α) (t : List (List α)) (i j : Nat) (v : α)
    (a b : Nat) :
    get2 dflt (set2 t i j v) a b =
      if a = i ∧ b = j ∧ i < t.length ∧ j < (t.getD i []).length then v
      else get2 dflt t a b := by
  unfold get2 set2
  by_cases hi : i < t.length
  · by_cases ha : a = i
    · subst ha
      by_cases hb : b = j
      · subst hb
        by_cases hj : b < (t.getD a []).length
        · simp [List.getD_eq_getElem?_getD, List.getElem?_set, hi, hj] at hj ⊢
          simp [hj]
        · rw [if_neg (by tauto)]
          simp [List.getD_eq_getElem?_getD, List.getElem?_set, hi] at hj ⊢
          rw [List.getElem?_eq_none hj, if_neg (by omega)]
      · simp [List.getD_eq_getElem?_getD, List.getElem?_set, hi, hb, Ne.symm hb]
    · simp [List.getD_eq_getElem?_getD, List.getElem?_set, ha, Ne.symm ha]
  · rw [List.set_eq_of_length_le (by omega)]
    simp [hi]

/-! ## Loops as folds -/

theorem foldl_invariant {α β : Type} (P : β → Prop) (f : β → α → β) (l : List α)
    (h : ∀ b a, a ∈ l → P b → P (f b a)) (b : β) (hb : P b) : P (l.foldl f b) := by
  induction l generalizing b with
  | nil => simpa using hb
  | cons x xs ih =>
    simp only [List.foldl_cons]
    exact ih (fun b a ha => h b a (List.mem_cons_of_mem _ ha)) _
      (h b x (List.mem_cons_self _ _) hb)

theorem get2_replicate {α : Type} (dflt : α) (n m i j : Nat) :
    get2 dflt (List.replicate n (List.replicate m dflt)) i j = dflt := by
  unfold get2
  by_cases hi : i < n
  · by_cases hj : j < m
    · simp [List.getD_eq_getElem?_getD, List.getElem?_replicate, hi, hj]
    · simp [List.getD_eq_getElem?_getD, List.getElem?_replicate, hi, hj]
  · simp [List.getD_eq_getElem?_getD, List.getElem?_replicate, hi]

/-! ## The next-hop table points along edges -/

theorem nextAlongEdges_invalidNext (t : AdjacencyTable) (n : Nat) :
    NextAlongEdges t (invalidNext n) := by
  intro i j v h
  rw [invalidNext, get2_replicate] at h
  cases h

theorem nextAlongEdges_fillCell (t : AdjacencyTable) (i j : Nat)
    (st : RateTable × NextTable) (h : NextAlongEdges t st.2) :
    NextAlongEdges t (fillCell t i j st).2 := by
  unfold fillCell
  split
  · rename_i hc
    intro a b v hv
    simp only [get2_set2] at hv
    split at hv
    · rename_i hab
      cases hv
      rw [hab.1]
      exact hc
    · exact h a b v hv
  · exact h

theorem nextAlongEdges_fillTables (t : AdjacencyTable) (n : Nat)
    (st : RateTable × NextTable) (h : NextAlongEdges t st.2) :
    NextAlongEdges t (fillTables t n st).2 := by
  unfold fillTables
  refine foldl_invariant (fun st => NextAlongEdges t st.2) _ _ ?_ st h
  intro st i _ hst
  refine foldl_invariant (fun st => NextAlongEdges t st.2) _ _ ?_ st hst
  intro st j _ hst
  exact nextAlongEdges_fillCell t i j st hst

theorem nextAlongEdges_relax (t : AdjacencyTable) (k i j : Nat)
    (st : RateTable × NextTable) (h : NextAlongEdges t st.2) :
    NextAlongEdges t (relax k i j st).2 := by
  unfold relax
  simp only
  split
  · intro a b v hv
    simp only [get2_set2] at hv
    split at hv
    · rename_i hab
      rw [hab.1]
      exact h i k v hv
    · exact h a b v hv
  · exact h

theorem nextAlongEdges_floydWarshall (t : AdjacencyTable) (n : Nat)
    (st : RateTable × NextTable) (h : NextAlongEdges t st.2) :
    NextAlongEdges t (floydWarshall n st).2 := by
  unfold floydWarshall
  refine foldl_invariant (fun st => NextAlongEdges t st.2) _ _ ?_ st h
  intro st k _ hst
  unfold relaxPhase
  refine foldl_invariant (fun st => NextAlongEdges t st.2) _ _ ?_ st hst
  intro st i _ hst
  unfold relaxRow
  refine foldl_invariant (fun st => NextAlongEdges t st.2) _ _ ?_ st hst
  intro st j _ hst
  exact nextAlongEdges_relax t k i j st hst

theorem nextAlongEdges_solverTables (t : AdjacencyTable) :
    NextAlongEdges t (solverTables t).2 :=
  nextAlongEdges_floydWarshall t _ _
    (nextAlongEdges_fillTables t _ _ (nextAlongEdges_invalidNext t _))

/-! ## The reconstruction walk -/

theorem isChain_append_singleton (t : AdjacencyTable) (path : List Nat) (u v : Nat)
    (hc : IsChain t path) (hl : path.getLast? = some u) (he : isEdge t u v) :
    IsChain t (path ++ [v]) := by
  induction path with
  | nil => simp at hl
  | cons a rest ih =>
    cases rest with
    | nil =>
      simp at hl
      subst hl
      exact ⟨he, trivial⟩
    | cons b rest2 =>
      refine ⟨hc.1, ?_⟩
      apply ih hc.2
      simpa [List.getLast?_cons_cons] using hl

theorem walk_found (t : AdjacencyTable) (next : NextTable) (hn : NextAlongEdges t next)
    (s d : Nat) (fuel u : Nat) (path p : List Nat)
    (hh : path.head? = some s) (hl : path.getLast? = some u) (hc : IsChain t path)
    (h : walk next d fuel u path = .found p) :
    p.head? = some s ∧ p.getLast? = some d ∧ IsChain t p := by
  induction fuel generalizing u path with
  | zero =>
    unfold walk at h
    split at h
    · rename_i hud
      cases h
      exact ⟨hh, hud ▸ hl, hc⟩
    · cases h
  | succ fuel ih =>
    unfold walk at h
    split at h
    · rename_i hud
      cases h
      exact ⟨hh, hud ▸ hl, hc⟩
    · simp only at h
      split at h
      · cases h
      · rename_i v hv
        split at h
        · cases h
        · refine ih v (path ++ [v]) ?_ ?_ ?_ h
          · cases path with
            | nil => simp at hh
            | cons a rest => simpa using hh
          · simp
          · exact isChain_append_singleton t path u v hc hl (hn u d v hv)

theorem generateExchangePath_found (t : AdjacencyTable) (s d : Nat) (p : List Nat)
    (h : generateExchangePath t s d = .found p) :
    p.head? = some s ∧ p.getLast? = some d ∧ IsChain t p := by
  unfold generateExchangePath at h
  split at h
  · unfold constructPath at h
    split at h
    · cases h
    · exact walk_found t _ (nextAlongEdges_solverTables t) s d _ s [s] p rfl rfl trivial h
  · cases h

theorem returned_nonempty {r : PathResult} {p : List Nat}
    (h : r.returned = some p) (hne : p ≠ []) : r = .found p := by
  cases r <;> simp [PathResult.returned] at h <;> first | (subst h; rfl) | (exact absurd h hne)


/-! ## The iteration budget of the walk is never spent -/

theorem nextInRange_fillTables (t : AdjacencyTable) (n : Nat) (st : RateTable × NextTable)
    (h : NextInRange n st.2) : NextInRange n (fillTables t n st).2 := by
  unfold fillTables
  refine foldl_invariant (fun st => NextInRange n st.2) _ _ ?_ st h
  intro s i _ hs
  refine foldl_invariant (fun st => NextInRange n st.2) _ _ ?_ s hs
  intro s2 j hj hs2
  unfold fillCell
  split
  · intro a b v hv
    simp only [get2_set2] at hv
    split at hv
    · cases hv
      exact List.mem_range.mp hj
    · exact hs2 a b v hv
  · exact hs2

theorem nextInRange_floydWarshall (n : Nat) (st : RateTable × NextTable)
    (h : NextInRange n st.2) : NextInRange n (floydWarshall n st).2 := by
  unfold floydWarshall
  refine foldl_invariant (fun st => NextInRange n st.2) _ _ ?_ st h
  intro s k _ hs
  unfold relaxPhase
  refine foldl_invariant (fun st => NextInRange n st.2) _ _ ?_ s hs
  intro s2 i _ hs2
  unfold relaxRow
  refine foldl_invariant (fun st => NextInRange n st.2) _ _ ?_ s2 hs2
  intro s3 j _ hs3
  unfold relax
  simp only
  split
  · intro a b v hv
    simp only [get2_set2] at hv
    split at hv
    · exact hs3 i k v hv
    · exact hs3 a b v hv
  · exact hs3

theorem nextInRange_solverTables (t : AdjacencyTable) :
    NextInRange t.length (solverTables t).2 := by
  apply nextInRange_floydWarshall
  apply nextInRange_fillTables
  intro i j v hv
  rw [invalidNext, get2_replicate] at hv
  cases hv

theorem nodup_length_le (n : Nat) (l : List Nat) (hn : l.Nodup) (hb : ∀ x ∈ l, x < n) :
    l.length ≤ n := by
  have hsub : l ⊆ List.range n := fun x hx => List.mem_range.mpr (hb x hx)
  have := (List.subperm_of_subset hn hsub).length_le
  rwa [List.length_range] at this

theorem walk_ne_outOfFuel (n : Nat) (next : NextTable) (hnext : NextInRange n next)
    (d fuel u : Nat) (path : List Nat) (hn : path.Nodup) (hb : ∀ x ∈ path, x < n)
    (hlen : path.length + fuel = n + 1) : walk next d fuel u path ≠ .outOfFuel := by
  induction fuel generalizing u path with
  | zero =>
    have := nodup_length_le n path hn hb
    omega
  | succ fuel ih =>
    unfold walk
    split
    · intro h; cases h
    · simp only
      split
      · intro h; cases h
      · rename_i v hv
        split
        · intro h; cases h
        · rename_i hmem
          apply ih v (path ++ [v])
          · rw [List.nodup_append]
            refine ⟨hn, List.nodup_singleton v, ?_⟩
            intro x hx1 hx2
            simp only [List.mem_singleton] at hx2
            exact hmem (hx2 ▸ hx1)
          · intro x hx
            rcases List.mem_append.mp hx with h1 | h1
            · exact hb x h1
            · simp only [List.mem_singleton] at h1
              rw [h1]
              exact hnext u d v hv
          · simp only [List.length_append, List.length_singleton]
            omega

/-- The budget of `n` iterations given to the walk always suffices: the
embedded `generateExchangePath` never ends for lack of fuel. -/
theorem generateExchangePath_ne_outOfFuel (t : AdjacencyTable) (s d : Nat) :
    generateExchangePath t s d ≠ .outOfFuel := by
  unfold generateExchangePath
  split
  · rename_i hguard
    unfold constructPath
    split
    · intro h; cases h
    · apply walk_ne_outOfFuel t.length _ (nextInRange_solverTables t) d t.length s [s]
      · exact List.nodup_singleton s
      · intro x hx
        simp only [List.mem_singleton] at hx
        rw [hx]
        exact hguard.2.1
      · simp
        omega
  · intro h; cases h


/-! ## Name sets -/

theorem setInsert_mem (s : List String) (x : String) : x ∈ (setInsert s x).1 := by
  unfold setInsert
  split <;> simp_all

theorem setInsert_mono (s : List String) (x y : String) (h : y ∈ s) :
    y ∈ (setInsert s x).1 := by
  unfold setInsert
  split <;> simp_all

theorem setInsert_of_mem (s : List String) (x : String) (h : x ∈ s) :
    setInsert s x = (s, false) := by
  simp [setInsert, h]

theorem setInsert_of_not_mem (s : List String) (x : String) (h : x ∉ s) :
    setInsert s x = (s ++ [x], true) := by
  simp [setInsert, h]

/-! ## Timestamp-gated cell update -/

theorem updateCell_some {t t1 : AdjacencyTable} {i j : Option Nat} {ts : Int} {f : ℚ}
    (h : updateCell t i j ts f = some t1) :
    ∃ a b, i = some a ∧ j = some b ∧ a < t.length ∧ b < (t.getD a []).length ∧
      t1 = if (cellAt t a b).1 < ts then set2 t a b (ts, f) else t := by
  unfold updateCell at h
  split at h
  · rename_i a b
    split at h
    · rename_i hr
      cases h
      exact ⟨a, b, rfl, rfl, hr.1, hr.2, rfl⟩
    · cases h
  · cases h

theorem updateCell_length {t t1 : AdjacencyTable} {i j : Option Nat} {ts : Int} {f : ℚ}
    (h : updateCell t i j ts f = some t1) : t1.length = t.length := by
  obtain ⟨a, b, -, -, -, -, rfl⟩ := updateCell_some h
  split
  · exact length_set2 _ _ _ _
  · rfl

theorem updateCell_row_length {t t1 : AdjacencyTable} {i j : Option Nat} {ts : Int} {f : ℚ}
    (h : updateCell t i j ts f = some t1) (a : Nat) :
    (t1.getD a []).length = (t.getD a []).length := by
  obtain ⟨_, _, -, -, -, -, rfl⟩ := updateCell_some h
  split
  · exact getD_set2_length _ _ _ _ _
  · rfl

theorem cellAt_set2 (t : AdjacencyTable) (i j : Nat) (c : Cell) (a b : Nat) :
    cellAt (set2 t i j c) a b =
      if a = i ∧ b = j ∧ i < t.length ∧ j < (t.getD i []).length then c
      else cellAt t a b := by
  unfold cellAt
  exact get2_set2 _ _ _ _ _ _ _

theorem updateCell_timestamp_mono {t t1 : AdjacencyTable} {i j : Option Nat} {ts : Int}
    {f : ℚ} (h : updateCell t i j ts f = some t1) (a b : Nat) :
    (cellAt t a b).1 ≤ (cellAt t1 a b).1 := by
  obtain ⟨x, y, -, -, -, -, rfl⟩ := updateCell_some h
  split
  · rename_i hlt
    rw [cellAt_set2]
    split
    · rename_i hab
      rw [hab.1, hab.2.1]
      exact le_of_lt hlt
    · exact le_refl _
  · exact le_refl _

theorem updateCell_timestamp_ge {t t1 : AdjacencyTable} {a b : Nat} {ts : Int}
    {f : ℚ} (h : updateCell t (some a) (some b) ts f = some t1) :
    ts ≤ (cellAt t1 a b).1 := by
  obtain ⟨x, y, hx, hy, hr1, hr2, rfl⟩ := updateCell_some h
  cases hx
  cases hy
  split
  · rw [cellAt_set2, if_pos ⟨rfl, rfl, hr1, hr2⟩]
  · rename_i hlt
    exact not_lt.mp hlt

theorem updateCell_noop (t : AdjacencyTable) (a b : Nat) (ts : Int) (f : ℚ)
    (hr1 : a < t.length) (hr2 : b < (t.getD a []).length)
    (hts : ts ≤ (cellAt t a b).1) : updateCell t (some a) (some b) ts f = some t := by
  unfold updateCell
  simp only
  rw [if_pos ⟨hr1, hr2⟩, if_neg (not_lt.mpr hts)]

/-! ## What the steps of an update leave alone -/

theorem directUpdate_some {e e1 : Engine} {u : RateUpdate} (h : directUpdate e u = some e1) :
    ∃ si di t1 t2,
      findExchangeCurrencyPair e u.exchange u.sourceCurrency = some si ∧
      findExchangeCurrencyPair e u.exchange u.destinationCurrency = some di ∧
      updateCell e.m_adjacencyTable (some si) (some di) u.timestamp u.forwardFactor
        = some t1 ∧
      updateCell t1 (some di) (some si) u.timestamp u.backwardFactor = some t2 ∧
      e1 = { e with m_adjacencyTable := t2 } := by
  unfold directUpdate at h
  split at h
  · cases h
  · rename_i t1 h1
    split at h
    · cases h
    · rename_i t2 h2
      cases h
      obtain ⟨si, di, hs, hd, -, -, -⟩ := updateCell_some h1
      rw [hs, hd] at h1 h2
      exact ⟨si, di, t1, t2, hs, hd, h1, h2, rfl⟩

theorem directUpdate_idempotent {e e1 : Engine} {u : RateUpdate}
    (h : directUpdate e u = some e1) : directUpdate e1 u = some e1 := by
  obtain ⟨si, di, t1, t2, hs, hd, h1, h2, rfl⟩ := directUpdate_some h
  obtain ⟨_, _, hx, hy, hr1, hr2, -⟩ := updateCell_some h1
  cases hx
  cases hy
  obtain ⟨_, _, hx, hy, hr3, hr4, -⟩ := updateCell_some h2
  cases hx
  cases hy
  have hfs : findExchangeCurrencyPair { e with m_adjacencyTable := t2 } u.exchange
      u.sourceCurrency = some si := hs
  have hfd : findExchangeCurrencyPair { e with m_adjacencyTable := t2 } u.exchange
      u.destinationCurrency = some di := hd
  unfold directUpdate
  rw [hfs, hfd]
  simp only
  have hl : t2.length = e.m_adjacencyTable.length := by
    rw [updateCell_length h2, updateCell_length h1]
  have hrow : ∀ a, (t2.getD a []).length = (e.m_adjacencyTable.getD a []).length := by
    intro a
    rw [updateCell_row_length h2, updateCell_row_length h1]
  have hrow1 : ∀ a, (t1.getD a []).length = (e.m_adjacencyTable.getD a []).length :=
    fun a => updateCell_row_length h1 a
  have g1 : u.timestamp ≤ (cellAt t2 si di).1 :=
    le_trans (updateCell_timestamp_ge h1) (updateCell_timestamp_mono h2 si di)
  have g2 : u.timestamp ≤ (cellAt t2 di si).1 := updateCell_timestamp_ge h2
  rw [updateCell_noop t2 si di _ _ (by rw [hl]; exact hr1) (by rw [hrow]; exact hr2) g1]
  simp only
  rw [updateCell_noop t2 di si _ _ (by rw [updateCell_length h2]; exact hr3)
    (by rw [hrow, ← hrow1]; exact hr4) g2]


theorem sameRegistry_refl (e : Engine) : SameRegistry e e := ⟨rfl, rfl, rfl, rfl⟩

theorem sameRegistry_trans {a b c : Engine} (h1 : SameRegistry a b) (h2 : SameRegistry b c) :
    SameRegistry a c :=
  ⟨h2.1.trans h1.1, h2.2.1.trans h1.2.1, h2.2.2.1.trans h1.2.2.1, h2.2.2.2.trans h1.2.2.2⟩

theorem sameRegistry_names {a b : Engine} (h : SameRegistry a b) : SameNames a b :=
  ⟨h.1, h.2.1⟩

theorem sameRegistry_find {a b : Engine} (h : SameRegistry a b) (x c : String) :
    findExchangeCurrencyPair b x c = findExchangeCurrencyPair a x c := by
  unfold findExchangeCurrencyPair
  rw [h.2.2.1]

theorem sameNames_refl (e : Engine) : SameNames e e := ⟨rfl, rfl⟩

theorem sameNames_trans {a b c : Engine} (h1 : SameNames a b) (h2 : SameNames b c) :
    SameNames a c :=
  ⟨h2.1.trans h1.1, h2.2.trans h1.2⟩

theorem connect_some {clock : Nat → Int} {st st1 : Engine × Nat} {i j : Option Nat}
    (h : connect clock st i j = some st1) :
    ∃ t1 t2, writeCell st.1.m_adjacencyTable i j (clock st.2, 1) = some t1 ∧
      writeCell t1 j i (clock st.2, 1) = some t2 ∧
      st1 = ({ st.1 with m_adjacencyTable := t2 }, st.2 + 1) := by
  unfold connect at h
  split at h
  · cases h
  · rename_i t1 h1
    split at h
    · cases h
    · rename_i t2 h2
      cases h
      exact ⟨t1, t2, h1, h2, rfl⟩

theorem connect_sameRegistry {clock : Nat → Int} {st st1 : Engine × Nat} {i j : Option Nat}
    (h : connect clock st i j = some st1) : SameRegistry st.1 st1.1 := by
  obtain ⟨t1, t2, -, -, rfl⟩ := connect_some h
  exact ⟨rfl, rfl, rfl, rfl⟩

theorem connectFollowing_sameRegistry (clock : Nat → Int) (currency : String)
    (index1 : Option Nat) (l : List String) (st st1 : Engine × Nat)
    (h : connectFollowing clock currency index1 l st = some st1) :
    SameRegistry st.1 st1.1 := by
  induction l generalizing st with
  | nil =>
    simp only [connectFollowing, Option.some.injEq] at h
    subst h
    exact sameRegistry_refl _
  | cons x rest ih =>
    simp only [connectFollowing] at h
    split at h
    · cases h
    · rename_i st2 h2
      exact sameRegistry_trans (connect_sameRegistry h2) (ih st2 h)

theorem connectPairs_sameRegistry (clock : Nat → Int) (currency : String)
    (l : List String) (st st1 : Engine × Nat)
    (h : connectPairs clock currency l st = some st1) : SameRegistry st.1 st1.1 := by
  induction l generalizing st with
  | nil =>
    simp only [connectPairs, Option.some.injEq] at h
    subst h
    exact sameRegistry_refl _
  | cons x rest ih =>
    simp only [connectPairs] at h
    split at h
    · cases h
    · rename_i st2 h2
      exact sameRegistry_trans (connectFollowing_sameRegistry _ _ _ _ _ _ h2) (ih st2 h)

theorem connectOthers_sameRegistry (clock : Nat → Int) (currency exchange : String)
    (index1 : Nat) (l : List String) (st st1 : Engine × Nat)
    (h : connectOthers clock currency exchange index1 l st = some st1) :
    SameRegistry st.1 st1.1 := by
  induction l generalizing st with
  | nil =>
    simp only [connectOthers, Option.some.injEq] at h
    subst h
    exact sameRegistry_refl _
  | cons x rest ih =>
    simp only [connectOthers] at h
    split at h
    · split at h
      · cases h
      · rename_i st2 h2
        exact sameRegistry_trans (connect_sameRegistry h2) (ih st2 h)
    · exact ih st h

theorem addExchangeCurrencyPair_sameNames (e : Engine) (x c : String) :
    SameNames e (addExchangeCurrencyPair e x c).1 := by
  unfold addExchangeCurrencyPair
  split
  · exact sameNames_refl _
  · exact ⟨rfl, rfl⟩

theorem addPairs_sameNames (c : String) (l : List String) (e : Engine) :
    SameNames e (addPairs c l e) := by
  unfold addPairs
  refine foldl_invariant (fun e1 => SameNames e e1) _ _ ?_ e (sameNames_refl e)
  intro e1 x _ he1
  exact sameNames_trans he1 (addExchangeCurrencyPair_sameNames e1 x c)

theorem provisionNewCurrency_sameNames {clock : Nat → Int} {c : String}
    {st st1 : Engine × Nat} (h : provisionNewCurrency clock c st = some st1) :
    SameNames st.1 st1.1 := by
  unfold provisionNewCurrency at h
  exact sameNames_trans (addPairs_sameNames c _ st.1)
    (sameRegistry_names (connectPairs_sameRegistry _ _ _ _ _ h))

theorem provisionCurrencyForExchange_sameNames {clock : Nat → Int} {c x : String}
    {st st1 : Engine × Nat} (h : provisionCurrencyForExchange clock c x st = some st1) :
    SameNames st.1 st1.1 := by
  unfold provisionCurrencyForExchange at h
  exact sameNames_trans (addExchangeCurrencyPair_sameNames st.1 x c)
    (sameRegistry_names (connectOthers_sameRegistry _ _ _ _ _
      ((addExchangeCurrencyPair st.1 x c).1, st.2) _ h))

theorem provisionFor_sameNames {clock : Nat → Int} {nc nx : Bool} {c x : String}
    {st st1 : Engine × Nat} (h : provisionFor clock nc nx c x st = some st1) :
    SameNames st.1 st1.1 := by
  unfold provisionFor at h
  split at h
  · exact provisionNewCurrency_sameNames h
  · split at h
    · exact provisionCurrencyForExchange_sameNames h
    · cases h
      exact sameNames_refl _

theorem provision_some {clock : Nat → Int} {e e1 : Engine} {u : RateUpdate}
    (h : provision clock e u = some e1) :
    ∃ st1 st2,
      provisionFor clock (insertNames e u).2.2.1 (insertNames e u).2.1
        u.sourceCurrency u.exchange ((insertNames e u).1, 0) = some st1 ∧
      provisionFor clock (insertNames e u).2.2.2 (insertNames e u).2.1
        u.destinationCurrency u.exchange st1 = some st2 ∧ e1 = st2.1 := by
  unfold provision at h
  split at h
  · cases h
  · rename_i st1 h1
    split at h
    · cases h
    · rename_i st2 h2
      cases h
      exact ⟨st1, st2, h1, h2, rfl⟩

theorem provision_sameNames {clock : Nat → Int} {e e1 : Engine} {u : RateUpdate}
    (h : provision clock e u = some e1) : SameNames (insertNames e u).1 e1 := by
  obtain ⟨st1, st2, h1, h2, rfl⟩ := provision_some h
  exact sameNames_trans (provisionFor_sameNames h1) (provisionFor_sameNames h2)

theorem insertNames_of_known (e : Engine) (u : RateUpdate)
    (hx : u.exchange ∈ e.m_exchanges) (hs : u.sourceCurrency ∈ e.m_currencies)
    (hd : u.destinationCurrency ∈ e.m_currencies) :
    insertNames e u = (e, false, false, false) := by
  unfold insertNames
  rw [setInsert_of_mem _ _ hx, setInsert_of_mem _ _ hs]
  simp only
  rw [setInsert_of_mem _ _ hd]

theorem insertNames_mem (e : Engine) (u : RateUpdate) :
    u.exchange ∈ (insertNames e u).1.m_exchanges ∧
      u.sourceCurrency ∈ (insertNames e u).1.m_currencies ∧
      u.destinationCurrency ∈ (insertNames e u).1.m_currencies := by
  unfold insertNames
  exact ⟨setInsert_mem _ _, setInsert_mono _ _ _ (setInsert_mem _ _), setInsert_mem _ _⟩

theorem applyRateUpdate_some {clock : Nat → Int} {e e1 : Engine} {u : RateUpdate}
    (h : applyRateUpdate clock e u = some e1) :
    ∃ ep, provision clock e u = some ep ∧ directUpdate ep u = some e1 := by
  unfold applyRateUpdate at h
  split at h
  · cases h
  · rename_i ep hp
    exact ⟨ep, hp, h⟩

theorem provision_of_known (clock : Nat → Int) (e : Engine) (u : RateUpdate)
    (hx : u.exchange ∈ e.m_exchanges) (hs : u.sourceCurrency ∈ e.m_currencies)
    (hd : u.destinationCurrency ∈ e.m_currencies) : provision clock e u = some e := by
  unfold provision
  rw [insertNames_of_known e u hx hs hd]
  simp [provisionFor]


/-! ## The cells after a direct update -/

theorem updateCell_in_range (t : AdjacencyTable) (a b : Nat) (ts : Int) (f : ℚ)
    (hr1 : a < t.length) (hr2 : b < (t.getD a []).length) :
    updateCell t (some a) (some b) ts f =
      some (if (cellAt t a b).1 < ts then set2 t a b (ts, f) else t) := by
  unfold updateCell
  simp only
  rw [if_pos ⟨hr1, hr2⟩]

theorem updateCell_cellAt {t t1 : AdjacencyTable} {a b : Nat} {ts : Int} {f : ℚ}
    (h : updateCell t (some a) (some b) ts f = some t1) (x y : Nat) :
    cellAt t1 x y =
      if x = a ∧ y = b ∧ (cellAt t a b).1 < ts then (ts, f) else cellAt t x y := by
  obtain ⟨_, _, hx, hy, hr1, hr2, rfl⟩ := updateCell_some h
  cases hx
  cases hy
  by_cases hlt : (cellAt t a b).1 < ts
  · rw [if_pos hlt, cellAt_set2]
    by_cases hxy : x = a ∧ y = b
    · rw [if_pos ⟨hxy.1, hxy.2, hr1, hr2⟩, if_pos ⟨hxy.1, hxy.2, hlt⟩]
    · rw [if_neg (fun hh => hxy ⟨hh.1, hh.2.1⟩), if_neg (fun hh => hxy ⟨hh.1, hh.2.1⟩)]
  · rw [if_neg hlt, if_neg (fun hh => hlt hh.2.2)]

/-- A direct update whose two vertices are registered and inside the table
completes; the forward cell is overwritten exactly when its timestamp is
older, the backward cell likewise, and no other cell changes. -/
theorem directUpdate_cells (e : Engine) (u : RateUpdate) (si di : Nat)
    (hs : findExchangeCurrencyPair e u.exchange u.sourceCurrency = some si)
    (hd : findExchangeCurrencyPair e u.exchange u.destinationCurrency = some di)
    (hr1 : si < e.m_adjacencyTable.length)
    (hr2 : di < (e.m_adjacencyTable.getD si []).length)
    (hr3 : di < e.m_adjacencyTable.length)
    (hr4 : si < (e.m_adjacencyTable.getD di []).length) :
    ∃ e1, directUpdate e u = some e1 ∧ SameRegistry e e1 ∧
      e1.m_adjacencyTable.length = e.m_adjacencyTable.length ∧
      (∀ a, (e1.m_adjacencyTable.getD a []).length = (e.m_adjacencyTable.getD a []).length) ∧
      cellAt e1.m_adjacencyTable si di =
        (if (cellAt e.m_adjacencyTable si di).1 < u.timestamp
          then (u.timestamp, u.forwardFactor) else cellAt e.m_adjacencyTable si di) ∧
      (si ≠ di → cellAt e1.m_adjacencyTable di si =
        (if (cellAt e.m_adjacencyTable di si).1 < u.timestamp
          then (u.timestamp, u.backwardFactor) else cellAt e.m_adjacencyTable di si)) ∧
      (∀ x y, ¬ (x = si ∧ y = di) → ¬ (x = di ∧ y = si) →
        cellAt e1.m_adjacencyTable x y = cellAt e.m_adjacencyTable x y) := by
  have h1 := updateCell_in_range e.m_adjacencyTable si di u.timestamp u.forwardFactor hr1 hr2
  generalize ht1 : (if (cellAt e.m_adjacencyTable si di).1 < u.timestamp
    then set2 e.m_adjacencyTable si di (u.timestamp, u.forwardFactor)
    else e.m_adjacencyTable) = t1 at h1
  have hl1 := updateCell_length h1
  have hw1 := updateCell_row_length h1
  have h2 := updateCell_in_range t1 di si u.timestamp u.backwardFactor
    (by rw [hl1]; exact hr3) (by rw [hw1]; exact hr4)
  generalize ht2 : (if (cellAt t1 di si).1 < u.timestamp
    then set2 t1 di si (u.timestamp, u.backwardFactor) else t1) = t2 at h2
  have hl2 := updateCell_length h2
  have hw2 := updateCell_row_length h2
  refine ⟨{ e with m_adjacencyTable := t2 }, ?_, ⟨rfl, rfl, rfl, rfl⟩, ?_, ?_, ?_, ?_, ?_⟩
  · unfold directUpdate
    rw [hs, hd, h1]
    simp only
    rw [h2]
  · show t2.length = _
    rw [hl2, hl1]
  · intro a
    show (t2.getD a []).length = _
    rw [hw2, hw1]
  · show cellAt t2 si di = _
    have e1 := updateCell_cellAt h1 si di
    rw [updateCell_cellAt h2 si di, e1]
    split
    · rename_i hh
      exfalso
      obtain ⟨h3, -, h5⟩ := hh
      subst h3
      rw [e1] at h5
      split at h5
      · exact lt_irrefl _ h5
      · rename_i hn
        exact hn ⟨rfl, rfl, h5⟩
    · by_cases hlt : (cellAt e.m_adjacencyTable si di).1 < u.timestamp
      · rw [if_pos ⟨rfl, rfl, hlt⟩, if_pos hlt]
      · rw [if_neg (fun hh => hlt hh.2.2), if_neg hlt]
  · intro hne
    show cellAt t2 di si = _
    have e1 := updateCell_cellAt h1 di si
    rw [if_neg (fun hh => hne hh.1.symm)] at e1
    rw [updateCell_cellAt h2 di si, e1]
    by_cases hlt : (cellAt e.m_adjacencyTable di si).1 < u.timestamp
    · rw [if_pos ⟨rfl, rfl, hlt⟩, if_pos hlt]
    · rw [if_neg (fun hh => hlt hh.2.2), if_neg hlt]
  · intro x y hxy hyx
    show cellAt t2 x y = _
    rw [updateCell_cellAt h2, if_neg (fun hh => hyx ⟨hh.1, hh.2.1⟩),
      updateCell_cellAt h1, if_neg (fun hh => hxy ⟨hh.1, hh.2.1⟩)]


/-! ## Validation of the factors -/

theorem validateFactors_eq_none_iff (f b : ℚ) :
    validateFactors f b = none ↔ 0 < f ∧ 0 < b ∧ f * b ≤ 1 := by
  unfold validateFactors
  by_cases h1 : f ≤ 0
  · simp [h1, not_lt.mpr h1]
  · by_cases h2 : b ≤ 0
    · simp [h1, h2, not_lt.mpr h2]
    · by_cases h3 : f * b > 1
      · simp [h1, h2, h3, not_le.mpr h3, not_le.mp h1]
      · simp [h1, h2, h3, not_le.mp h1, not_le.mp h2, not_lt.mp h3]


/-! ## Two updates of one pair on the empty engine -/

theorem provision_empty_ne (clock : Nat → Int) (u : RateUpdate)
    (hne : u.sourceCurrency ≠ u.destinationCurrency) :
    provision clock Engine.empty u =
      some ⟨[u.exchange], [u.sourceCurrency, u.destinationCurrency],
        [((u.exchange, u.sourceCurrency), 0), ((u.exchange, u.destinationCurrency), 1)],
        [(u.exchange, u.sourceCurrency), (u.exchange, u.destinationCurrency)],
        [[(0, 0), (0, 0)], [(0, 0), (0, 0)]]⟩ := by
  simp [provision, insertNames, setInsert, Engine.empty, provisionFor, provisionNewCurrency,
    addPairs, addExchangeCurrencyPair, mapFind, extendAdjancencyTable, connectPairs,
    connectFollowing, findExchangeCurrencyPair, hne, Ne.symm hne]

theorem provision_empty_eq (clock : Nat → Int) (u : RateUpdate)
    (heq : u.sourceCurrency = u.destinationCurrency) :
    provision clock Engine.empty u =
      some ⟨[u.exchange], [u.sourceCurrency],
        [((u.exchange, u.sourceCurrency), 0)],
        [(u.exchange, u.sourceCurrency)],
        [[(0, 0)]]⟩ := by
  simp [provision, insertNames, setInsert, Engine.empty, provisionFor, provisionNewCurrency,
    addPairs, addExchangeCurrencyPair, mapFind, extendAdjancencyTable, connectPairs,
    connectFollowing, findExchangeCurrencyPair, ← heq, provisionCurrencyForExchange,
    connectOthers]

theorem provision_empty_facts (clock : Nat → Int) (u : RateUpdate) :
    ∃ e0 di, provision clock Engine.empty u = some e0 ∧
      di = (if u.sourceCurrency = u.destinationCurrency then 0 else 1) ∧
      findExchangeCurrencyPair e0 u.exchange u.sourceCurrency = some 0 ∧
      findExchangeCurrencyPair e0 u.exchange u.destinationCurrency = some di ∧
      0 < e0.m_adjacencyTable.length ∧ di < (e0.m_adjacencyTable.getD 0 []).length ∧
      di < e0.m_adjacencyTable.length ∧ 0 < (e0.m_adjacencyTable.getD di []).length ∧
      cellAt e0.m_adjacencyTable 0 di = (0, 0) ∧
      cellAt e0.m_adjacencyTable di 0 = (0, 0) ∧
      u.exchange ∈ e0.m_exchanges ∧ u.sourceCurrency ∈ e0.m_currencies ∧
      u.destinationCurrency ∈ e0.m_currencies := by
  by_cases h : u.sourceCurrency = u.destinationCurrency
  · refine ⟨_, 0, provision_empty_eq clock u h, ?_, ?_, ?_, ?_, ?_, ?_, ?_, ?_, ?_, ?_,
      ?_, ?_⟩ <;>
      simp [findExchangeCurrencyPair, mapFind, cellAt, get2, h]
  · refine ⟨_, 1, provision_empty_ne clock u h, ?_, ?_, ?_, ?_, ?_, ?_, ?_, ?_, ?_, ?_,
      ?_, ?_⟩ <;>
      simp [findExchangeCurrencyPair, mapFind, cellAt, get2, h, Ne.symm h]

/-- Two updates of the same exchange and ordered currency pair, applied in
turn to the empty engine: both complete, the source vertex is 0, the
destination vertex is 1 (0 when the two currencies coincide), and each of
the two cells holds the outcome of two timestamp-gated writes on a cell of
timestamp 0. -/
theorem two_updates_on_empty (clockA clockB : Nat → Int) (u v : RateUpdate)
    (hx : v.exchange = u.exchange) (hsc : v.sourceCurrency = u.sourceCurrency)
    (hdc : v.destinationCurrency = u.destinationCurrency) :
    ∃ e2 di, applyRateUpdates Engine.empty [(clockA, u), (clockB, v)] = some e2 ∧
      di = (if u.sourceCurrency = u.destinationCurrency then 0 else 1) ∧
      findExchangeCurrencyPair e2 u.exchange u.sourceCurrency = some 0 ∧
      findExchangeCurrencyPair e2 u.exchange u.destinationCurrency = some di ∧
      cellAt e2.m_adjacencyTable 0 di =
        (if (if (0 : Int) < u.timestamp then (u.timestamp, u.forwardFactor)
              else ((0, 0) : Cell)).1 < v.timestamp
          then (v.timestamp, v.forwardFactor)
          else (if (0 : Int) < u.timestamp then (u.timestamp, u.forwardFactor)
              else ((0, 0) : Cell))) ∧
      (u.sourceCurrency ≠ u.destinationCurrency →
        cellAt e2.m_adjacencyTable di 0 =
          (if (if (0 : Int) < u.timestamp then (u.timestamp, u.backwardFactor)
                else ((0, 0) : Cell)).1 < v.timestamp
            then (v.timestamp, v.backwardFactor)
            else (if (0 : Int) < u.timestamp then (u.timestamp, u.backwardFactor)
                else ((0, 0) : Cell)))) := by
  obtain ⟨e0, di, hp, hdi, hs, hd, hr1, hr2, hr3, hr4, hc1, hc2, hmx, hms, hmd⟩ :=
    provision_empty_facts clockA u
  have hne : u.sourceCurrency ≠ u.destinationCurrency → 0 ≠ di := by
    intro h
    rw [hdi, if_neg h]
    decide
  obtain ⟨e1, hd1, hreg1, hl1, hw1, hcf1, hcb1, -⟩ :=
    directUpdate_cells e0 u 0 di hs hd hr1 hr2 hr3 hr4
  have hs1 : findExchangeCurrencyPair e1 v.exchange v.sourceCurrency = some 0 := by
    rw [hx, hsc, sameRegistry_find hreg1]; exact hs
  have hd1' : findExchangeCurrencyPair e1 v.exchange v.destinationCurrency = some di := by
    rw [hx, hdc, sameRegistry_find hreg1]; exact hd
  obtain ⟨e2, hd2, hreg2, -, -, hcf2, hcb2, -⟩ :=
    directUpdate_cells e1 v 0 di hs1 hd1' (by rw [hl1]; exact hr1) (by rw [hw1]; exact hr2)
      (by rw [hl1]; exact hr3) (by rw [hw1]; exact hr4)
  refine ⟨e2, di, ?_, hdi, ?_, ?_, ?_, ?_⟩
  · have ha1 : applyRateUpdate clockA Engine.empty u = some e1 := by
      unfold applyRateUpdate
      rw [hp]
      exact hd1
    have ha2 : applyRateUpdate clockB e1 v = some e2 := by
      unfold applyRateUpdate
      rw [provision_of_known clockB e1 v (by rw [hx, hreg1.1]; exact hmx)
        (by rw [hsc, hreg1.2.1]; exact hms) (by rw [hdc, hreg1.2.1]; exact hmd)]
      exact hd2
    simp only [applyRateUpdates, ha1, ha2]
  · rw [sameRegistry_find hreg2, sameRegistry_find hreg1]; exact hs
  · rw [sameRegistry_find hreg2, sameRegistry_find hreg1]; exact hd
  · rw [hcf2, hcf1, hc1]
  · intro h
    rw [hcb2 (hne h), hcb1 (hne h), hc2]

/-! ## Reachable engines -/

theorem reachable_applyRateUpdates (us : List ((Nat → Int) × RateUpdate)) (e e1 : Engine)
    (hr : Reachable e) (hv : ∀ cu ∈ us, cu.2.Valid)
    (h : applyRateUpdates e us = some e1) : Reachable e1 := by
  induction us generalizing e with
  | nil =>
    simp only [applyRateUpdates, Option.some.injEq] at h
    subst h
    exact hr
  | cons cu rest ih =>
    obtain ⟨clock, u⟩ := cu
    simp only [applyRateUpdates] at h
    split at h
    · cases h
    · rename_i e2 h2
      exact ih e2 (Reachable.step clock e u e2 hr (hv (clock, u) (List.mem_cons_self _ _)) h2)
        (fun cu hcu => hv cu (List.mem_cons_of_mem _ hcu)) h

theorem reachable_twoExchangeEngine : Reachable twoExchangeEngine :=
  reachable_applyRateUpdates twoExchangeUpdates Engine.empty twoExchangeEngine
    Reachable.empty (by decide!) (by decide!)

theorem reachable_arbitrageEngine : Reachable arbitrageEngine :=
  reachable_applyRateUpdates arbitrageUpdates Engine.empty arbitrageEngine
    Reachable.empty (by decide!) (by decide!)

theorem sampleClock_ne_zero : ∀ k, sampleClock k ≠ 0 := by
  intro k
  show (1509529343 : Int) ≠ 0
  decide

theorem reachable_threeExchangeEngine : Reachable threeExchangeEngine :=
  reachable_applyRateUpdates threeExchangeUpdates Engine.empty threeExchangeEngine
    Reachable.empty (by decide!) (by decide!)


/-! ## Growth of the registry and of the table -/

theorem mapFind_append (m : List ((String × String) × Nat)) (k : String × String) (v : Nat)
    (key : String × String) :
    mapFind (m ++ [(k, v)]) key =
      match mapFind m key with
      | some i => some i
      | none => if k = key then some v else none := by
  induction m with
  | nil => simp [mapFind]
  | cons kv rest ih =>
    obtain ⟨k1, v1⟩ := kv
    simp only [List.cons_append, mapFind]
    split
    · rfl
    · exact ih

theorem getD_append_default {α : Type} (l : List α) (d : α) (j : Nat) :
    (l ++ [d]).getD j d = l.getD j d := by
  induction l generalizing j with
  | nil => cases j <;> simp [List.getD]
  | cons a rest ih =>
    cases j with
    | zero => simp [List.getD]
    | succ j => simpa [List.getD] using ih j

theorem getD_replicate_default {α : Type} (n : Nat) (d : α) (j : Nat) :
    (List.replicate n d).getD j d = d := by
  by_cases h : j < n
  · simp [List.getD_eq_getElem?_getD, List.getElem?_replicate, h]
  · simp [List.getD_eq_getElem?_getD, List.getElem?_replicate, h]

theorem cellAt_extend_rows (t : AdjacencyTable) (m i j : Nat) :
    cellAt (t.map (fun row => row ++ [((0, 0) : Cell)]) ++
        [List.replicate m ((0, 0) : Cell)]) i j = cellAt t i j := by
  unfold cellAt get2
  induction t generalizing i with
  | nil =>
    cases i with
    | zero => simp [List.getD, getD_replicate_default]
    | succ i => simp [List.getD]
  | cons row rest ih =>
    cases i with
    | zero =>
      simp only [List.map_cons, List.cons_append, List.getD_cons_zero]
      exact getD_append_default row _ j
    | succ i =>
      simp only [List.map_cons, List.cons_append, List.getD_cons_succ]
      exact ih i

theorem cellAt_extendAdjancencyTable (e : Engine) (i j : Nat) :
    cellAt (extendAdjancencyTable e).m_adjacencyTable i j = cellAt e.m_adjacencyTable i j :=
  cellAt_extend_rows _ _ _ _

theorem cellAt_addExchangeCurrencyPair (e : Engine) (x c : String) (i j : Nat) :
    cellAt (addExchangeCurrencyPair e x c).1.m_adjacencyTable i j =
      cellAt e.m_adjacencyTable i j := by
  unfold addExchangeCurrencyPair
  split
  · rfl
  · exact cellAt_extend_rows _ _ _ _

theorem find_addExchangeCurrencyPair_self (e : Engine) (x c : String) :
    findExchangeCurrencyPair (addExchangeCurrencyPair e x c).1 x c =
      some (addExchangeCurrencyPair e x c).2 := by
  unfold addExchangeCurrencyPair findExchangeCurrencyPair
  split
  · rename_i i hi
    exact hi
  · rename_i hn
    show mapFind (e.m_exchangeCurrencyPairToIndexMapping ++ _) (x, c) = _
    rw [mapFind_append, hn]
    simp

theorem find_addExchangeCurrencyPair_mono (e : Engine) (x c y d : String) (i : Nat)
    (h : findExchangeCurrencyPair e y d = some i) :
    findExchangeCurrencyPair (addExchangeCurrencyPair e x c).1 y d = some i := by
  unfold addExchangeCurrencyPair
  split
  · exact h
  · unfold findExchangeCurrencyPair at h ⊢
    show mapFind (e.m_exchangeCurrencyPairToIndexMapping ++ _) (y, d) = _
    rw [mapFind_append, h]

theorem registryConsistent_addExchangeCurrencyPair (e : Engine) (x c : String)
    (h : RegistryConsistent e) : RegistryConsistent (addExchangeCurrencyPair e x c).1 := by
  unfold addExchangeCurrencyPair
  split
  · exact h
  · rename_i hn
    intro p i hp
    change mapFind (e.m_exchangeCurrencyPairToIndexMapping ++ _) p = some i at hp
    show (e.m_exchangeCurrencyPairsByIndex ++ [(x, c)]).get? i = some p
    rw [mapFind_append] at hp
    split at hp
    · rename_i i0 hi0
      cases hp
      have := h p i hi0
      have hlt : i < e.m_exchangeCurrencyPairsByIndex.length := by
        by_contra hge
        rw [List.get?_eq_none.mpr (not_lt.mp hge)] at this
        cases this
      rw [List.get?_eq_getElem?, List.getElem?_append_left hlt, ← List.get?_eq_getElem?]
      exact this
    · split at hp
      · rename_i hk
        cases hp
        subst hk
        simp
      · cases hp

theorem registryConsistent_injective {e : Engine} (h : RegistryConsistent e)
    {x1 c1 x2 c2 : String} {i : Nat}
    (h1 : findExchangeCurrencyPair e x1 c1 = some i)
    (h2 : findExchangeCurrencyPair e x2 c2 = some i) : x1 = x2 ∧ c1 = c2 := by
  have a := h _ _ h1
  have b := h _ _ h2
  rw [a] at b
  simpa using b

/-! ## Invariants of the provisioning loops -/

theorem connectFollowing_preserves (P : Engine → Prop) (clock : Nat → Int)
    (hP : ∀ st i j st1, connect clock st i j = some st1 → P st.1 → P st1.1)
    (currency : String) (index1 : Option Nat) (l : List String) (st st1 : Engine × Nat)
    (h : connectFollowing clock currency index1 l st = some st1) (hst : P st.1) :
    P st1.1 := by
  induction l generalizing st with
  | nil =>
    simp only [connectFollowing, Option.some.injEq] at h
    subst h
    exact hst
  | cons x rest ih =>
    simp only [connectFollowing] at h
    split at h
    · cases h
    · rename_i st2 h2
      exact ih st2 h (hP _ _ _ _ h2 hst)

theorem connectPairs_preserves (P : Engine → Prop) (clock : Nat → Int)
    (hP : ∀ st i j st1, connect clock st i j = some st1 → P st.1 → P st1.1)
    (currency : String) (l : List String) (st st1 : Engine × Nat)
    (h : connectPairs clock currency l st = some st1) (hst : P st.1) : P st1.1 := by
  induction l generalizing st with
  | nil =>
    simp only [connectPairs, Option.some.injEq] at h
    subst h
    exact hst
  | cons x rest ih =>
    simp only [connectPairs] at h
    split at h
    · cases h
    · rename_i st2 h2
      exact ih st2 h (connectFollowing_preserves P clock hP _ _ _ _ _ h2 hst)

theorem connectOthers_preserves (P : Engine → Prop) (clock : Nat → Int)
    (hP : ∀ st i j st1, connect clock st i j = some st1 → P st.1 → P st1.1)
    (currency exchange : String) (index1 : Nat) (l : List String) (st st1 : Engine × Nat)
    (h : connectOthers clock currency exchange index1 l st = some st1) (hst : P st.1) :
    P st1.1 := by
  induction l generalizing st with
  | nil =>
    simp only [connectOthers, Option.some.injEq] at h
    subst h
    exact hst
  | cons x rest ih =>
    simp only [connectOthers] at h
    split at h
    · split at h
      · cases h
      · rename_i st2 h2
        exact ih st2 h (hP _ _ _ _ h2 hst)
    · exact ih st h hst

theorem addPairs_preserves (P : Engine → Prop)
    (hadd : ∀ e x c, P e → P (addExchangeCurrencyPair e x c).1)
    (c : String) (l : List String) (e : Engine) (he : P e) : P (addPairs c l e) := by
  unfold addPairs
  exact foldl_invariant P _ _ (fun e1 x _ h1 => hadd e1 x c h1) e he

theorem provisionFor_preserves (P : Engine → Prop) (clock : Nat → Int)
    (hP : ∀ st i j st1, connect clock st i j = some st1 → P st.1 → P st1.1)
    (hadd : ∀ e x c, P e → P (addExchangeCurrencyPair e x c).1)
    (nc nx : Bool) (c x : String) (st st1 : Engine × Nat)
    (h : provisionFor clock nc nx c x st = some st1) (hst : P st.1) : P st1.1 := by
  unfold provisionFor at h
  split at h
  · unfold provisionNewCurrency at h
    exact connectPairs_preserves P clock hP _ _ _ _ h (addPairs_preserves P hadd _ _ _ hst)
  · split at h
    · unfold provisionCurrencyForExchange at h
      exact connectOthers_preserves P clock hP _ _ _ _ _ _ h (hadd _ _ _ hst)
    · cases h
      exact hst

theorem provision_preserves (P : Engine → Prop) (clock : Nat → Int)
    (hP : ∀ st i j st1, connect clock st i j = some st1 → P st.1 → P st1.1)
    (hadd : ∀ e x c, P e → P (addExchangeCurrencyPair e x c).1)
    (e e1 : Engine) (u : RateUpdate) (h : provision clock e u = some e1)
    (he : P (insertNames e u).1) : P e1 := by
  obtain ⟨st1, st2, h1, h2, rfl⟩ := provision_some h
  exact provisionFor_preserves P clock hP hadd _ _ _ _ _ _ h2
    (provisionFor_preserves P clock hP hadd _ _ _ _ _ _ h1 he)

/-! ## The registry stays consistent -/

theorem registryConsistent_of_sameRegistry {e e1 : Engine} (h : SameRegistry e e1)
    (he : RegistryConsistent e) : RegistryConsistent e1 := by
  intro p i hp
  rw [h.2.2.1] at hp
  rw [h.2.2.2]
  exact he p i hp

theorem registryConsistent_applyRateUpdate {clock : Nat → Int} {e e1 : Engine}
    {u : RateUpdate} (h : applyRateUpdate clock e u = some e1)
    (he : RegistryConsistent e) : RegistryConsistent e1 := by
  obtain ⟨ep, hp, hd⟩ := applyRateUpdate_some h
  obtain ⟨si, di, t1, t2, -, -, -, -, rfl⟩ := directUpdate_some hd
  have : RegistryConsistent ep :=
    provision_preserves RegistryConsistent clock
      (fun st i j st1 hc hst => registryConsistent_of_sameRegistry (connect_sameRegistry hc) hst)
      registryConsistent_addExchangeCurrencyPair e ep u hp he
  exact this

theorem registryConsistent_of_reachable {e : Engine} (h : Reachable e) :
    RegistryConsistent e := by
  induction h with
  | empty =>
    intro p i hp
    simp [Engine.empty, mapFind] at hp
  | step clock e u e1 _ _ happ ih => exact registryConsistent_applyRateUpdate happ ih


/-! ## Identity edges -/

theorem writeCell_some {t t1 : AdjacencyTable} {i j : Option Nat} {c : Cell}
    (h : writeCell t i j c = some t1) :
    ∃ a b, i = some a ∧ j = some b ∧ a < t.length ∧ b < (t.getD a []).length ∧
      t1 = set2 t a b c := by
  unfold writeCell at h
  split at h
  · rename_i a b
    split at h
    · rename_i hr
      cases h
      exact ⟨a, b, rfl, rfl, hr.1, hr.2, rfl⟩
    · cases h
  · cases h

theorem connect_cells {clock : Nat → Int} {st st1 : Engine × Nat} {i j : Option Nat}
    (h : connect clock st i j = some st1) :
    ∃ a b, i = some a ∧ j = some b ∧
      ∀ x y, cellAt st1.1.m_adjacencyTable x y =
        if (x = a ∧ y = b) ∨ (x = b ∧ y = a) then (clock st.2, 1)
        else cellAt st.1.m_adjacencyTable x y := by
  obtain ⟨t1, t2, h1, h2, rfl⟩ := connect_some h
  obtain ⟨a, b, ha, hb, hr1, hr2, rfl⟩ := writeCell_some h1
  obtain ⟨b2, a2, hb2, ha2, hr3, hr4, rfl⟩ := writeCell_some h2
  rw [ha] at ha2
  rw [hb] at hb2
  cases ha2
  cases hb2
  refine ⟨a, b, ha, hb, ?_⟩
  intro x y
  show cellAt (set2 (set2 st.1.m_adjacencyTable a b (clock st.2, 1)) b a (clock st.2, 1)) x y
    = _
  rw [cellAt_set2, cellAt_set2]
  by_cases h1 : x = b ∧ y = a
  · rw [if_pos ⟨h1.1, h1.2, hr3, hr4⟩, if_pos (Or.inr h1)]
  · rw [if_neg (fun hh => h1 ⟨hh.1, hh.2.1⟩)]
    by_cases h2 : x = a ∧ y = b
    · rw [if_pos ⟨h2.1, h2.2, hr1, hr2⟩, if_pos (Or.inl h2)]
    · rw [if_neg (fun hh => h2 ⟨hh.1, hh.2.1⟩), if_neg (fun hh => hh.elim h2 h1)]

theorem connect_identityCell {clock : Nat → Int} (hclock : ∀ k, clock k ≠ 0)
    {st st1 : Engine × Nat} {i j : Option Nat} (h : connect clock st i j = some st1)
    (x y : Nat) (hxy : IdentityCell st.1.m_adjacencyTable x y) :
    IdentityCell st1.1.m_adjacencyTable x y := by
  obtain ⟨a, b, -, -, hc⟩ := connect_cells h
  unfold IdentityCell
  rw [hc x y]
  split
  · exact ⟨hclock _, rfl⟩
  · exact hxy

theorem connect_sets {clock : Nat → Int} (hclock : ∀ k, clock k ≠ 0)
    {st st1 : Engine × Nat} {a b : Nat}
    (h : connect clock st (some a) (some b) = some st1) :
    IdentityCell st1.1.m_adjacencyTable a b ∧ IdentityCell st1.1.m_adjacencyTable b a := by
  obtain ⟨a2, b2, ha, hb, hc⟩ := connect_cells h
  cases ha
  cases hb
  unfold IdentityCell
  rw [hc a b, hc b a, if_pos (Or.inl ⟨rfl, rfl⟩), if_pos (Or.inr ⟨rfl, rfl⟩)]
  exact ⟨⟨hclock _, rfl⟩, ⟨hclock _, rfl⟩⟩

theorem connectFollowing_sets (clock : Nat → Int) (hclock : ∀ k, clock k ≠ 0)
    (c : String) (i : Nat) (l : List String) (st st1 : Engine × Nat)
    (h : connectFollowing clock c (some i) l st = some st1)
    (x : String) (hx : x ∈ l) (j : Nat) (hj : findExchangeCurrencyPair st.1 x c = some j) :
    IdentityCell st1.1.m_adjacencyTable i j ∧ IdentityCell st1.1.m_adjacencyTable j i := by
  induction l generalizing st with
  | nil => cases hx
  | cons y rest ih =>
    simp only [connectFollowing] at h
    split at h
    · cases h
    · rename_i st2 h2
      rcases List.mem_cons.mp hx with hxy | hxr
      · subst hxy
        rw [hj] at h2
        have hs := connect_sets hclock h2
        exact ⟨connectFollowing_preserves (fun e => IdentityCell e.m_adjacencyTable i j)
            clock (fun _ _ _ _ hc hp => connect_identityCell hclock hc _ _ hp)
            _ _ _ _ _ h hs.1,
          connectFollowing_preserves (fun e => IdentityCell e.m_adjacencyTable j i)
            clock (fun _ _ _ _ hc hp => connect_identityCell hclock hc _ _ hp)
            _ _ _ _ _ h hs.2⟩
      · exact ih st2 h hxr (by rw [sameRegistry_find (connect_sameRegistry h2)]; exact hj)

theorem connectPairs_sets (clock : Nat → Int) (hclock : ∀ k, clock k ≠ 0)
    (c : String) (l : List String) (st st1 : Engine × Nat)
    (h : connectPairs clock c l st = some st1)
    (x1 x2 : String) (h1 : x1 ∈ l) (h2 : x2 ∈ l) (hne : x1 ≠ x2) (i j : Nat)
    (hi : findExchangeCurrencyPair st.1 x1 c = some i)
    (hj : findExchangeCurrencyPair st.1 x2 c = some j) :
    IdentityCell st1.1.m_adjacencyTable i j ∧ IdentityCell st1.1.m_adjacencyTable j i := by
  induction l generalizing st with
  | nil => cases h1
  | cons y rest ih =>
    simp only [connectPairs] at h
    split at h
    · cases h
    · rename_i st2 hf
      have keep : ∀ a b, IdentityCell st2.1.m_adjacencyTable a b →
          IdentityCell st1.1.m_adjacencyTable a b := fun a b hab =>
        connectPairs_preserves (fun e => IdentityCell e.m_adjacencyTable a b)
          clock (fun _ _ _ _ hc hp => connect_identityCell hclock hc _ _ hp) _ _ _ _ h hab
      rcases List.mem_cons.mp h1 with e1 | r1
      · rcases List.mem_cons.mp h2 with e2 | r2
        · exact absurd (e1.trans e2.symm) hne
        · subst e1
          rw [hi] at hf
          have := connectFollowing_sets clock hclock c i rest st st2 hf x2 r2 j hj
          exact ⟨keep _ _ this.1, keep _ _ this.2⟩
      · rcases List.mem_cons.mp h2 with e2 | r2
        · subst e2
          rw [hj] at hf
          have := connectFollowing_sets clock hclock c j rest st st2 hf x1 r1 i hi
          exact ⟨keep _ _ this.2, keep _ _ this.1⟩
        · have hreg := connectFollowing_sameRegistry _ _ _ _ _ _ hf
          exact ih st2 h r1 r2 (by rw [sameRegistry_find hreg]; exact hi) (by rw [sameRegistry_find hreg]; exact hj)

theorem addPairs_registers (c : String) (l : List String) (e : Engine) :
    (∀ x ∈ l, ∃ i, findExchangeCurrencyPair (addPairs c l e) x c = some i) ∧
      (∀ y d i, findExchangeCurrencyPair e y d = some i →
        findExchangeCurrencyPair (addPairs c l e) y d = some i) := by
  induction l generalizing e with
  | nil =>
    refine ⟨fun x hx => (by cases hx), fun y d i h => h⟩
  | cons x rest ih =>
    have hstep : addPairs c (x :: rest) e = addPairs c rest (addExchangeCurrencyPair e x c).1 :=
      rfl
    rw [hstep]
    obtain ⟨ih1, ih2⟩ := ih (addExchangeCurrencyPair e x c).1
    refine ⟨?_, ?_⟩
    · intro y hy
      rcases List.mem_cons.mp hy with hyx | hyr
      · subst hyx
        exact ⟨_, ih2 _ _ _ (find_addExchangeCurrencyPair_self e y c)⟩
      · exact ih1 y hyr
    · intro y d i h
      exact ih2 y d i (find_addExchangeCurrencyPair_mono e x c y d i h)

/-- After `provisionNewCurrency` every exchange has a vertex for the
currency and every two distinct exchanges are joined by identity cells. -/
theorem provisionNewCurrency_sets (clock : Nat → Int) (hclock : ∀ k, clock k ≠ 0)
    (c : String) (st st1 : Engine × Nat) (h : provisionNewCurrency clock c st = some st1) :
    (∀ x ∈ st.1.m_exchanges, ∃ i, findExchangeCurrencyPair st1.1 x c = some i) ∧
    (∀ x1 ∈ st.1.m_exchanges, ∀ x2 ∈ st.1.m_exchanges, x1 ≠ x2 →
      ∃ i j, findExchangeCurrencyPair st1.1 x1 c = some i ∧
        findExchangeCurrencyPair st1.1 x2 c = some j ∧
        IdentityCell st1.1.m_adjacencyTable i j ∧
        IdentityCell st1.1.m_adjacencyTable j i) := by
  unfold provisionNewCurrency at h
  have hreg := connectPairs_sameRegistry _ _ _ _ _ h
  obtain ⟨hall, -⟩ := addPairs_registers c st.1.m_exchanges st.1
  refine ⟨?_, ?_⟩
  · intro x hx
    obtain ⟨i, hi⟩ := hall x hx
    exact ⟨i, by rw [sameRegistry_find hreg]; exact hi⟩
  · intro x1 h1 x2 h2 hne
    obtain ⟨i, hi⟩ := hall x1 h1
    obtain ⟨j, hj⟩ := hall x2 h2
    have := connectPairs_sets clock hclock c _ _ _ h x1 x2 h1 h2 hne i j hi hj
    exact ⟨i, j, by rw [sameRegistry_find hreg]; exact hi, by rw [sameRegistry_find hreg]; exact hj, this.1, this.2⟩


theorem identityLinked_connect (clock : Nat → Int) (hclock : ∀ k, clock k ≠ 0)
    (l : List String) (c : String) (st : Engine × Nat) (i j : Option Nat)
    (st1 : Engine × Nat) (h : connect clock st i j = some st1)
    (hst : IdentityLinked l c st.1) : IdentityLinked l c st1.1 := by
  have hreg := connect_sameRegistry h
  refine ⟨?_, ?_⟩
  · intro x hx
    obtain ⟨a, ha⟩ := hst.1 x hx
    exact ⟨a, by rw [sameRegistry_find hreg]; exact ha⟩
  · intro x1 h1 x2 h2 hne
    obtain ⟨a, b, ha, hb, hab, hba⟩ := hst.2 x1 h1 x2 h2 hne
    exact ⟨a, b, by rw [sameRegistry_find hreg]; exact ha, by rw [sameRegistry_find hreg]; exact hb,
      connect_identityCell hclock h _ _ hab, connect_identityCell hclock h _ _ hba⟩

theorem identityCell_addExchangeCurrencyPair (e : Engine) (x c : String) (a b : Nat)
    (h : IdentityCell e.m_adjacencyTable a b) :
    IdentityCell (addExchangeCurrencyPair e x c).1.m_adjacencyTable a b := by
  unfold IdentityCell at h ⊢
  rw [cellAt_addExchangeCurrencyPair]
  exact h

theorem identityLinked_addExchangeCurrencyPair (l : List String) (c : String)
    (e : Engine) (x d : String) (he : IdentityLinked l c e) :
    IdentityLinked l c (addExchangeCurrencyPair e x d).1 := by
  refine ⟨?_, ?_⟩
  · intro y hy
    obtain ⟨a, ha⟩ := he.1 y hy
    exact ⟨a, find_addExchangeCurrencyPair_mono e x d y c a ha⟩
  · intro x1 h1 x2 h2 hne
    obtain ⟨a, b, ha, hb, hab, hba⟩ := he.2 x1 h1 x2 h2 hne
    exact ⟨a, b, find_addExchangeCurrencyPair_mono e x d x1 c a ha,
      find_addExchangeCurrencyPair_mono e x d x2 c b hb,
      identityCell_addExchangeCurrencyPair e x d a b hab,
      identityCell_addExchangeCurrencyPair e x d b a hba⟩

theorem directUpdate_keeps_cross_cells {ep e1 : Engine} {u : RateUpdate}
    (hcons : RegistryConsistent ep) (h : directUpdate ep u = some e1)
    {x1 x2 c : String} {i j : Nat} (hne : x1 ≠ x2)
    (hi : findExchangeCurrencyPair ep x1 c = some i)
    (hj : findExchangeCurrencyPair ep x2 c = some j) :
    cellAt e1.m_adjacencyTable i j = cellAt ep.m_adjacencyTable i j := by
  obtain ⟨si, di, t1, t2, hs, hd, h1, h2, rfl⟩ := directUpdate_some h
  show cellAt t2 i j = _
  have p1 : ¬ (i = di ∧ j = si) := by
    intro hh
    have a := registryConsistent_injective hcons hi (hh.1 ▸ hd)
    have b := registryConsistent_injective hcons hj (hh.2 ▸ hs)
    exact hne (a.1.trans b.1.symm)
  have p2 : ¬ (i = si ∧ j = di) := by
    intro hh
    have a := registryConsistent_injective hcons hi (hh.1 ▸ hs)
    have b := registryConsistent_injective hcons hj (hh.2 ▸ hd)
    exact hne (a.1.trans b.1.symm)
  rw [updateCell_cellAt h2 i j, if_neg (fun hh => p1 ⟨hh.1, hh.2.1⟩),
    updateCell_cellAt h1 i j, if_neg (fun hh => p2 ⟨hh.1, hh.2.1⟩)]

theorem identityLinked_directUpdate {ep e1 : Engine} {u : RateUpdate}
    (hcons : RegistryConsistent ep) (h : directUpdate ep u = some e1)
    (l : List String) (c : String) (hep : IdentityLinked l c ep) :
    IdentityLinked l c e1 := by
  obtain ⟨si, di, t1, t2, hs, hd, h1, h2, he1⟩ := directUpdate_some h
  have hreg : SameRegistry ep e1 := by rw [he1]; exact ⟨rfl, rfl, rfl, rfl⟩
  refine ⟨?_, ?_⟩
  · intro x hx
    obtain ⟨a, ha⟩ := hep.1 x hx
    exact ⟨a, by rw [sameRegistry_find hreg]; exact ha⟩
  · intro x1 h1' x2 h2' hne
    obtain ⟨a, b, ha, hb, hab, hba⟩ := hep.2 x1 h1' x2 h2' hne
    refine ⟨a, b, by rw [sameRegistry_find hreg]; exact ha, by rw [sameRegistry_find hreg]; exact hb, ?_, ?_⟩
    · unfold IdentityCell
      rw [directUpdate_keeps_cross_cells hcons h hne ha hb]
      exact hab
    · unfold IdentityCell
      rw [directUpdate_keeps_cross_cells hcons h (Ne.symm hne) hb ha]
      exact hba

/-- An update that introduces a currency never seen before leaves the
vertices of that currency on all known exchanges linked by identity cells. -/
theorem applyRateUpdate_new_currency (clock : Nat → Int) (e : Engine) (u : RateUpdate)
    (e1 : Engine) (c : String) (hr : Reachable e) (hclock : ∀ k, clock k ≠ 0)
    (hnew : c ∉ e.m_currencies)
    (hc : c = u.sourceCurrency ∨ c = u.destinationCurrency)
    (h : applyRateUpdate clock e u = some e1) :
    u.exchange ∈ e1.m_exchanges ∧ IdentityLinked e1.m_exchanges c e1 := by
  obtain ⟨ep, hp, hd⟩ := applyRateUpdate_some h
  have hn := provision_sameNames hp
  obtain ⟨si, di, t1, t2, -, -, -, -, he1⟩ := directUpdate_some hd
  have hx1 : e1.m_exchanges = (insertNames e u).1.m_exchanges := by
    rw [he1]; exact hn.1
  have hcons : RegistryConsistent ep :=
    provision_preserves RegistryConsistent clock
      (fun st i j st1 hc hst => registryConsistent_of_sameRegistry (connect_sameRegistry hc) hst)
      registryConsistent_addExchangeCurrencyPair e ep u hp
      (fun p i hpi => registryConsistent_of_reachable hr p i hpi)
  refine ⟨by rw [hx1]; exact (insertNames_mem e u).1, ?_⟩
  rw [hx1]
  apply identityLinked_directUpdate hcons hd
  obtain ⟨st1, st2, h1, h2, rfl⟩ := provision_some hp
  have keep : ∀ nc nx d x (sa sb : Engine × Nat),
      provisionFor clock nc nx d x sa = some sb →
      IdentityLinked (insertNames e u).1.m_exchanges c sa.1 →
      IdentityLinked (insertNames e u).1.m_exchanges c sb.1 := fun nc nx d x sa sb hh hs =>
    provisionFor_preserves (IdentityLinked (insertNames e u).1.m_exchanges c) clock
      (identityLinked_connect clock hclock _ c)
      (fun e0 x0 c0 h0 => identityLinked_addExchangeCurrencyPair _ c e0 x0 c0 h0)
      nc nx d x sa sb hh hs
  by_cases hsrc : c = u.sourceCurrency
  · have hflag : (insertNames e u).2.2.1 = true := by
      unfold insertNames
      simp only
      rw [setInsert_of_not_mem _ _ (hsrc ▸ hnew)]
    rw [hflag] at h1
    simp only [provisionFor, if_true] at h1
    have := provisionNewCurrency_sets clock hclock u.sourceCurrency _ _ h1
    rw [← hsrc] at this
    exact keep _ _ _ _ _ _ h2 this
  · have hdst : c = u.destinationCurrency := hc.resolve_left hsrc
    have hflag : (insertNames e u).2.2.2 = true := by
      unfold insertNames
      simp only
      rw [setInsert_of_not_mem]
      intro hmem
      unfold setInsert at hmem
      split at hmem
      · exact hnew (hdst ▸ hmem)
      · rcases List.mem_append.mp hmem with hm | hm
        · exact hnew (hdst ▸ hm)
        · simp only [List.mem_singleton] at hm
          exact hsrc (hdst.trans hm)
    rw [hflag] at h2
    simp only [provisionFor, if_true] at h2
    have := provisionNewCurrency_sets clock hclock u.destinationCurrency _ _ h2
    rw [← hdst, (provisionFor_sameNames h1).1] at this
    exact this


/-! ## Provisioning writes only between exchanges -/

theorem crossCell_of_sameRegistry {e e1 : Engine} (h : SameRegistry e e1) {a b : Nat}
    (hc : CrossCell e a b) : CrossCell e1 a b := by
  obtain ⟨x1, x2, c, hne, h1, h2⟩ := hc
  exact ⟨x1, x2, c, hne, by rw [sameRegistry_find h]; exact h1,
    by rw [sameRegistry_find h]; exact h2⟩

theorem onlyCrossChanged_addExchangeCurrencyPair (e0 e : Engine) (x c : String)
    (h : OnlyCrossChanged e0 e) : OnlyCrossChanged e0 (addExchangeCurrencyPair e x c).1 := by
  intro a b hab
  rw [cellAt_addExchangeCurrencyPair] at hab
  obtain ⟨x1, x2, c1, hne, h1, h2⟩ := h a b hab
  exact ⟨x1, x2, c1, hne, find_addExchangeCurrencyPair_mono e x c x1 c1 a h1,
    find_addExchangeCurrencyPair_mono e x c x2 c1 b h2⟩

theorem onlyCrossChanged_connect (e0 : Engine) {clock : Nat → Int} {st st1 : Engine × Nat}
    {x1 x2 c : String} (hne : x1 ≠ x2)
    (h : connect clock st (findExchangeCurrencyPair st.1 x1 c)
      (findExchangeCurrencyPair st.1 x2 c) = some st1)
    (hP : OnlyCrossChanged e0 st.1) : OnlyCrossChanged e0 st1.1 := by
  have hreg := connect_sameRegistry h
  obtain ⟨i, j, hi, hj, hc⟩ := connect_cells h
  intro a b hab
  rw [hc a b] at hab
  by_cases hw : (a = i ∧ b = j) ∨ (a = j ∧ b = i)
  · apply crossCell_of_sameRegistry hreg
    rcases hw with ⟨rfl, rfl⟩ | ⟨rfl, rfl⟩
    · exact ⟨x1, x2, c, hne, hi, hj⟩
    · exact ⟨x2, x1, c, Ne.symm hne, hj, hi⟩
  · rw [if_neg hw] at hab
    exact crossCell_of_sameRegistry hreg (hP a b hab)

theorem onlyCrossChanged_connectFollowing (e0 : Engine) (clock : Nat → Int)
    (c x1 : String) (l : List String) (hne : ∀ y ∈ l, x1 ≠ y) (st st1 : Engine × Nat)
    (h : connectFollowing clock c (findExchangeCurrencyPair st.1 x1 c) l st = some st1)
    (hP : OnlyCrossChanged e0 st.1) : OnlyCrossChanged e0 st1.1 := by
  induction l generalizing st with
  | nil =>
    simp only [connectFollowing, Option.some.injEq] at h
    subst h
    exact hP
  | cons y rest ih =>
    simp only [connectFollowing] at h
    split at h
    · cases h
    · rename_i st2 h2
      have hreg := connect_sameRegistry h2
      apply ih (fun z hz => hne z (List.mem_cons_of_mem _ hz)) st2
      · rw [sameRegistry_find hreg]
        exact h
      · exact onlyCrossChanged_connect e0 (hne y (List.mem_cons_self _ _)) h2 hP

theorem onlyCrossChanged_connectPairs (e0 : Engine) (clock : Nat → Int) (c : String)
    (l : List String) (hnd : l.Nodup) (st st1 : Engine × Nat)
    (h : connectPairs clock c l st = some st1)
    (hP : OnlyCrossChanged e0 st.1) : OnlyCrossChanged e0 st1.1 := by
  induction l generalizing st with
  | nil =>
    simp only [connectPairs, Option.some.injEq] at h
    subst h
    exact hP
  | cons x rest ih =>
    simp only [connectPairs] at h
    split at h
    · cases h
    · rename_i st2 h2
      have hx := List.nodup_cons.mp hnd
      exact ih hx.2 st2 h
        (onlyCrossChanged_connectFollowing e0 clock c x rest
          (fun y hy hxy => hx.1 (hxy ▸ hy)) st st2 h2 hP)

theorem onlyCrossChanged_connectOthers (e0 : Engine) (clock : Nat → Int)
    (c x : String) (i : Nat) (l : List String) (st st1 : Engine × Nat)
    (hi : findExchangeCurrencyPair st.1 x c = some i)
    (h : connectOthers clock c x i l st = some st1)
    (hP : OnlyCrossChanged e0 st.1) : OnlyCrossChanged e0 st1.1 := by
  induction l generalizing st with
  | nil =>
    simp only [connectOthers, Option.some.injEq] at h
    subst h
    exact hP
  | cons y rest ih =>
    simp only [connectOthers] at h
    split at h
    · rename_i hyx
      split at h
      · cases h
      · rename_i st2 h2
        have hreg := connect_sameRegistry h2
        apply ih st2 (by rw [sameRegistry_find hreg]; exact hi) h
        rw [← hi] at h2
        exact onlyCrossChanged_connect e0 (Ne.symm hyx) h2 hP
    · exact ih st hi h hP

theorem onlyCrossChanged_provisionFor (e0 : Engine) (clock : Nat → Int) (nc nx : Bool)
    (c x : String) (st st1 : Engine × Nat) (hnd : st.1.m_exchanges.Nodup)
    (h : provisionFor clock nc nx c x st = some st1)
    (hP : OnlyCrossChanged e0 st.1) : OnlyCrossChanged e0 st1.1 := by
  unfold provisionFor at h
  split at h
  · unfold provisionNewCurrency at h
    exact onlyCrossChanged_connectPairs e0 clock c _ hnd _ _ h
      (addPairs_preserves (OnlyCrossChanged e0)
        (fun e1 y d he1 => onlyCrossChanged_addExchangeCurrencyPair e0 e1 y d he1) c _ _ hP)
  · split at h
    · unfold provisionCurrencyForExchange at h
      exact onlyCrossChanged_connectOthers e0 clock c x _ _
        ((addExchangeCurrencyPair st.1 x c).1, st.2) st1
        (find_addExchangeCurrencyPair_self st.1 x c) h
        (onlyCrossChanged_addExchangeCurrencyPair e0 st.1 x c hP)
    · cases h
      exact hP

theorem setInsert_nodup (s : List String) (x : String) (h : s.Nodup) :
    (setInsert s x).1.Nodup := by
  unfold setInsert
  split
  · exact h
  · rename_i hx
    rw [List.nodup_append]
    refine ⟨h, List.nodup_singleton x, ?_⟩
    intro y hy1 hy2
    simp only [List.mem_singleton] at hy2
    exact hx (hy2 ▸ hy1)

theorem exchanges_nodup_applyRateUpdate {clock : Nat → Int} {e e1 : Engine}
    {u : RateUpdate} (h : applyRateUpdate clock e u = some e1)
    (hnd : e.m_exchanges.Nodup) : e1.m_exchanges.Nodup := by
  obtain ⟨ep, hp, hd⟩ := applyRateUpdate_some h
  obtain ⟨si, di, t1, t2, -, -, -, -, rfl⟩ := directUpdate_some hd
  show ep.m_exchanges.Nodup
  rw [(provision_sameNames hp).1]
  exact setInsert_nodup _ _ hnd

theorem exchanges_nodup_of_reachable {e : Engine} (h : Reachable e) :
    e.m_exchanges.Nodup := by
  induction h with
  | empty => exact List.nodup_nil
  | step clock e u e1 _ _ happ ih => exact exchanges_nodup_applyRateUpdate happ ih

/-- Inserting the names and provisioning identity edges changes no cell
other than cells between the vertices of one currency on two exchanges. -/
theorem onlyCrossChanged_provision {clock : Nat → Int} {e ep : Engine} {u : RateUpdate}
    (hnd : e.m_exchanges.Nodup) (h : provision clock e u = some ep) :
    OnlyCrossChanged e ep := by
  obtain ⟨st1, st2, h1, h2, rfl⟩ := provision_some h
  have hnd0 : (insertNames e u).1.m_exchanges.Nodup := setInsert_nodup _ _ hnd
  have hP0 : OnlyCrossChanged e (insertNames e u).1 := fun a b hab => absurd rfl hab
  have hP1 := onlyCrossChanged_provisionFor e clock _ _ _ _ _ _ hnd0 h1 hP0
  have hnd1 : st1.1.m_exchanges.Nodup := by
    rw [(provisionFor_sameNames h1).1]
    exact hnd0
  exact onlyCrossChanged_provisionFor e clock _ _ _ _ _ _ hnd1 h2 hP1

theorem registryConsistent_provision {clock : Nat → Int} {e ep : Engine} {u : RateUpdate}
    (h : provision clock e u = some ep) (he : RegistryConsistent e) :
    RegistryConsistent ep :=
  provision_preserves RegistryConsistent clock
    (fun _ _ _ _ hc hst => registryConsistent_of_sameRegistry (connect_sameRegistry hc) hst)
    registryConsistent_addExchangeCurrencyPair e ep u h (fun p i hpi => he p i hpi)

/-- A cell between two vertices of the same exchange is not touched by
provisioning. -/
theorem provision_keeps_own_cells {clock : Nat → Int} {e ep : Engine} {u : RateUpdate}
    (hr : Reachable e) (h : provision clock e u = some ep) {x c1 c2 : String} {a b : Nat}
    (ha : findExchangeCurrencyPair ep x c1 = some a)
    (hb : findExchangeCurrencyPair ep x c2 = some b) :
    cellAt ep.m_adjacencyTable a b = cellAt e.m_adjacencyTable a b := by
  by_contra hne
  obtain ⟨x1, x2, c, hx, h1, h2⟩ :=
    onlyCrossChanged_provision (exchanges_nodup_of_reachable hr) h a b hne
  have hcons := registryConsistent_provision h (registryConsistent_of_reachable hr)
  have e1 := registryConsistent_injective hcons h1 ha
  have e2 := registryConsistent_injective hcons h2 hb
  exact hx (e1.1.trans e2.1.symm)


/-! ## Walks -/

theorem walk_mono {t : AdjacencyTable} {k k2 i j : Nat} {c : ℚ} (hk : k ≤ k2)
    (w : Walk t k i j c) : Walk t k2 i j c := by
  induction w with
  | edge i j he => exact Walk.edge i j he
  | cons i m j c he hm _ ih => exact Walk.cons i m j c he (lt_of_lt_of_le hm hk) ih

theorem walk_pos {t : AdjacencyTable} (hp : PositiveFactors t) {k i j : Nat} {c : ℚ}
    (w : Walk t k i j c) : 0 < c := by
  induction w with
  | edge i j he => exact hp i j he
  | cons i m j c he _ _ ih => exact mul_pos (hp i m he) ih

theorem walk_append {t : AdjacencyTable} {k i m j : Nat} {c1 c2 : ℚ}
    (w1 : Walk t k i m c1) (hm : m < k) (w2 : Walk t k m j c2) :
    Walk t k i j (c1 * c2) := by
  induction w1 with
  | edge i m he => exact Walk.cons i m j c2 he hm w2
  | cons i a m c he ha _ ih =>
    rw [mul_assoc]
    exact Walk.cons i a j (c * c2) he ha (ih hm w2)

theorem via_walk {t : AdjacencyTable} {n i m j : Nat} {c : ℚ} (h : Via t n i m j c) :
    Walk t n i j c := by
  obtain ⟨he, h1 | h2⟩ := h
  · obtain ⟨rfl, rfl⟩ := h1
    exact Walk.edge i m he
  · obtain ⟨hm, c1, w, rfl⟩ := h2
    exact Walk.cons i m j c1 he hm w

theorem via_append {t : AdjacencyTable} {n i m k j : Nat} {c1 c2 : ℚ}
    (h : Via t n i m k c1) (hk : k < n) (w : Walk t n k j c2) :
    Via t n i m j (c1 * c2) := by
  obtain ⟨he, h1 | h2⟩ := h
  · obtain ⟨rfl, rfl⟩ := h1
    exact ⟨he, Or.inr ⟨hk, c2, w, rfl⟩⟩
  · obtain ⟨hm, c3, w3, rfl⟩ := h2
    exact ⟨he, Or.inr ⟨hm, c3 * c2, walk_append w3 hk w, by rw [mul_assoc]⟩⟩

/-- A walk whose inner vertices are at most `k` either avoids `k` or is
dominated by a walk to `k` followed by a walk from `k`, both below `k`. -/
theorem walk_split {t : AdjacencyTable} (hp : PositiveFactors t) (hg : NoGain t)
    {k : Nat} (hk : k < t.length) {i j : Nat} {c : ℚ} (w : Walk t (k + 1) i j c) :
    Walk t k i j c ∨
      ∃ c1 c3, Walk t k i k c1 ∧ Walk t k k j c3 ∧ c ≤ c1 * c3 := by
  induction w with
  | edge i j he => exact Or.inl (Walk.edge i j he)
  | cons i m j c he hm w ih =>
    have hf : 0 < factor t i m := hp i m he
    rcases Nat.lt_succ_iff_lt_or_eq.mp hm with hlt | heq
    · rcases ih with h1 | ⟨c1, c3, w1, w3, hle⟩
      · exact Or.inl (Walk.cons i m j c he hlt h1)
      · refine Or.inr ⟨factor t i m * c1, c3, Walk.cons i m k c1 he hlt w1, w3, ?_⟩
        rw [mul_assoc]
        exact mul_le_mul_of_nonneg_left hle (le_of_lt hf)
    · subst heq
      rcases ih with h1 | ⟨c1, c3, w1, w3, hle⟩
      · exact Or.inr ⟨factor t i m, c, Walk.edge i m he, h1, le_refl _⟩
      · refine Or.inr ⟨factor t i m, c3, Walk.edge i m he, w3, ?_⟩
        have h1 : c1 ≤ 1 := hg m c1 hk (walk_mono (le_of_lt hk) w1)
        have h3 : 0 < c3 := walk_pos hp w3
        have : c ≤ c3 := le_trans hle (by nlinarith)
        exact mul_le_mul_of_nonneg_left this (le_of_lt hf)


/-! ## One relaxation step -/

theorem foldl_establish {α β : Type} (f : β → α → β) (l : List α) (x : α) (hx : x ∈ l)
    (I Q : β → Prop) (hI : ∀ b a, a ∈ l → I b → I (f b a))
    (hest : ∀ b, I b → Q (f b x)) (hpres : ∀ b a, a ∈ l → I b → Q b → Q (f b a))
    (b : β) (hb : I b) : Q (l.foldl f b) := by
  induction l generalizing b with
  | nil => cases hx
  | cons y rest ih =>
    simp only [List.foldl_cons]
    rcases List.mem_cons.mp hx with hxy | hxr
    · subst hxy
      have hq : Q (f b x) := hest b hb
      have hi : I (f b x) := hI b x (List.mem_cons_self _ _) hb
      exact (foldl_invariant (fun s => I s ∧ Q s) f rest
        (fun s a ha hs => ⟨hI s a (List.mem_cons_of_mem _ ha) hs.1,
          hpres s a (List.mem_cons_of_mem _ ha) hs.1 hs.2⟩) _ ⟨hi, hq⟩).2
    · exact ih hxr (fun b a ha => hI b a (List.mem_cons_of_mem _ ha))
        (fun b a ha => hpres b a (List.mem_cons_of_mem _ ha)) (f b y)
        (hI b y (List.mem_cons_self _ _) hb)

theorem get2_set2_of_shape {α : Type} (dflt : α) (t : List (List α)) (n i j : Nat) (v : α)
    (hl : t.length = n) (hw : ∀ a, a < n → (t.getD a []).length = n)
    (hi : i < n) (hj : j < n) (a b : Nat) :
    get2 dflt (set2 t i j v) a b = if a = i ∧ b = j then v else get2 dflt t a b := by
  rw [get2_set2]
  by_cases h : a = i ∧ b = j
  · rw [if_pos ⟨h.1, h.2, by rw [hl]; exact hi, by rw [hw i hi]; exact hj⟩, if_pos h]
  · rw [if_neg (fun hh => h ⟨hh.1, hh.2.1⟩), if_neg h]

theorem tableShape_set2 (n : Nat) (st : RateTable × NextTable) (i j : Nat) (v : ℚ)
    (w : Option Nat) (h : TableShape n st) :
    TableShape n (set2 st.1 i j v, set2 st.2 i j w) := by
  obtain ⟨h1, h2, h3, h4⟩ := h
  refine ⟨?_, ?_, ?_, ?_⟩
  · show (set2 st.1 i j v).length = n
    rw [length_set2]; exact h1
  · intro a ha
    show ((set2 st.1 i j v).getD a []).length = n
    rw [getD_set2_length]; exact h2 a ha
  · show (set2 st.2 i j w).length = n
    rw [length_set2]; exact h3
  · intro a ha
    show ((set2 st.2 i j w).getD a []).length = n
    rw [getD_set2_length]; exact h4 a ha

theorem tableShape_relax (n k i j : Nat) (st : RateTable × NextTable)
    (h : TableShape n st) : TableShape n (relax k i j st) := by
  unfold relax
  simp only
  split
  · exact tableShape_set2 n st i j _ _ h
  · exact h

theorem rateAt_relax (n k i j : Nat) (st : RateTable × NextTable) (h : TableShape n st)
    (hi : i < n) (hj : j < n) (a b : Nat) :
    rateAt (relax k i j st) a b =
      if a = i ∧ b = j ∧ rateAt st i j < rateAt st i k * rateAt st k j
      then rateAt st i k * rateAt st k j else rateAt st a b := by
  unfold relax rateAt
  simp only
  by_cases hlt : get2 0 st.1 i j < get2 0 st.1 i k * get2 0 st.1 k j
  · rw [if_pos hlt]
    show get2 0 (set2 st.1 i j _) a b = _
    rw [get2_set2_of_shape 0 st.1 n i j _ h.1 h.2.1 hi hj]
    by_cases hab : a = i ∧ b = j
    · rw [if_pos hab, if_pos ⟨hab.1, hab.2, hlt⟩]
    · rw [if_neg hab, if_neg (fun hh => hab ⟨hh.1, hh.2.1⟩)]
  · rw [if_neg hlt, if_neg (fun hh => hlt hh.2.2)]

theorem nextAt_relax (n k i j : Nat) (st : RateTable × NextTable) (h : TableShape n st)
    (hi : i < n) (hj : j < n) (a b : Nat) :
    nextAt (relax k i j st) a b =
      if a = i ∧ b = j ∧ rateAt st i j < rateAt st i k * rateAt st k j
      then nextAt st i k else nextAt st a b := by
  unfold relax rateAt nextAt
  simp only
  by_cases hlt : get2 0 st.1 i j < get2 0 st.1 i k * get2 0 st.1 k j
  · rw [if_pos hlt]
    show get2 none (set2 st.2 i j _) a b = _
    rw [get2_set2_of_shape none st.2 n i j _ h.2.2.1 h.2.2.2 hi hj]
    by_cases hab : a = i ∧ b = j
    · rw [if_pos hab, if_pos ⟨hab.1, hab.2, hlt⟩]
    · rw [if_neg hab, if_neg (fun hh => hab ⟨hh.1, hh.2.1⟩)]
  · rw [if_neg hlt, if_neg (fun hh => hlt hh.2.2)]

theorem rateAt_relax_mono (n k i j : Nat) (st : RateTable × NextTable)
    (h : TableShape n st) (hi : i < n) (hj : j < n) (a b : Nat) :
    rateAt st a b ≤ rateAt (relax k i j st) a b := by
  rw [rateAt_relax n k i j st h hi hj]
  split
  · rename_i hh
    rw [hh.1, hh.2.1]
    exact le_of_lt hh.2.2
  · exact le_refl _

theorem nonnegRate_relax (n k i j : Nat) (st : RateTable × NextTable)
    (h : TableShape n st) (hi : i < n) (hj : j < n) (hn : NonnegRate st) :
    NonnegRate (relax k i j st) :=
  fun a b => le_trans (hn a b) (rateAt_relax_mono n k i j st h hi hj a b)

theorem rateAt_relax_ge (n k i j : Nat) (st : RateTable × NextTable)
    (h : TableShape n st) (hi : i < n) (hj : j < n) :
    rateAt st i k * rateAt st k j ≤ rateAt (relax k i j st) i j := by
  rw [rateAt_relax n k i j st h hi hj]
  split
  · exact le_refl _
  · rename_i hh
    exact not_lt.mp (fun hlt => hh ⟨rfl, rfl, hlt⟩)

theorem witnessed_relax (t : AdjacencyTable) (n k i j : Nat) (st : RateTable × NextTable)
    (h : TableShape n st) (hk : k < n) (hi : i < n) (hj : j < n) (hn : NonnegRate st)
    (hw : Witnessed t n st) : Witnessed t n (relax k i j st) := by
  intro a b hab
  rw [rateAt_relax n k i j st h hi hj] at hab ⊢
  rw [nextAt_relax n k i j st h hi hj]
  by_cases hc : a = i ∧ b = j ∧ rateAt st i j < rateAt st i k * rateAt st k j
  · rw [if_pos hc] at hab ⊢
    rw [if_pos hc]
    obtain ⟨rfl, rfl, hlt⟩ := hc
    have hik : 0 < rateAt st a k := by
      rcases lt_or_eq_of_le (hn a k) with h1 | h1
      · exact h1
      · rw [← h1, zero_mul] at hab
        exact absurd hab (lt_irrefl _)
    have hkj : 0 < rateAt st k b := by
      rcases lt_or_eq_of_le (hn k b) with h1 | h1
      · exact h1
      · rw [← h1, mul_zero] at hab
        exact absurd hab (lt_irrefl _)
    obtain ⟨m, hm, hv⟩ := hw a k hik
    obtain ⟨m2, -, hv2⟩ := hw k b hkj
    exact ⟨m, hm, via_append hv hk (via_walk hv2)⟩
  · rw [if_neg hc] at hab ⊢
    rw [if_neg hc]
    exact hw a b hab


/-! ## The loops keep the tables sound -/

theorem sound_relax (t : AdjacencyTable) (n k i j : Nat) (st : RateTable × NextTable)
    (hk : k < n) (hi : i < n) (hj : j < n) (h : Sound t n st) :
    Sound t n (relax k i j st) :=
  ⟨tableShape_relax n k i j st h.1, nonnegRate_relax n k i j st h.1 hi hj h.2.1,
    witnessed_relax t n k i j st h.1 hk hi hj h.2.1 h.2.2⟩

theorem sound_relaxRow (t : AdjacencyTable) (n k i : Nat) (st : RateTable × NextTable)
    (hk : k < n) (hi : i < n) (h : Sound t n st) : Sound t n (relaxRow n k i st) := by
  unfold relaxRow
  exact foldl_invariant (Sound t n) _ _
    (fun s j hj hs => sound_relax t n k i j s hk hi (List.mem_range.mp hj) hs) st h

theorem sound_relaxPhase (t : AdjacencyTable) (n k : Nat) (st : RateTable × NextTable)
    (hk : k < n) (h : Sound t n st) : Sound t n (relaxPhase n k st) := by
  unfold relaxPhase
  exact foldl_invariant (Sound t n) _ _
    (fun s i hi hs => sound_relaxRow t n k i s hk (List.mem_range.mp hi) hs) st h

theorem rateAt_relaxRow_mono (n k i : Nat) (st : RateTable × NextTable)
    (h : TableShape n st) (hi : i < n) (a b : Nat) :
    TableShape n (relaxRow n k i st) ∧ rateAt st a b ≤ rateAt (relaxRow n k i st) a b := by
  unfold relaxRow
  exact foldl_invariant (fun s => TableShape n s ∧ rateAt st a b ≤ rateAt s a b) _ _
    (fun s j hj hs => ⟨tableShape_relax n k i j s hs.1,
      le_trans hs.2 (rateAt_relax_mono n k i j s hs.1 hi (List.mem_range.mp hj) a b)⟩)
    st ⟨h, le_refl _⟩

theorem rateAt_relaxPhase_mono (n k : Nat) (st : RateTable × NextTable)
    (h : TableShape n st) (a b : Nat) :
    TableShape n (relaxPhase n k st) ∧ rateAt st a b ≤ rateAt (relaxPhase n k st) a b := by
  unfold relaxPhase
  exact foldl_invariant (fun s => TableShape n s ∧ rateAt st a b ≤ rateAt s a b) _ _
    (fun s i hi hs => ⟨(rateAt_relaxRow_mono n k i s hs.1 (List.mem_range.mp hi) a b).1,
      le_trans hs.2 (rateAt_relaxRow_mono n k i s hs.1 (List.mem_range.mp hi) a b).2⟩)
    st ⟨h, le_refl _⟩

/-- After the phase of `k`, every entry is at least the product of the
entries to `k` and from `k` as they were when the phase began. -/
theorem rateAt_relaxPhase_ge (n k : Nat) (st : RateTable × NextTable)
    (h : TableShape n st) (hn : NonnegRate st) (i j : Nat) (hi : i < n) (hj : j < n) :
    rateAt st i k * rateAt st k j ≤ rateAt (relaxPhase n k st) i j := by
  unfold relaxPhase
  refine foldl_establish _ _ i (List.mem_range.mpr hi)
    (fun s => TableShape n s ∧ ∀ a b, rateAt st a b ≤ rateAt s a b)
    (fun s => rateAt st i k * rateAt st k j ≤ rateAt s i j) ?_ ?_ ?_ st
    ⟨h, fun a b => le_refl _⟩
  · intro s a ha hs
    have ha := List.mem_range.mp ha
    exact ⟨(rateAt_relaxRow_mono n k a s hs.1 ha 0 0).1,
      fun x y => le_trans (hs.2 x y) (rateAt_relaxRow_mono n k a s hs.1 ha x y).2⟩
  · intro s hs
    unfold relaxRow
    refine foldl_establish _ _ j (List.mem_range.mpr hj)
      (fun s2 => TableShape n s2 ∧ ∀ a b, rateAt st a b ≤ rateAt s2 a b)
      (fun s2 => rateAt st i k * rateAt st k j ≤ rateAt s2 i j) ?_ ?_ ?_ s hs
    · intro s2 b hb hs2
      have hb := List.mem_range.mp hb
      exact ⟨tableShape_relax n k i b s2 hs2.1,
        fun x y => le_trans (hs2.2 x y) (rateAt_relax_mono n k i b s2 hs2.1 hi hb x y)⟩
    · intro s2 hs2
      refine le_trans ?_ (rateAt_relax_ge n k i j s2 hs2.1 hi hj)
      exact mul_le_mul (hs2.2 i k) (hs2.2 k j) (hn k j) (le_trans (hn i k) (hs2.2 i k))
    · intro s2 b hb hs2 hq
      exact le_trans hq (rateAt_relax_mono n k i b s2 hs2.1 hi (List.mem_range.mp hb) i j)
  · intro s a ha hs hq
    exact le_trans hq (rateAt_relaxRow_mono n k a s hs.1 (List.mem_range.mp ha) i j).2

/-! ## The lower bound, phase by phase -/

theorem lowerBound_relaxPhase (t : AdjacencyTable) (hp : PositiveFactors t) (hg : NoGain t)
    (k : Nat) (hk : k < t.length) (st : RateTable × NextTable)
    (hs : Sound t t.length st) (hl : LowerBound t t.length k st) :
    LowerBound t t.length (k + 1) (relaxPhase t.length k st) := by
  intro i j c hi hj w
  rcases walk_split hp hg hk w with h1 | ⟨c1, c3, w1, w3, hle⟩
  · exact le_trans (hl i j c hi hj h1) (rateAt_relaxPhase_mono _ k st hs.1 i j).2
  · refine le_trans hle (le_trans ?_ (rateAt_relaxPhase_ge _ k st hs.1 hs.2.1 i j hi hj))
    exact mul_le_mul (hl i k c1 hi hk w1) (hl k j c3 hk hj w3) (le_of_lt (walk_pos hp w3))
      (hs.2.1 i k)

theorem floydWarshall_prefix (t : AdjacencyTable) (hp : PositiveFactors t) (hg : NoGain t)
    (st : RateTable × NextTable) (hs : Sound t t.length st)
    (hl : LowerBound t t.length 0 st) (m : Nat) (hm : m ≤ t.length) :
    Sound t t.length ((List.range m).foldl (fun st k => relaxPhase t.length k st) st) ∧
      LowerBound t t.length m
        ((List.range m).foldl (fun st k => relaxPhase t.length k st) st) := by
  induction m with
  | zero => exact ⟨hs, hl⟩
  | succ m ih =>
    obtain ⟨h1, h2⟩ := ih (Nat.le_of_succ_le hm)
    rw [List.range_succ, List.foldl_append]
    simp only [List.foldl_cons, List.foldl_nil]
    exact ⟨sound_relaxPhase t _ m _ hm h1, lowerBound_relaxPhase t hp hg m hm _ h1 h2⟩

theorem floydWarshall_sound (t : AdjacencyTable) (hp : PositiveFactors t) (hg : NoGain t)
    (st : RateTable × NextTable) (hs : Sound t t.length st)
    (hl : LowerBound t t.length 0 st) :
    Sound t t.length (floydWarshall t.length st) ∧
      LowerBound t t.length t.length (floydWarshall t.length st) :=
  floydWarshall_prefix t hp hg st hs hl t.length (le_refl _)

/-! ## The tables after the fill loops -/

theorem tableShape_initial (n : Nat) : TableShape n (zeroRate n, invalidNext n) := by
  refine ⟨?_, ?_, ?_, ?_⟩
  · simp [zeroRate]
  · intro a ha
    simp [zeroRate, List.getD_eq_getElem?_getD, List.getElem?_replicate, ha]
  · simp [invalidNext]
  · intro a ha
    simp [invalidNext, List.getD_eq_getElem?_getD, List.getElem?_replicate, ha]

theorem sound_initial (t : AdjacencyTable) (n : Nat) :
    Sound t n (zeroRate n, invalidNext n) := by
  refine ⟨tableShape_initial n, ?_, ?_⟩
  · intro a b
    unfold rateAt zeroRate
    rw [get2_replicate]
  · intro a b hab
    unfold rateAt zeroRate at hab
    rw [get2_replicate] at hab
    exact absurd hab (lt_irrefl _)

theorem tableShape_fillCell (t : AdjacencyTable) (n i j : Nat) (st : RateTable × NextTable)
    (h : TableShape n st) : TableShape n (fillCell t i j st) := by
  unfold fillCell
  split
  · exact tableShape_set2 n st i j _ _ h
  · exact h

theorem rateAt_fillCell (t : AdjacencyTable) (n i j : Nat) (st : RateTable × NextTable)
    (h : TableShape n st) (hi : i < n) (hj : j < n) (a b : Nat) :
    rateAt (fillCell t i j st) a b =
      if a = i ∧ b = j ∧ isEdge t i j then factor t i j else rateAt st a b := by
  unfold fillCell rateAt
  by_cases he : (cellAt t i j).1 ≠ 0
  · rw [if_pos he]
    show get2 0 (set2 st.1 i j _) a b = _
    rw [get2_set2_of_shape 0 st.1 n i j _ h.1 h.2.1 hi hj]
    by_cases hab : a = i ∧ b = j
    · rw [if_pos hab, if_pos ⟨hab.1, hab.2, he⟩]
      rfl
    · rw [if_neg hab, if_neg (fun hh => hab ⟨hh.1, hh.2.1⟩)]
  · rw [if_neg he, if_neg (fun hh => he hh.2.2)]

theorem nextAt_fillCell (t : AdjacencyTable) (n i j : Nat) (st : RateTable × NextTable)
    (h : TableShape n st) (hi : i < n) (hj : j < n) (a b : Nat) :
    nextAt (fillCell t i j st) a b =
      if a = i ∧ b = j ∧ isEdge t i j then some j else nextAt st a b := by
  unfold fillCell nextAt
  by_cases he : (cellAt t i j).1 ≠ 0
  · rw [if_pos he]
    show get2 none (set2 st.2 i j _) a b = _
    rw [get2_set2_of_shape none st.2 n i j _ h.2.2.1 h.2.2.2 hi hj]
    by_cases hab : a = i ∧ b = j
    · rw [if_pos hab, if_pos ⟨hab.1, hab.2, he⟩]
    · rw [if_neg hab, if_neg (fun hh => hab ⟨hh.1, hh.2.1⟩)]
  · rw [if_neg he, if_neg (fun hh => he hh.2.2)]

theorem sound_fillCell (t : AdjacencyTable) (hp : PositiveFactors t) (n i j : Nat)
    (st : RateTable × NextTable) (hi : i < n) (hj : j < n) (h : Sound t n st) :
    Sound t n (fillCell t i j st) := by
  refine ⟨tableShape_fillCell t n i j st h.1, ?_, ?_⟩
  · intro a b
    rw [rateAt_fillCell t n i j st h.1 hi hj]
    split
    · rename_i hh
      exact le_of_lt (hp i j hh.2.2)
    · exact h.2.1 a b
  · intro a b hab
    rw [rateAt_fillCell t n i j st h.1 hi hj] at hab ⊢
    rw [nextAt_fillCell t n i j st h.1 hi hj]
    by_cases hc : a = i ∧ b = j ∧ isEdge t i j
    · rw [if_pos hc]
      rw [if_pos hc]
      obtain ⟨rfl, rfl, he⟩ := hc
      exact ⟨b, rfl, he, Or.inl ⟨rfl, rfl⟩⟩
    · rw [if_neg hc] at hab ⊢
      rw [if_neg hc]
      exact h.2.2 a b hab

theorem sound_fillTables (t : AdjacencyTable) (hp : PositiveFactors t) (n : Nat)
    (st : RateTable × NextTable) (h : Sound t n st) : Sound t n (fillTables t n st) := by
  unfold fillTables
  refine foldl_invariant (Sound t n) _ _ ?_ st h
  intro s i hi hs
  refine foldl_invariant (Sound t n) _ _ ?_ s hs
  intro s2 j hj hs2
  exact sound_fillCell t hp n i j s2 (List.mem_range.mp hi) (List.mem_range.mp hj) hs2

theorem rateAt_fillTables (t : AdjacencyTable) (n : Nat) (st : RateTable × NextTable)
    (h : TableShape n st) (i j : Nat) (hi : i < n) (hj : j < n) (he : isEdge t i j) :
    rateAt (fillTables t n st) i j = factor t i j := by
  unfold fillTables
  refine foldl_establish _ _ i (List.mem_range.mpr hi) (TableShape n)
    (fun s => rateAt s i j = factor t i j) ?_ ?_ ?_ st h
  · intro s a _ hs
    exact foldl_invariant (TableShape n) _ _
      (fun s2 b _ hs2 => tableShape_fillCell t n a b s2 hs2) s hs
  · intro s hs
    refine foldl_establish _ _ j (List.mem_range.mpr hj) (TableShape n)
      (fun s => rateAt s i j = factor t i j) ?_ ?_ ?_ s hs
    · intro s2 b _ hs2
      exact tableShape_fillCell t n i b s2 hs2
    · intro s2 hs2
      rw [rateAt_fillCell t n i j s2 hs2 hi hj, if_pos ⟨rfl, rfl, he⟩]
    · intro s2 b hb hs2 hq
      rw [rateAt_fillCell t n i b s2 hs2 hi (List.mem_range.mp hb)]
      split
      · rename_i hh
        rw [hh.2.1]
      · exact hq
  · intro s a ha hs hq
    refine (foldl_invariant (fun s2 => TableShape n s2 ∧ rateAt s2 i j = factor t i j) _ _
      ?_ s ⟨hs, hq⟩).2
    intro s2 b hb hs2
    refine ⟨tableShape_fillCell t n a b s2 hs2.1, ?_⟩
    rw [rateAt_fillCell t n a b s2 hs2.1 (List.mem_range.mp ha) (List.mem_range.mp hb)]
    split
    · rename_i hh
      rw [hh.1, hh.2.1]
    · exact hs2.2

theorem lowerBound_fillTables (t : AdjacencyTable) (n : Nat) :
    LowerBound t n 0 (fillTables t n (zeroRate n, invalidNext n)) := by
  intro i j c hi hj w
  cases w with
  | edge _ _ he =>
    rw [rateAt_fillTables t n _ (tableShape_initial n) i j hi hj he]
  | cons _ m _ c he hm _ => exact absurd hm (Nat.not_lt_zero m)

theorem solverTables_sound (t : AdjacencyTable) (hp : PositiveFactors t) (hg : NoGain t) :
    Sound t t.length (solverTables t) ∧
      LowerBound t t.length t.length (solverTables t) :=
  floydWarshall_sound t hp hg _ (sound_fillTables t hp _ _ (sound_initial t _))
    (lowerBound_fillTables t _)


/-! ## The reconstructed path attains the table entry -/

theorem solverTables_hop (t : AdjacencyTable) (hp : PositiveFactors t) (hg : NoGain t)
    (u v d : Nat) (hd : d < t.length) (hv : nextAt (solverTables t) u d = some v) :
    rateAt (solverTables t) u d ≤
      factor t u v * (if v = d then 1 else rateAt (solverTables t) v d) := by
  obtain ⟨hs, hl⟩ := solverTables_sound t hp hg
  have hedge : isEdge t u v := nextAlongEdges_solverTables t u d v hv
  have hf : 0 < factor t u v := hp u v hedge
  rcases lt_or_eq_of_le (hs.2.1 u d) with hpos | hzero
  · obtain ⟨m, hm, hvia⟩ := hs.2.2 u d hpos
    rw [hv] at hm
    cases hm
    obtain ⟨-, h1 | h2⟩ := hvia
    · obtain ⟨rfl, hr⟩ := h1
      rw [hr, if_pos rfl, mul_one]
    · obtain ⟨hvn, c1, w, hr⟩ := h2
      rw [hr]
      apply mul_le_mul_of_nonneg_left _ (le_of_lt hf)
      split
      · rename_i hvd
        subst hvd
        exact hg v c1 hd w
      · exact hl v d c1 hvn hd w
  · rw [← hzero]
    apply mul_nonneg (le_of_lt hf)
    split
    · exact zero_le_one
    · exact hs.2.1 v d

theorem pathProduct_cons_cons (t : AdjacencyTable) (u v : Nat) (rest : List Nat) :
    pathProduct t (u :: v :: rest) = factor t u v * pathProduct t (v :: rest) := rfl

theorem walk_attains (t : AdjacencyTable) (hp : PositiveFactors t) (hg : NoGain t)
    (d : Nat) (hd : d < t.length) (fuel u : Nat) (path p : List Nat)
    (h : walk (solverTables t).2 d fuel u path = .found p) :
    ∃ tail, p = path ++ tail ∧
      (if u = d then 1 else rateAt (solverTables t) u d) ≤ pathProduct t (u :: tail) := by
  induction fuel generalizing u path with
  | zero =>
    unfold walk at h
    split at h
    · rename_i hud
      cases h
      exact ⟨[], by simp, by rw [if_pos hud]; exact le_refl _⟩
    · cases h
  | succ fuel ih =>
    unfold walk at h
    split at h
    · rename_i hud
      cases h
      exact ⟨[], by simp, by rw [if_pos hud]; exact le_refl _⟩
    · rename_i hud
      simp only at h
      split at h
      · cases h
      · rename_i v hv
        split at h
        · cases h
        · obtain ⟨tail, hp1, hle⟩ := ih v (path ++ [v]) h
          refine ⟨v :: tail, by rw [hp1]; simp, ?_⟩
          rw [if_neg hud, pathProduct_cons_cons]
          refine le_trans (solverTables_hop t hp hg u v d hd hv) ?_
          exact mul_le_mul_of_nonneg_left hle
            (le_of_lt (hp u v (nextAlongEdges_solverTables t u d v hv)))

theorem chain_walk (t : AdjacencyTable) (n : Nat) (a b : Nat) (rest : List Nat) (d : Nat)
    (hc : IsChain t (a :: b :: rest)) (hn : ∀ v ∈ a :: b :: rest, v < n)
    (hl : (a :: b :: rest).getLast? = some d) :
    Walk t n a d (pathProduct t (a :: b :: rest)) := by
  induction rest generalizing a b with
  | nil =>
    simp at hl
    subst hl
    have : pathProduct t [a, b] = factor t a b := by
      show factor t a b * 1 = factor t a b
      rw [mul_one]
    rw [this]
    exact Walk.edge a b hc.1
  | cons c rest ih =>
    rw [pathProduct_cons_cons]
    refine Walk.cons a b d _ hc.1 (hn b (by simp)) ?_
    apply ih b c hc.2
    · intro v hv
      exact hn v (List.mem_cons_of_mem _ hv)
    · simpa [List.getLast?_cons_cons] using hl

theorem simplePath_self (t : AdjacencyTable) (s : Nat) (q : List Nat)
    (hq : IsSimplePath t s s q) : q = [s] := by
  obtain ⟨hh, hl, hnd, -, -⟩ := hq
  cases q with
  | nil => simp at hh
  | cons a rest =>
    simp at hh
    subst hh
    cases rest with
    | nil => rfl
    | cons b rest2 =>
      exfalso
      rw [List.getLast?_cons_cons] at hl
      have hmem : a ∈ b :: rest2 := List.mem_of_getLast?_eq_some hl
      exact (List.nodup_cons.mp hnd).1 hmem

/-- Without a closed walk of product above 1, a returned path is at least
as good as every path without repeated vertices. -/
theorem found_optimal_of_noGain (t : AdjacencyTable) (hp : PositiveFactors t)
    (hg : NoGain t) (s d : Nat) (p q : List Nat)
    (h : generateExchangePath t s d = .found p) (hq : IsSimplePath t s d q) :
    pathProduct t q ≤ pathProduct t p := by
  unfold generateExchangePath at h
  split at h
  · rename_i hguard
    obtain ⟨-, hs, hd⟩ := hguard
    unfold constructPath at h
    split at h
    · cases h
    · obtain ⟨tail, hp1, hle⟩ := walk_attains t hp hg d hd _ s [s] p h
      by_cases hsd : s = d
      · subst hsd
        rw [simplePath_self t s q hq]
        unfold walk at h
        rw [if_pos rfl] at h
        cases h
        exact le_refl _
      · rw [if_neg hsd] at hle
        have hp2 : p = s :: tail := by rw [hp1]; rfl
        rw [hp2]
        refine le_trans ?_ hle
        obtain ⟨hl, _⟩ := solverTables_sound t hp hg
        obtain ⟨hh, hlast, hnd, hc, hn⟩ := hq
        cases q with
        | nil => simp at hh
        | cons a rest =>
          simp at hh
          subst hh
          cases rest with
          | nil =>
            simp at hlast
            exact absurd hlast hsd
          | cons b rest2 =>
            exact (solverTables_sound t hp hg).2 a d _ hs hd
              (chain_walk t _ a b rest2 d hc hn hlast)
  · cases h


/-! ## Closed walks decompose into cycles -/

theorem pathProduct_append (t : AdjacencyTable) (a : Nat) (l1 : List Nat) (x : Nat)
    (l2 : List Nat) :
    pathProduct t (a :: (l1 ++ x :: l2)) =
      pathProduct t (a :: (l1 ++ [x])) * pathProduct t (x :: l2) := by
  induction l1 generalizing a with
  | nil =>
    show factor t a x * pathProduct t (x :: l2) = factor t a x * 1 * pathProduct t (x :: l2)
    rw [mul_one]
  | cons y rest ih =>
    show factor t a y * pathProduct t (y :: (rest ++ x :: l2)) =
      factor t a y * pathProduct t (y :: (rest ++ [x])) * pathProduct t (x :: l2)
    rw [ih y, mul_assoc]

theorem isChain_append (t : AdjacencyTable) (a : Nat) (l1 : List Nat) (x : Nat)
    (l2 : List Nat) :
    IsChain t (a :: (l1 ++ x :: l2)) ↔
      IsChain t (a :: (l1 ++ [x])) ∧ IsChain t (x :: l2) := by
  induction l1 generalizing a with
  | nil =>
    show isEdge t a x ∧ IsChain t (x :: l2) ↔ (isEdge t a x ∧ True) ∧ IsChain t (x :: l2)
    simp
  | cons y rest ih =>
    show isEdge t a y ∧ IsChain t (y :: (rest ++ x :: l2)) ↔
      (isEdge t a y ∧ IsChain t (y :: (rest ++ [x]))) ∧ IsChain t (x :: l2)
    rw [ih y, and_assoc]

theorem pathProduct_pos (t : AdjacencyTable) (hp : PositiveFactors t) (l : List Nat)
    (hc : IsChain t l) : 0 < pathProduct t l := by
  induction l with
  | nil => exact zero_lt_one
  | cons a rest ih =>
    cases rest with
    | nil => exact zero_lt_one
    | cons b rest2 => exact mul_pos (hp a b hc.1) (ih hc.2)

theorem exists_duplicate_split (l : List Nat) (h : ¬ l.Nodup) :
    ∃ x l1 l2 l3, l = l1 ++ x :: (l2 ++ x :: l3) := by
  induction l with
  | nil => exact absurd List.nodup_nil h
  | cons a rest ih =>
    by_cases ha : a ∈ rest
    · obtain ⟨l2, l3, hsplit⟩ := List.append_of_mem ha
      exact ⟨a, [], l2, l3, by rw [hsplit]; rfl⟩
    · have hr : ¬ rest.Nodup := fun hn => h (List.nodup_cons.mpr ⟨ha, hn⟩)
      obtain ⟨x, l1, l2, l3, hsplit⟩ := ih hr
      exact ⟨x, a :: l1, l2, l3, by rw [hsplit]; rfl⟩

theorem getLast?_append_cons {α : Type} (l1 : List α) (x : α) (l2 : List α) :
    (l1 ++ x :: l2).getLast? = (x :: l2).getLast? := by
  induction l1 with
  | nil => rfl
  | cons a rest ih =>
    cases hr : rest ++ x :: l2 with
    | nil => simp at hr
    | cons b rest2 =>
      rw [List.cons_append, hr, List.getLast?_cons_cons, ← hr]
      exact ih

theorem closed_walk_le_one (t : AdjacencyTable) (hp : PositiveFactors t)
    (ha : NoArbitrage t) (N : Nat) :
    ∀ (v : Nat) (l : List Nat), l.length ≤ N → l ≠ [] → IsChain t (v :: l) →
      l.getLast? = some v → (∀ x ∈ l, x < t.length) → pathProduct t (v :: l) ≤ 1 := by
  induction N with
  | zero =>
    intro v l hlen hne
    exact absurd (List.length_eq_zero.mp (Nat.le_zero.mp hlen)) hne
  | succ N ih =>
    intro v l hlen hne hc hlast hn
    by_cases hnd : l.Nodup
    · apply ha
      refine ⟨v, l, rfl, hne, hlast, hnd, hc, ?_⟩
      intro x hx
      rcases List.mem_cons.mp hx with hxv | hxl
      · rw [hxv]
        exact hn v (List.mem_of_getLast?_eq_some hlast)
      · exact hn x hxl
    · obtain ⟨x, l1, l2, l3, hsplit⟩ := exists_duplicate_split l hnd
      subst hsplit
      have hlen2 : l1.length + (l2.length + (l3.length + 1) + 1) ≤ N + 1 := by
        simpa [List.length_append, List.length_cons] using hlen
      rw [isChain_append] at hc
      obtain ⟨hc1, hc2⟩ := hc
      rw [isChain_append] at hc2
      obtain ⟨hc2, hc3⟩ := hc2
      rw [pathProduct_append t v l1 x (l2 ++ x :: l3), pathProduct_append t x l2 x l3]
      have hinner : pathProduct t (x :: (l2 ++ [x])) ≤ 1 := by
        apply ih x (l2 ++ [x])
        · simp only [List.length_append, List.length_cons, List.length_nil]
          omega
        · simp
        · exact hc2
        · simp
        · intro y hy
          apply hn y
          rcases List.mem_append.mp hy with h2 | h2
          · simp [h2]
          · simp only [List.mem_singleton] at h2
            simp [h2]
      have houter : pathProduct t (v :: (l1 ++ x :: l3)) ≤ 1 := by
        apply ih v (l1 ++ x :: l3)
        · simp only [List.length_append, List.length_cons]
          omega
        · simp
        · rw [isChain_append]
          exact ⟨hc1, hc3⟩
        · rw [getLast?_append_cons] at hlast ⊢
          have hx : x :: (l2 ++ x :: l3) = (x :: l2) ++ x :: l3 := rfl
          rw [hx, getLast?_append_cons] at hlast
          exact hlast
        · intro y hy
          apply hn y
          rcases List.mem_append.mp hy with h2 | h2
          · simp [h2]
          · rcases List.mem_cons.mp h2 with h3 | h3
            · simp [h3]
            · simp [h3]
      rw [pathProduct_append t v l1 x l3] at houter
      have p1 := pathProduct_pos t hp _ hc1
      have p2 := pathProduct_pos t hp _ hc2
      have p3 := pathProduct_pos t hp _ hc3
      calc pathProduct t (v :: (l1 ++ [x])) *
            (pathProduct t (x :: (l2 ++ [x])) * pathProduct t (x :: l3))
          = pathProduct t (x :: (l2 ++ [x])) *
            (pathProduct t (v :: (l1 ++ [x])) * pathProduct t (x :: l3)) := by ring
        _ ≤ 1 * (pathProduct t (v :: (l1 ++ [x])) * pathProduct t (x :: l3)) :=
            mul_le_mul_of_nonneg_right hinner (le_of_lt (mul_pos p1 p3))
        _ ≤ 1 := by rw [one_mul]; exact houter

theorem walk_toList {t : AdjacencyTable} {n i j : Nat} {c : ℚ} (w : Walk t n i j c)
    (hj : j < n) :
    ∃ l, l ≠ [] ∧ IsChain t (i :: l) ∧ l.getLast? = some j ∧ (∀ x ∈ l, x < n) ∧
      pathProduct t (i :: l) = c := by
  induction w with
  | edge i j he =>
    refine ⟨[j], by simp, ⟨he, trivial⟩, rfl, ?_, ?_⟩
    · intro x hx
      simp only [List.mem_singleton] at hx
      rw [hx]; exact hj
    · show factor t i j * 1 = factor t i j
      rw [mul_one]
  | cons i m j c he hm _ ih =>
    obtain ⟨l, hne, hc, hlast, hn, hprod⟩ := ih hj
    refine ⟨m :: l, by simp, ⟨he, hc⟩, ?_, ?_, ?_⟩
    · cases l with
      | nil => exact absurd rfl hne
      | cons b rest => rw [List.getLast?_cons_cons]; exact hlast
    · intro x hx
      rcases List.mem_cons.mp hx with h1 | h1
      · rw [h1]; exact hm
      · exact hn x h1
    · show factor t i m * pathProduct t (m :: l) = factor t i m * c
      rw [hprod]

theorem noGain_of_noArbitrage (t : AdjacencyTable) (hp : PositiveFactors t)
    (ha : NoArbitrage t) : NoGain t := by
  intro v c hv w
  obtain ⟨l, hne, hc, hlast, hn, hprod⟩ := walk_toList w hv
  rw [← hprod]
  exact closed_walk_le_one t hp ha l.length v l (le_refl _) hne hc hlast hn


/-! ## Reachable tables carry positive factors -/

theorem positiveFactors_iff (t : AdjacencyTable) :
    PositiveFactors t ↔ ∀ i j, (cellAt t i j).1 ≠ 0 → 0 < (cellAt t i j).2 := Iff.rfl

theorem positiveFactors_connect {clock : Nat → Int} {st st1 : Engine × Nat}
    {i j : Option Nat} (h : connect clock st i j = some st1)
    (hp : PositiveFactors st.1.m_adjacencyTable) :
    PositiveFactors st1.1.m_adjacencyTable := by
  obtain ⟨a, b, -, -, hc⟩ := connect_cells h
  intro x y hxy
  unfold isEdge at hxy
  unfold factor
  rw [hc x y] at hxy ⊢
  split
  · exact zero_lt_one
  · rename_i hn
    rw [if_neg hn] at hxy
    exact hp x y hxy

theorem positiveFactors_addExchangeCurrencyPair (e : Engine) (x c : String)
    (hp : PositiveFactors e.m_adjacencyTable) :
    PositiveFactors (addExchangeCurrencyPair e x c).1.m_adjacencyTable := by
  intro a b hab
  unfold isEdge at hab
  unfold factor
  rw [cellAt_addExchangeCurrencyPair] at hab ⊢
  exact hp a b hab

theorem positiveFactors_updateCell {t t1 : AdjacencyTable} {i j : Option Nat} {ts : Int}
    {f : ℚ} (h : updateCell t i j ts f = some t1) (hf : 0 < f) (hp : PositiveFactors t) :
    PositiveFactors t1 := by
  obtain ⟨a, b, ha, hb, -, -, -⟩ := updateCell_some h
  subst ha
  subst hb
  intro x y hxy
  unfold isEdge at hxy
  unfold factor
  rw [updateCell_cellAt h x y] at hxy ⊢
  split
  · exact hf
  · rename_i hn
    rw [if_neg hn] at hxy
    exact hp x y hxy

theorem positiveFactors_applyRateUpdate {clock : Nat → Int} {e e1 : Engine}
    {u : RateUpdate} (hv : u.Valid) (h : applyRateUpdate clock e u = some e1)
    (hp : PositiveFactors e.m_adjacencyTable) : PositiveFactors e1.m_adjacencyTable := by
  obtain ⟨ep, hpr, hd⟩ := applyRateUpdate_some h
  obtain ⟨si, di, t1, t2, -, -, h1, h2, rfl⟩ := directUpdate_some hd
  have hep : PositiveFactors ep.m_adjacencyTable :=
    provision_preserves (fun e0 => PositiveFactors e0.m_adjacencyTable) clock
      (fun st i j st1 hc hst => positiveFactors_connect hc hst)
      positiveFactors_addExchangeCurrencyPair e ep u hpr hp
  have hval := (validateFactors_eq_none_iff _ _).mp hv
  exact positiveFactors_updateCell h2 hval.2.1 (positiveFactors_updateCell h1 hval.1 hep)

theorem positiveFactors_of_reachable {e : Engine} (h : Reachable e) :
    PositiveFactors e.m_adjacencyTable := by
  induction h with
  | empty =>
    intro i j hij
    exact absurd rfl hij
  | step clock e u e1 _ hv happ ih => exact positiveFactors_applyRateUpdate hv happ ih

/-! ## Tables without a factor above 1 -/

theorem factor_le_one_of_rows (t : AdjacencyTable)
    (h : ∀ row ∈ t, ∀ c ∈ row, c.2 ≤ 1) (i j : Nat) : factor t i j ≤ 1 := by
  unfold factor cellAt get2
  rw [List.getD_eq_getElem?_getD, List.getD_eq_getElem?_getD]
  cases hrow : t[i]? with
  | none => simp
  | some row =>
    simp only [Option.getD_some]
    cases hc : row[j]? with
    | none => simp
    | some c =>
      simp only [Option.getD_some]
      exact h row (List.getElem?_mem hrow) c (List.getElem?_mem hc)

theorem pathProduct_le_one (t : AdjacencyTable) (hp : PositiveFactors t)
    (h : ∀ i j, factor t i j ≤ 1) (l : List Nat) (hc : IsChain t l) :
    pathProduct t l ≤ 1 := by
  induction l with
  | nil => exact le_refl _
  | cons a rest ih =>
    cases rest with
    | nil => exact le_refl _
    | cons b rest2 =>
      show factor t a b * pathProduct t (b :: rest2) ≤ 1
      have h1 := ih hc.2
      have h2 := h a b
      have h3 := pathProduct_pos t hp _ hc.2
      have h4 := hp a b hc.1
      calc factor t a b * pathProduct t (b :: rest2) ≤ 1 * 1 :=
            mul_le_mul h2 h1 (le_of_lt h3) zero_le_one
        _ = 1 := one_mul 1

theorem noArbitrage_of_rows (t : AdjacencyTable) (hp : PositiveFactors t)
    (h : ∀ row ∈ t, ∀ c ∈ row, c.2 ≤ 1) : NoArbitrage t := by
  intro c hc
  obtain ⟨v, rest, rfl, -, -, -, hch, -⟩ := hc
  exact pathProduct_le_one t hp (factor_le_one_of_rows t h) _ hch


/-! ## Shape of a returned path -/

/-- C2: for every adjacency table and every pair of indices `s`, `d`, if
`generateExchangePath` returns a non-empty sequence, then its first element
is `s`, its last element is `d`, and every two consecutive elements are
joined by a cell with a non-zero timestamp. -/
theorem generateExchangePath_shape (t : AdjacencyTable) (s d : Nat) (p : List Nat)
    (h : (generateExchangePath t s d).returned = some p) (hne : p ≠ []) :
    p.head? = some s ∧ p.getLast? = some d ∧ IsChain t p :=
  generateExchangePath_found t s d p (returned_nonempty h hne)

theorem generateExchangePath_shape_witness :
    (generateExchangePath arbitrageTable 0 2).returned = some [0, 1, 2] ∧
      ([0, 1, 2] : List Nat) ≠ [] ∧
      ([0, 1, 2] : List Nat).head? = some 0 ∧ ([0, 1, 2] : List Nat).getLast? = some 2 ∧
      IsChain arbitrageTable [0, 1, 2] :=
  ⟨by decide!, by decide,
    generateExchangePath_shape arbitrageTable 0 2 [0, 1, 2] (by decide!) (by decide)⟩

/-! ## Validation of the factors -/

/-- C5: the factors pass the validation of lines 60-69 if and only if both
are positive and their product is at most 1; `(2.0, 0.6)` is rejected with
the invalid-combination message and `(0.9, 1.0)` is accepted. -/
theorem validateFactors_spec :
    (∀ f b : ℚ, validateFactors f b = none ↔ 0 < f ∧ 0 < b ∧ f * b ≤ 1) ∧
      validateFactors 2 (6 / 10) =
        some "invalid combination of forward and backward factors" ∧
      validateFactors (9 / 10) 1 = none :=
  ⟨validateFactors_eq_none_iff, by decide!, by decide!⟩


/-! ## Applying the same update twice -/

/-- C6: for every engine state and every rate update whose first
application completes, a second application of the same update (whatever
the clock reads) completes and leaves the whole engine state, the cells
`(source, destination)` and `(destination, source)` included, exactly as
the first application left it. -/
theorem applyRateUpdate_idempotent (clock clock2 : Nat → Int) (e e1 : Engine)
    (u : RateUpdate) (h : applyRateUpdate clock e u = some e1) :
    applyRateUpdate clock2 e1 u = some e1 := by
  obtain ⟨ep, hp, hd⟩ := applyRateUpdate_some h
  obtain ⟨si, di, t1, t2, -, -, -, -, he1⟩ := directUpdate_some hd
  have hn := provision_sameNames hp
  have hm := insertNames_mem e u
  have hx : u.exchange ∈ e1.m_exchanges := by
    rw [he1]
    show u.exchange ∈ ep.m_exchanges
    rw [hn.1]
    exact hm.1
  have hs : u.sourceCurrency ∈ e1.m_currencies := by
    rw [he1]
    show u.sourceCurrency ∈ ep.m_currencies
    rw [hn.2]
    exact hm.2.1
  have hdc : u.destinationCurrency ∈ e1.m_currencies := by
    rw [he1]
    show u.destinationCurrency ∈ ep.m_currencies
    rw [hn.2]
    exact hm.2.2
  unfold applyRateUpdate
  rw [provision_of_known clock2 e1 u hx hs hdc]
  simp only
  have hd2 : directUpdate ep u = some e1 := hd
  rw [he1] at hd2 ⊢
  have := directUpdate_idempotent hd2
  exact this

theorem applyRateUpdate_idempotent_witness :
    applyRateUpdate sampleClock twoExchangeEngine
        (mkUpdate 1509529400 "B" "USD" "GBP" (1/2) 2) = some quotedEngine ∧
      applyRateUpdate sampleClock quotedEngine
        (mkUpdate 1509529400 "B" "USD" "GBP" (1/2) 2) = some quotedEngine :=
  ⟨by decide!,
    applyRateUpdate_idempotent sampleClock sampleClock twoExchangeEngine quotedEngine
      (mkUpdate 1509529400 "B" "USD" "GBP" (1/2) 2) (by decide!)⟩

/-! ## Rejected lines -/

theorem processInfo_thrown {lib : StdLib} {clock : Nat → Int} {data : StringTokenizer}
    {w w1 : World} {what : String} (h : processInfo lib clock data w = .thrown what w1) :
    w1 = w := by
  unfold processInfo at h
  split at h
  · cases h; rfl
  · split at h
    · cases h; rfl
    · split at h <;> cases h

theorem answerRequest_thrown {sx sc dx dc : String} {w w1 : World} {what : String}
    (h : answerRequest sx sc dx dc w = .thrown what w1) : w1.engine = w.engine := by
  unfold answerRequest at h
  split at h
  · split at h
    · cases h
    · cases h; rfl
  · split at h
    · split at h
      · cases h
      · cases h; rfl
    · split at h
      · split at h <;> cases h
      · cases h

theorem processRequest_thrown {data : StringTokenizer} {w w1 : World} {what : String}
    (h : processRequest data w = .thrown what w1) : w1.engine = w.engine := by
  unfold processRequest at h
  split at h
  · cases h; rfl
  · split at h
    · cases h; rfl
    · split at h
      · cases h; rfl
      · split at h
        · cases h; rfl
        · exact answerRequest_thrown h

theorem processDataBody_thrown {lib : StdLib} {clock : Nat → Int} {data : List Char}
    {w w1 : World} {what : String} (h : processDataBody lib clock data w = .thrown what w1) :
    w1.engine = w.engine := by
  unfold processDataBody at h
  split at h
  · cases h; rfl
  · split at h
    · exact processRequest_thrown h
    · rw [processInfo_thrown h]

/-- C4: for every engine state and every input line that is rejected (the
`try` block of `processData` ends in an exception: no first token, a missing
or empty field, an invalid timestamp, an unparseable number, a non-positive
factor, a product of the factors above 1, or an unknown pair in a query),
`processData` returns and the engine state after it (exchange set, currency
set, vertex registry and adjacency table) is identical to the state before. -/
theorem processData_rejected_engine (lib : StdLib) (clock : Nat → Int) (data : List Char)
    (w w1 : World) (what : String)
    (h : processDataBody lib clock data w = .thrown what w1) :
    ∃ w2, processData lib clock data w = some w2 ∧ w2.engine = w.engine ∧
      w2.cerr = w1.cerr ++ ["Error: " ++ what ++ ", data (" ++ String.mk data ++ ")"] := by
  refine ⟨{ w1 with
    cerr := w1.cerr ++ ["Error: " ++ what ++ ", data (" ++ String.mk data ++ ")"] },
    ?_, ?_, rfl⟩
  · unfold processData
    rw [h]
  · show w1.engine = w.engine
    exact processDataBody_thrown h

theorem processData_rejected_engine_witness :
    processDataBody rejectingLib sampleClock
        "2017-11-01T09:42:23+00:00 A USD EUR 2.0 0.6".toList (World.init twoExchangeEngine) =
      .thrown "invalid date or time in time field timestamp" (World.init twoExchangeEngine) ∧
    ∃ w2, processData rejectingLib sampleClock
        "2017-11-01T09:42:23+00:00 A USD EUR 2.0 0.6".toList (World.init twoExchangeEngine) =
          some w2 ∧
      w2.engine = (World.init twoExchangeEngine).engine ∧
      w2.cerr = (World.init twoExchangeEngine).cerr ++
        ["Error: " ++ "invalid date or time in time field timestamp" ++ ", data (" ++
          String.mk "2017-11-01T09:42:23+00:00 A USD EUR 2.0 0.6".toList ++ ")"] :=
  ⟨by decide!,
    processData_rejected_engine rejectingLib sampleClock _ (World.init twoExchangeEngine)
      (World.init twoExchangeEngine) _ (by decide!)⟩

/-! ## Absent cells and the zero timestamp -/

/-- C8, as the code has it: an absent cell carries the timestamp 0. For every
reachable engine state and every rate update with a positive timestamp
whose application completes: if the target cell `(source, destination)` is
absent before the update (its vertices may be new), then after the update
the cell holds the timestamp and the forward factor of the update, and the
solver treats it as an edge. -/
theorem applyRateUpdate_absent_cell (clock : Nat → Int) (e e1 : Engine) (u : RateUpdate)
    (si di : Nat) (hr : Reachable e) (h : applyRateUpdate clock e u = some e1)
    (hs : findExchangeCurrencyPair e1 u.exchange u.sourceCurrency = some si)
    (hd : findExchangeCurrencyPair e1 u.exchange u.destinationCurrency = some di)
    (habsent : (cellAt e.m_adjacencyTable si di).1 = 0)
    (hpos : 0 < u.timestamp) :
    cellAt e1.m_adjacencyTable si di = (u.timestamp, u.forwardFactor) ∧
      isEdge e1.m_adjacencyTable si di := by
  obtain ⟨ep, hp, hdu⟩ := applyRateUpdate_some h
  obtain ⟨si2, di2, t1, t2, hs2, hd2, h1, h2, he1⟩ := directUpdate_some hdu
  have hreg : SameRegistry ep e1 := by rw [he1]; exact ⟨rfl, rfl, rfl, rfl⟩
  rw [sameRegistry_find hreg, hs2] at hs
  rw [sameRegistry_find hreg, hd2] at hd
  cases hs
  cases hd
  obtain ⟨_, _, hx, hy, hr1, hr2, -⟩ := updateCell_some h1
  cases hx
  cases hy
  obtain ⟨_, _, hx, hy, hr3, hr4, -⟩ := updateCell_some h2
  cases hx
  cases hy
  rw [updateCell_length h1] at hr3
  rw [updateCell_row_length h1] at hr4
  obtain ⟨e2, hd3, -, -, -, hc, -, -⟩ :=
    directUpdate_cells ep u si di hs2 hd2 hr1 hr2 hr3 hr4
  rw [hdu] at hd3
  cases hd3
  rw [provision_keeps_own_cells hr hp hs2 hd2, habsent, if_pos hpos] at hc
  refine ⟨hc, ?_⟩
  unfold isEdge
  rw [hc]
  exact ne_of_gt hpos

theorem applyRateUpdate_absent_cell_witness :
    Reachable twoExchangeEngine ∧
    applyRateUpdate sampleClock twoExchangeEngine
      (mkUpdate 1509529400 "A" "EUR" "GBP" (1/2) 2) = some firstQuoteEngine ∧
    findExchangeCurrencyPair firstQuoteEngine "A" "EUR" = some 1 ∧
    findExchangeCurrencyPair firstQuoteEngine "A" "GBP" = some 3 ∧
    (cellAt twoExchangeEngine.m_adjacencyTable 1 3).1 = 0 ∧
    (0 : Int) < 1509529400 ∧
    cellAt firstQuoteEngine.m_adjacencyTable 1 3 = (1509529400, 1/2) ∧
    isEdge firstQuoteEngine.m_adjacencyTable 1 3 :=
  ⟨reachable_twoExchangeEngine, by decide!, by decide!, by decide!, by decide!, by decide,
    applyRateUpdate_absent_cell sampleClock twoExchangeEngine firstQuoteEngine
      (mkUpdate 1509529400 "A" "EUR" "GBP" (1/2) 2) 1 3 reachable_twoExchangeEngine
      (by decide!) (by decide!) (by decide!) (by decide!) (by decide)⟩

/-- C8 fails as stated: on the empty engine the valid updates with
timestamp 0 and with timestamp -1 complete, and afterwards the target cell
`(0, 1)`, never set before, still is the value-initialised cell: it holds
neither the timestamp nor the forward factor and is no edge. -/
theorem absent_cell_nonpositive_timestamp :
    (mkUpdate 0 "A" "USD" "EUR" (1/2) 2).Valid ∧
    (mkUpdate (-1) "A" "USD" "EUR" (1/2) 2).Valid ∧
    applyRateUpdate sampleClock Engine.empty (mkUpdate 0 "A" "USD" "EUR" (1/2) 2)
      = some unquotedEngine ∧
    applyRateUpdate sampleClock Engine.empty (mkUpdate (-1) "A" "USD" "EUR" (1/2) 2)
      = some unquotedEngine ∧
    findExchangeCurrencyPair unquotedEngine "A" "USD" = some 0 ∧
    findExchangeCurrencyPair unquotedEngine "A" "EUR" = some 1 ∧
    cellAt unquotedEngine.m_adjacencyTable 0 1 = (0, 0) ∧
    ¬ isEdge unquotedEngine.m_adjacencyTable 0 1 :=
  ⟨by decide!, by decide!, by decide!, by decide!, by decide!, by decide!, by decide!,
    by decide!⟩

/-! ## Order of two updates of one pair -/

/-- C7, as the code has it: for two updates of the same exchange and ordered
currency pair with timestamps `t1 < t2` and `0 < t2`, applied to the empty
engine in either order, both applications complete and the cell
`(source, destination)` holds the timestamp `t2` and the `t2` forward
factor; when the two currencies differ, the reverse cell holds the `t2`
backward factor. -/
theorem update_order_independent (clockA clockB : Nat → Int) (x s d : String)
    (t1 t2 : Int) (f1 b1 f2 b2 : ℚ) (h12 : t1 < t2) (hpos : 0 < t2) :
    ∃ e12 e21 di,
      applyRateUpdates Engine.empty
        [(clockA, mkUpdate t1 x s d f1 b1), (clockB, mkUpdate t2 x s d f2 b2)] = some e12 ∧
      applyRateUpdates Engine.empty
        [(clockA, mkUpdate t2 x s d f2 b2), (clockB, mkUpdate t1 x s d f1 b1)] = some e21 ∧
      findExchangeCurrencyPair e12 x s = some 0 ∧
      findExchangeCurrencyPair e12 x d = some di ∧
      findExchangeCurrencyPair e21 x s = some 0 ∧
      findExchangeCurrencyPair e21 x d = some di ∧
      cellAt e12.m_adjacencyTable 0 di = (t2, f2) ∧
      cellAt e21.m_adjacencyTable 0 di = (t2, f2) ∧
      (s ≠ d → cellAt e12.m_adjacencyTable di 0 = (t2, b2) ∧
        cellAt e21.m_adjacencyTable di 0 = (t2, b2)) := by
  obtain ⟨e12, di, ha, hdi, hs, hd, hcf, hcb⟩ :=
    two_updates_on_empty clockA clockB (mkUpdate t1 x s d f1 b1) (mkUpdate t2 x s d f2 b2)
      rfl rfl rfl
  obtain ⟨e21, di2, ha2, hdi2, hs2, hd2, hcf2, hcb2⟩ :=
    two_updates_on_empty clockA clockB (mkUpdate t2 x s d f2 b2) (mkUpdate t1 x s d f1 b1)
      rfl rfl rfl
  simp only [mkUpdate] at ha hdi hs hd hcf hcb ha2 hdi2 hs2 hd2 hcf2 hcb2
  have hdd : di2 = di := by rw [hdi, hdi2]
  subst hdd
  have k1 : ∀ c : ℚ, (if (if (0 : Int) < t1 then (t1, c) else ((0, 0) : Cell)).1 < t2
      then ((t2, f2) : Cell) else (if (0 : Int) < t1 then (t1, c) else ((0, 0) : Cell)))
      = (t2, f2) := by
    intro c
    by_cases h0 : (0 : Int) < t1
    · simp [h0, h12]
    · simp [h0, hpos]
  have k1b : ∀ c : ℚ, (if (if (0 : Int) < t1 then (t1, c) else ((0, 0) : Cell)).1 < t2
      then ((t2, b2) : Cell) else (if (0 : Int) < t1 then (t1, c) else ((0, 0) : Cell)))
      = (t2, b2) := by
    intro c
    by_cases h0 : (0 : Int) < t1
    · simp [h0, h12]
    · simp [h0, hpos]
  have k2 : ∀ (c c2 : ℚ), (if (if (0 : Int) < t2 then (t2, c) else ((0, 0) : Cell)).1 < t1
      then ((t1, c2) : Cell) else (if (0 : Int) < t2 then (t2, c) else ((0, 0) : Cell)))
      = (t2, c) := by
    intro c c2
    simp [hpos, not_lt.mpr (le_of_lt h12)]
  refine ⟨e12, e21, di2, by simpa [mkUpdate] using ha, by simpa [mkUpdate] using ha2,
    hs, hd, hs2, hd2, ?_, ?_, ?_⟩
  · rw [hcf]; exact k1 f1
  · rw [hcf2]; exact k2 f2 f1
  · intro hne
    refine ⟨?_, ?_⟩
    · rw [hcb hne]; exact k1b b1
    · rw [hcb2 hne]; exact k2 b2 b1

theorem update_order_independent_witness :
    (1509529343 : Int) < 1509529400 ∧ (0 : Int) < 1509529400 ∧
    ∃ e12 e21 di,
      applyRateUpdates Engine.empty
        [(sampleClock, mkUpdate 1509529343 "A" "USD" "EUR" (9/10) 1),
         (sampleClock, mkUpdate 1509529400 "A" "USD" "EUR" (1/2) 2)] = some e12 ∧
      applyRateUpdates Engine.empty
        [(sampleClock, mkUpdate 1509529400 "A" "USD" "EUR" (1/2) 2),
         (sampleClock, mkUpdate 1509529343 "A" "USD" "EUR" (9/10) 1)] = some e21 ∧
      findExchangeCurrencyPair e12 "A" "USD" = some 0 ∧
      findExchangeCurrencyPair e12 "A" "EUR" = some di ∧
      findExchangeCurrencyPair e21 "A" "USD" = some 0 ∧
      findExchangeCurrencyPair e21 "A" "EUR" = some di ∧
      cellAt e12.m_adjacencyTable 0 di = (1509529400, 1/2) ∧
      cellAt e21.m_adjacencyTable 0 di = (1509529400, 1/2) ∧
      ("USD" ≠ "EUR" → cellAt e12.m_adjacencyTable di 0 = (1509529400, 2) ∧
        cellAt e21.m_adjacencyTable di 0 = (1509529400, 2)) :=
  ⟨by decide, by decide,
    update_order_independent sampleClock sampleClock "A" "USD" "EUR" 1509529343 1509529400
      (9/10) 1 (1/2) 2 (by decide) (by decide)⟩

/-- C7 fails as stated: the valid updates of `A` USD -> EUR with timestamps
`-1 < 0`, applied to the empty engine in either order, leave the cell
`(source, destination) = (0, 1)` with the stored factor 0, not the forward
factor 1/2 of the update with the later timestamp. -/
theorem update_order_nonpositive_timestamps :
    (-1 : Int) < 0 ∧
    (mkUpdate (-1) "A" "USD" "EUR" (9/10) 1).Valid ∧
    (mkUpdate 0 "A" "USD" "EUR" (1/2) 2).Valid ∧
    applyRateUpdates Engine.empty
      [(sampleClock, mkUpdate (-1) "A" "USD" "EUR" (9/10) 1),
       (sampleClock, mkUpdate 0 "A" "USD" "EUR" (1/2) 2)] = some unquotedEngine ∧
    applyRateUpdates Engine.empty
      [(sampleClock, mkUpdate 0 "A" "USD" "EUR" (1/2) 2),
       (sampleClock, mkUpdate (-1) "A" "USD" "EUR" (9/10) 1)] = some unquotedEngine ∧
    findExchangeCurrencyPair unquotedEngine "A" "USD" = some 0 ∧
    findExchangeCurrencyPair unquotedEngine "A" "EUR" = some 1 ∧
    factor unquotedEngine.m_adjacencyTable 0 1 = 0 ∧
    factor unquotedEngine.m_adjacencyTable 0 1 ≠ 1/2 :=
  ⟨by decide, by decide!, by decide!, by decide!, by decide!, by decide!, by decide!,
    by decide!, by decide!⟩

/-! ## Vertices that are not registered -/

/-- C3 fails on the code: the engine reached by the quotes `A` USD -> EUR and
`B` USD -> GBP knows the exchange `B` and the currencies USD and EUR, so the
valid update `B` USD -> EUR provisions nothing; the pair `B`/EUR is not
registered, `findExchangeCurrencyPair` returns `INVALID_INDEX`, and the
direct update indexes the adjacency table with it. -/
theorem direct_update_unregistered_vertex :
    Reachable twoExchangeEngine ∧
    (mkUpdate 1509529400 "B" "USD" "EUR" 1 1).Valid ∧
    "B" ∈ twoExchangeEngine.m_exchanges ∧
    "USD" ∈ twoExchangeEngine.m_currencies ∧ "EUR" ∈ twoExchangeEngine.m_currencies ∧
    provision sampleClock twoExchangeEngine (mkUpdate 1509529400 "B" "USD" "EUR" 1 1) =
      some twoExchangeEngine ∧
    findExchangeCurrencyPair twoExchangeEngine "B" "EUR" = none ∧
    directUpdate twoExchangeEngine (mkUpdate 1509529400 "B" "USD" "EUR" 1 1) = none ∧
    applyRateUpdate sampleClock twoExchangeEngine
      (mkUpdate 1509529400 "B" "USD" "EUR" 1 1) = none :=
  ⟨reachable_twoExchangeEngine, by decide!, by decide!, by decide!, by decide!, by decide!,
    by decide!, by decide!, by decide!⟩

/-- C10 fails on the code: in the engine reached by the quotes `A` USD -> EUR
and `B` USD -> GBP the currency EUR is known and the exchange `C` is new; for
the valid update `C` EUR -> GBP, `provisionCurrencyForExchange` also visits
the exchange `B`, which does not offer EUR, and indexes the adjacency table
with `INVALID_INDEX`. -/
theorem provision_for_exchange_unregistered_vertex :
    Reachable twoExchangeEngine ∧
    (mkUpdate 1509529400 "C" "EUR" "GBP" 1 1).Valid ∧
    "EUR" ∈ twoExchangeEngine.m_currencies ∧ "C" ∉ twoExchangeEngine.m_exchanges ∧
    (insertNames twoExchangeEngine (mkUpdate 1509529400 "C" "EUR" "GBP" 1 1)).1.m_exchanges
      = ["A", "B", "C"] ∧
    findExchangeCurrencyPair twoExchangeEngine "A" "EUR" = some 1 ∧
    findExchangeCurrencyPair twoExchangeEngine "B" "EUR" = none ∧
    provisionCurrencyForExchange sampleClock "EUR" "C"
      ((insertNames twoExchangeEngine (mkUpdate 1509529400 "C" "EUR" "GBP" 1 1)).1, 0)
        = none ∧
    applyRateUpdate sampleClock twoExchangeEngine
      (mkUpdate 1509529400 "C" "EUR" "GBP" 1 1) = none :=
  ⟨reachable_twoExchangeEngine, by decide!, by decide!, by decide!, by decide!, by decide!,
    by decide!, by decide!, by decide!⟩

/-! ## A currency seen for the first time -/

/-- C9: for every reachable engine state, every clock that never reads 0
and every rate update that introduces a currency `c` never seen before and
whose application completes: afterwards the exchange of the update is known,
every known exchange has a registered vertex for `c`, and for every two
distinct known exchanges the two cells between their `c` vertices are edges
with factor exactly 1. Moreover, when USD is quoted first on `A`, then on
`B`, then on `C`, the vertices A/USD, B/USD and C/USD end with cells of
factor 1 in both directions between every two of them. -/
theorem new_currency_identity_edges :
    (∀ (clock : Nat → Int) (e : Engine) (u : RateUpdate) (e1 : Engine) (c : String),
      Reachable e → (∀ k, clock k ≠ 0) → c ∉ e.m_currencies →
      (c = u.sourceCurrency ∨ c = u.destinationCurrency) →
      applyRateUpdate clock e u = some e1 →
      u.exchange ∈ e1.m_exchanges ∧
      (∀ x ∈ e1.m_exchanges, ∃ i, findExchangeCurrencyPair e1 x c = some i) ∧
      (∀ x1 ∈ e1.m_exchanges, ∀ x2 ∈ e1.m_exchanges, x1 ≠ x2 →
        ∃ i j, findExchangeCurrencyPair e1 x1 c = some i ∧
          findExchangeCurrencyPair e1 x2 c = some j ∧
          ((cellAt e1.m_adjacencyTable i j).1 ≠ 0 ∧ (cellAt e1.m_adjacencyTable i j).2 = 1) ∧
          ((cellAt e1.m_adjacencyTable j i).1 ≠ 0 ∧ (cellAt e1.m_adjacencyTable j i).2 = 1))) ∧
    (applyRateUpdates Engine.empty threeExchangeUpdates = some threeExchangeEngine ∧
      findExchangeCurrencyPair threeExchangeEngine "A" "USD" = some 0 ∧
      findExchangeCurrencyPair threeExchangeEngine "B" "USD" = some 2 ∧
      findExchangeCurrencyPair threeExchangeEngine "C" "USD" = some 4 ∧
      IdentityCell threeExchangeEngine.m_adjacencyTable 0 2 ∧
      IdentityCell threeExchangeEngine.m_adjacencyTable 2 0 ∧
      IdentityCell threeExchangeEngine.m_adjacencyTable 0 4 ∧
      IdentityCell threeExchangeEngine.m_adjacencyTable 4 0 ∧
      IdentityCell threeExchangeEngine.m_adjacencyTable 2 4 ∧
      IdentityCell threeExchangeEngine.m_adjacencyTable 4 2) := by
  refine ⟨?_, by decide!, by decide!, by decide!, by decide!, ?_, ?_, ?_, ?_, ?_, ?_⟩
  · intro clock e u e1 c hr hclock hnew hc h
    exact applyRateUpdate_new_currency clock e u e1 c hr hclock hnew hc h
  all_goals (unfold IdentityCell; decide!)

theorem new_currency_identity_edges_witness :
    Reachable twoExchangeEngine ∧ (∀ k, sampleClock k ≠ 0) ∧
    "JPY" ∉ twoExchangeEngine.m_currencies ∧
    applyRateUpdate sampleClock twoExchangeEngine
      (mkUpdate 1509529400 "A" "JPY" "USD" (1/2) 2) = some newCurrencyEngine ∧
    ("A" ∈ newCurrencyEngine.m_exchanges ∧
      (∀ x ∈ newCurrencyEngine.m_exchanges,
        ∃ i, findExchangeCurrencyPair newCurrencyEngine x "JPY" = some i) ∧
      (∀ x1 ∈ newCurrencyEngine.m_exchanges, ∀ x2 ∈ newCurrencyEngine.m_exchanges, x1 ≠ x2 →
        ∃ i j, findExchangeCurrencyPair newCurrencyEngine x1 "JPY" = some i ∧
          findExchangeCurrencyPair newCurrencyEngine x2 "JPY" = some j ∧
          ((cellAt newCurrencyEngine.m_adjacencyTable i j).1 ≠ 0 ∧
            (cellAt newCurrencyEngine.m_adjacencyTable i j).2 = 1) ∧
          ((cellAt newCurrencyEngine.m_adjacencyTable j i).1 ≠ 0 ∧
            (cellAt newCurrencyEngine.m_adjacencyTable j i).2 = 1))) :=
  ⟨reachable_twoExchangeEngine, sampleClock_ne_zero, by decide!, by decide!,
    new_currency_identity_edges.1 sampleClock twoExchangeEngine
      (mkUpdate 1509529400 "A" "JPY" "USD" (1/2) 2) newCurrencyEngine "JPY"
      reachable_twoExchangeEngine sampleClock_ne_zero (by decide!) (Or.inl rfl)
      (by decide!)⟩


/-! ## Optimality of the returned path -/

/-- C1 fails as stated: the engine reached by `arbitrageUpdates` holds the
cycle EUR -> GBP -> JPY -> EUR of product 4; for the registered vertices
0 = X/USD and 1 = X/EUR, `generateExchangePath` returns the direct path
`[0, 1]` of product 1/2, while the path `[0, 3, 1]` without repeated
vertices has product 1. -/
theorem arbitrage_suboptimal_path :
    Reachable arbitrageEngine ∧
    findExchangeCurrencyPair arbitrageEngine "X" "USD" = some 0 ∧
    findExchangeCurrencyPair arbitrageEngine "X" "EUR" = some 1 ∧
    (generateExchangePath arbitrageEngine.m_adjacencyTable 0 1).returned = some [0, 1] ∧
    IsSimplePath arbitrageEngine.m_adjacencyTable 0 1 [0, 3, 1] ∧
    pathProduct arbitrageEngine.m_adjacencyTable [0, 1] = 1/2 ∧
    pathProduct arbitrageEngine.m_adjacencyTable [0, 3, 1] = 1 ∧
    ¬ (pathProduct arbitrageEngine.m_adjacencyTable [0, 3, 1] ≤
        pathProduct arbitrageEngine.m_adjacencyTable [0, 1]) :=
  ⟨reachable_arbitrageEngine, by decide!, by decide!, by decide!,
    ⟨by decide, by decide, by decide, ⟨by decide!, by decide!, trivial⟩, by decide⟩,
    by decide!, by decide!, by decide!⟩

/-- C1, as the code has it: for every reachable engine state in which no
directed cycle of the adjacency table multiplies to more than 1, and every
pair of vertices `s` and `d`: whenever `generateExchangePath` returns a
non-empty path, the product of the factors along it is greater than or
equal to the product along every directed path without repeated vertices
from `s` to `d`. -/
theorem generateExchangePath_optimal (e : Engine) (s d : Nat) (p q : List Nat)
    (hr : Reachable e) (hna : NoArbitrage e.m_adjacencyTable)
    (h : (generateExchangePath e.m_adjacencyTable s d).returned = some p) (hne : p ≠ [])
    (hq : IsSimplePath e.m_adjacencyTable s d q) :
    pathProduct e.m_adjacencyTable q ≤ pathProduct e.m_adjacencyTable p :=
  found_optimal_of_noGain e.m_adjacencyTable (positiveFactors_of_reachable hr)
    (noGain_of_noArbitrage e.m_adjacencyTable (positiveFactors_of_reachable hr) hna)
    s d p q (returned_nonempty h hne) hq

theorem generateExchangePath_optimal_witness :
    Reachable threeExchangeEngine ∧ NoArbitrage threeExchangeEngine.m_adjacencyTable ∧
    (generateExchangePath threeExchangeEngine.m_adjacencyTable 0 3).returned
      = some [0, 1, 3] ∧
    ([0, 1, 3] : List Nat) ≠ [] ∧
    IsSimplePath threeExchangeEngine.m_adjacencyTable 0 3 [0, 2, 3] ∧
    pathProduct threeExchangeEngine.m_adjacencyTable [0, 2, 3] ≤
      pathProduct threeExchangeEngine.m_adjacencyTable [0, 1, 3] :=
  ⟨reachable_threeExchangeEngine,
    noArbitrage_of_rows _ (positiveFactors_of_reachable reachable_threeExchangeEngine)
      (by decide!),
    by decide!, by decide,
    ⟨by decide, by decide, by decide, ⟨by decide!, by decide!, trivial⟩, by decide⟩,
    generateExchangePath_optimal threeExchangeEngine 0 3 [0, 1, 3] [0, 2, 3]
      reachable_threeExchangeEngine
      (noArbitrage_of_rows _ (positiveFactors_of_reachable reachable_threeExchangeEngine)
        (by decide!))
      (by decide!) (by decide)
      ⟨by decide, by decide, by decide, ⟨by decide!, by decide!, trivial⟩, by decide⟩⟩


/-! ## The table stays square -/

theorem forall_mem_iff_getD {α : Type} (l : List α) (d : α) (P : α → Prop) :
    (∀ x ∈ l, P x) ↔ ∀ a, a < l.length → P (l.getD a d) := by
  constructor
  · intro h a ha
    rw [List.getD_eq_getElem?_getD, List.getElem?_eq_getElem ha]
    exact h _ (List.getElem_mem _)
  · intro h x hx
    obtain ⟨a, ha, rfl⟩ := List.getElem_of_mem hx
    have := h a ha
    rw [List.getD_eq_getElem?_getD, List.getElem?_eq_getElem ha] at this
    exact this

theorem rows_set2 (t : AdjacencyTable) (n i j : Nat) (c : Cell)
    (h : ∀ row ∈ t, row.length = n) : ∀ row ∈ set2 t i j c, row.length = n := by
  rw [forall_mem_iff_getD _ []] at h ⊢
  intro a ha
  rw [length_set2] at ha
  rw [getD_set2_length]
  exact h a ha

theorem squareTable_of_table (e e1 : Engine) (hreg : SameRegistry e e1)
    (hl : e1.m_adjacencyTable.length = e.m_adjacencyTable.length)
    (hrows : ∀ n, (∀ row ∈ e.m_adjacencyTable, row.length = n) →
      ∀ row ∈ e1.m_adjacencyTable, row.length = n)
    (h : SquareTable e) : SquareTable e1 := by
  unfold SquareTable at h ⊢
  rw [hreg.2.2.2, hl]
  exact ⟨h.1, hrows _ h.2⟩

theorem squareTable_connect {clock : Nat → Int} {st st1 : Engine × Nat} {i j : Option Nat}
    (h : connect clock st i j = some st1) (hs : SquareTable st.1) : SquareTable st1.1 := by
  obtain ⟨t1, t2, h1, h2, rfl⟩ := connect_some h
  obtain ⟨a, b, -, -, -, -, rfl⟩ := writeCell_some h1
  obtain ⟨a2, b2, -, -, -, -, rfl⟩ := writeCell_some h2
  refine squareTable_of_table st.1 _ ⟨rfl, rfl, rfl, rfl⟩ ?_ ?_ hs
  · show (set2 (set2 _ _ _ _) _ _ _).length = _
    rw [length_set2, length_set2]
  · intro n hn
    exact rows_set2 _ n _ _ _ (rows_set2 _ n _ _ _ hn)

theorem squareTable_addExchangeCurrencyPair (e : Engine) (x c : String)
    (hs : SquareTable e) : SquareTable (addExchangeCurrencyPair e x c).1 := by
  unfold addExchangeCurrencyPair
  split
  · exact hs
  · unfold SquareTable extendAdjancencyTable at *
    simp only [List.length_append, List.length_map, List.length_singleton]
    refine ⟨by rw [hs.1], ?_⟩
    intro row hrow
    rcases List.mem_append.mp hrow with h1 | h1
    · obtain ⟨r0, hr0, rfl⟩ := List.mem_map.mp h1
      simp only [List.length_append, List.length_singleton]
      rw [hs.2 r0 hr0]
    · simp only [List.mem_singleton] at h1
      rw [h1]
      simp

theorem squareTable_updateCell {e : Engine} {t1 : AdjacencyTable} {i j : Option Nat}
    {ts : Int} {f : ℚ} (h : updateCell e.m_adjacencyTable i j ts f = some t1)
    (hs : SquareTable e) : SquareTable { e with m_adjacencyTable := t1 } := by
  obtain ⟨a, b, -, -, -, -, rfl⟩ := updateCell_some h
  split
  · refine squareTable_of_table e _ ⟨rfl, rfl, rfl, rfl⟩ ?_ ?_ hs
    · show (set2 _ _ _ _).length = _
      rw [length_set2]
    · intro n hn
      exact rows_set2 _ n _ _ _ hn
  · exact hs

theorem squareTable_provision {clock : Nat → Int} {e ep : Engine} {u : RateUpdate}
    (h : provision clock e u = some ep) (hs : SquareTable e) : SquareTable ep :=
  provision_preserves SquareTable clock
    (fun _ _ _ _ hc hst => squareTable_connect hc hst)
    squareTable_addExchangeCurrencyPair e ep u h hs

theorem squareTable_applyRateUpdate {clock : Nat → Int} {e e1 : Engine} {u : RateUpdate}
    (h : applyRateUpdate clock e u = some e1) (hs : SquareTable e) : SquareTable e1 := by
  obtain ⟨ep, hp, hd⟩ := applyRateUpdate_some h
  obtain ⟨si, di, t1, t2, -, -, h1, h2, rfl⟩ := directUpdate_some hd
  have hep := squareTable_provision hp hs
  have h1' := squareTable_updateCell h1 hep
  exact squareTable_updateCell (e := { ep with m_adjacencyTable := t1 }) h2 h1'

theorem squareTable_of_reachable {e : Engine} (h : Reachable e) : SquareTable e := by
  induction h with
  | empty => exact ⟨rfl, fun row hrow => by cases hrow⟩
  | step clock e u e1 _ _ happ ih => exact squareTable_applyRateUpdate happ ih


/-! ## The registry stays bijective -/

theorem get?_append_singleton {α : Type} (l : List α) (p : α) (i : Nat) :
    (l ++ [p]).get? i =
      if i < l.length then l.get? i else if i = l.length then some p else none := by
  rw [List.get?_eq_getElem?, List.get?_eq_getElem?]
  by_cases h1 : i < l.length
  · rw [if_pos h1, List.getElem?_append_left h1]
  · rw [if_neg h1, List.getElem?_append_right (not_lt.mp h1)]
    by_cases h2 : i = l.length
    · rw [if_pos h2, h2]
      simp
    · rw [if_neg h2]
      have : 0 < i - l.length := by omega
      rw [List.getElem?_eq_none]
      simp only [List.length_singleton]
      omega

theorem registryBijective_addExchangeCurrencyPair (e : Engine) (x c : String)
    (h : RegistryBijective e) : RegistryBijective (addExchangeCurrencyPair e x c).1 := by
  unfold addExchangeCurrencyPair
  split
  · exact h
  · rename_i hn
    intro p i
    show mapFind (e.m_exchangeCurrencyPairToIndexMapping ++ _) p = some i ↔
      (e.m_exchangeCurrencyPairsByIndex ++ [(x, c)]).get? i = some p
    rw [mapFind_append, get?_append_singleton]
    constructor
    · intro hp
      split at hp
      · rename_i i0 hi0
        cases hp
        have hv := (h p i).mp hi0
        have hlt : i < e.m_exchangeCurrencyPairsByIndex.length := by
          by_contra hge
          rw [List.get?_eq_none.mpr (not_lt.mp hge)] at hv
          cases hv
        rw [if_pos hlt]
        exact hv
      · split at hp
        · rename_i hk
          cases hp
          rw [if_neg (lt_irrefl _), if_pos rfl, hk]
        · cases hp
    · intro hv
      split at hv
      · have hm := (h p i).mpr hv
        rw [hm]
      · split at hv
        · rename_i hlt heq
          cases hv
          rw [hn]
          simp [heq]
        · cases hv

theorem registryBijective_of_sameRegistry {e e1 : Engine} (h : SameRegistry e e1)
    (he : RegistryBijective e) : RegistryBijective e1 := by
  intro p i
  rw [h.2.2.1, h.2.2.2]
  exact he p i

theorem registryBijective_applyRateUpdate {clock : Nat → Int} {e e1 : Engine}
    {u : RateUpdate} (h : applyRateUpdate clock e u = some e1)
    (he : RegistryBijective e) : RegistryBijective e1 := by
  obtain ⟨ep, hp, hd⟩ := applyRateUpdate_some h
  obtain ⟨si, di, t1, t2, -, -, -, -, rfl⟩ := directUpdate_some hd
  exact provision_preserves RegistryBijective clock
    (fun _ _ _ _ hc hst => registryBijective_of_sameRegistry (connect_sameRegistry hc) hst)
    registryBijective_addExchangeCurrencyPair e ep u hp (fun p i => he p i)

theorem registryBijective_of_reachable {e : Engine} (h : Reachable e) :
    RegistryBijective e := by
  induction h with
  | empty =>
    intro p i
    simp [Engine.empty, mapFind]
  | step clock e u e1 _ _ happ ih => exact registryBijective_applyRateUpdate happ ih

theorem find_lt_of_bijective {e : Engine} (h : RegistryBijective e) {x c : String} {i : Nat}
    (hf : findExchangeCurrencyPair e x c = some i) :
    i < e.m_exchangeCurrencyPairsByIndex.length := by
  have hv := (h (x, c) i).mp hf
  by_contra hge
  rw [List.get?_eq_none.mpr (not_lt.mp hge)] at hv
  cases hv

/-! ## The tokenizer -/

theorem findFrom_drop (p : Char → Bool) (s : List Char) (pos : Nat) :
    findFrom p s pos = (findFrom p (s.drop pos) 0).map (· + pos) := by
  induction s generalizing pos with
  | nil => simp [findFrom]
  | cons c cs ih =>
    cases pos with
    | zero => simp
    | succ pos =>
      rw [findFrom, ih pos, List.drop_succ_cons, Option.map_map]
      rfl

theorem findFrom_zero_none (p : Char → Bool) (s : List Char) :
    findFrom p s 0 = none ↔ ∀ c ∈ s, p c = false := by
  induction s with
  | nil => simp [findFrom]
  | cons c cs ih =>
    rw [findFrom]
    by_cases hc : p c = true
    · simp [hc]
    · simp only [hc, Bool.false_eq_true, if_false, Option.map_eq_none', ih, List.mem_cons,
        forall_eq_or_imp, Bool.eq_false_iff.mpr hc, true_and]

theorem findFrom_zero_some (p : Char → Bool) (s : List Char) (i : Nat)
    (h : findFrom p s 0 = some i) :
    ∃ pre c rest, s = pre ++ c :: rest ∧ (∀ x ∈ pre, p x = false) ∧ p c = true ∧
      i = pre.length := by
  induction s generalizing i with
  | nil => simp [findFrom] at h
  | cons c cs ih =>
    rw [findFrom] at h
    by_cases hc : p c = true
    · rw [if_pos hc] at h
      cases h
      exact ⟨[], c, cs, rfl, fun x hx => (by cases hx), hc, rfl⟩
    · rw [if_neg hc] at h
      obtain ⟨k, hk, rfl⟩ := Option.map_eq_some'.mp h
      obtain ⟨pre, d, rest, hs, hpre, hd, rfl⟩ := ih k hk
      refine ⟨c :: pre, d, rest, by rw [hs]; rfl, ?_, hd, rfl⟩
      intro x hx
      rcases List.mem_cons.mp hx with rfl | hx
      · exact Bool.eq_false_iff.mpr hc
      · exact hpre x hx

theorem maximalRuns_delimiters (delimiters : List Char) (s : List Char)
    (h : ∀ c ∈ s, c ∈ delimiters) : MaximalRuns delimiters s [] := by
  induction s with
  | nil => exact .nil
  | cons c cs ih =>
    exact .skip c cs [] (h c (List.mem_cons_self _ _))
      (ih (fun x hx => h x (List.mem_cons_of_mem _ hx)))

theorem maximalRuns_skip (delimiters : List Char) (pre s : List Char) (ts : List (List Char))
    (hpre : ∀ c ∈ pre, c ∈ delimiters) (h : MaximalRuns delimiters s ts) :
    MaximalRuns delimiters (pre ++ s) ts := by
  induction pre with
  | nil => exact h
  | cons c cs ih =>
    exact .skip c _ ts (hpre c (List.mem_cons_self _ _))
      (ih (fun x hx => hpre x (List.mem_cons_of_mem _ hx)))

/-- The three ways `parseNextToken` ends, in terms of the unread part of
the string. -/
theorem parseNextToken_cases (delimiters : List Char) (t : StringTokenizer) :
    ((∀ c ∈ t.m_string.drop t.m_offset, c ∈ delimiters) ∧
      t.parseNextToken delimiters = (false, { t with m_offset := t.m_string.length })) ∨
    (∃ pre tok, t.m_string.drop t.m_offset = pre ++ tok ∧ (∀ c ∈ pre, c ∈ delimiters) ∧
      tok ≠ [] ∧ (∀ c ∈ tok, c ∉ delimiters) ∧
      t.parseNextToken delimiters =
        (true, { t with m_token := tok, m_offset := t.m_string.length })) ∨
    (∃ pre tok d rest j, t.m_string.drop t.m_offset = pre ++ (tok ++ d :: rest) ∧
      (∀ c ∈ pre, c ∈ delimiters) ∧ tok ≠ [] ∧ (∀ c ∈ tok, c ∉ delimiters) ∧
      d ∈ delimiters ∧ t.m_offset < j ∧ j < t.m_string.length ∧
      t.m_string.drop j = d :: rest ∧
      t.parseNextToken delimiters = (true, { t with m_token := tok, m_offset := j })) := by
  unfold StringTokenizer.parseNextToken
  rw [findFrom_drop]
  cases h1 : findFrom (fun c => decide (c ∉ delimiters)) (t.m_string.drop t.m_offset) 0 with
  | none =>
    left
    refine ⟨?_, rfl⟩
    intro c hc
    have := (findFrom_zero_none _ _).mp h1 c hc
    simpa using this
  | some k =>
    right
    obtain ⟨pre, c, rest, hs, hpre, hc, rfl⟩ := findFrom_zero_some _ _ _ h1
    have hpre1 : ∀ x ∈ pre, x ∈ delimiters := fun x hx => by simpa using hpre x hx
    have hc1 : c ∉ delimiters := by simpa using hc
    have hle : t.m_offset + pre.length < t.m_string.length := by
      have := congrArg List.length hs
      simp only [List.length_drop, List.length_append, List.length_cons] at this
      omega
    have hdrop : t.m_string.drop (pre.length + t.m_offset) = c :: rest := by
      rw [Nat.add_comm, ← List.drop_drop, hs, List.drop_left]
    simp only [Option.map_some']
    rw [findFrom_drop, hdrop]
    cases h2 : findFrom (fun c => decide (c ∈ delimiters)) (c :: rest) 0 with
    | none =>
      left
      refine ⟨pre, c :: rest, hs, hpre1, by simp, ?_, rfl⟩
      intro x hx
      have := (findFrom_zero_none _ _).mp h2 x hx
      simpa using this
    | some m =>
      right
      obtain ⟨tok, d, rest2, hs2, htok, hd, rfl⟩ := findFrom_zero_some _ _ _ h2
      have htok1 : ∀ x ∈ tok, x ∉ delimiters := fun x hx => by simpa using htok x hx
      have hd1 : d ∈ delimiters := by simpa using hd
      have hne : tok ≠ [] := by
        rintro rfl
        simp only [List.nil_append, List.cons.injEq] at hs2
        exact hc1 (hs2.1 ▸ hd1)
      have hlen2 : (c :: rest).length = tok.length + (rest2.length + 1) := by
        rw [hs2]
        simp
      have hl3 : t.m_string.length - (pre.length + t.m_offset) = (c :: rest).length := by
        rw [← hdrop, List.length_drop]
      refine ⟨pre, tok, d, rest2, tok.length + (pre.length + t.m_offset), ?_, hpre1, hne, htok1,
        hd1, ?_, ?_, ?_, ?_⟩
      · rw [hs, hs2]
      · have := List.length_pos.mpr hne
        omega
      · omega
      · rw [Nat.add_comm, ← List.drop_drop, hdrop, hs2, List.drop_left]
      · simp only [Option.map_some', Nat.add_sub_cancel]
        rw [hs2, List.take_left]

/-- With more calls allowed than characters are left, the repeated calls
end, and the tokens read are the maximal runs of the unread part. -/
theorem allTokens_runs (delimiters : List Char) (fuel : Nat) (t : StringTokenizer)
    (hfuel : t.m_string.length - t.m_offset < fuel) :
    ∃ ts, StringTokenizer.allTokens delimiters fuel t = some ts ∧
      MaximalRuns delimiters (t.m_string.drop t.m_offset) ts := by
  induction fuel generalizing t with
  | zero => omega
  | succ fuel ih =>
    unfold StringTokenizer.allTokens
    rcases parseNextToken_cases delimiters t with
      ⟨hall, hp⟩ | ⟨pre, tok, hs, hpre, hne, htok, hp⟩ |
      ⟨pre, tok, d, rest, j, hs, hpre, hne, htok, hd, hlt, hjl, hdrop, hp⟩
    · rw [hp]
      exact ⟨[], by simp, maximalRuns_delimiters delimiters _ hall⟩
    · rw [hp]
      have hlen := congrArg List.length hs
      simp only [List.length_drop, List.length_append] at hlen
      have htl := List.length_pos.mpr hne
      obtain ⟨ts, h1, h2⟩ :=
        ih { t with m_token := tok, m_offset := t.m_string.length } (by simp; omega)
      refine ⟨tok :: ts, by simp [h1], ?_⟩
      rw [hs]
      simp only [List.drop_length] at h2
      have := MaximalRuns.run tok [] ts hne htok (Or.inl rfl) h2
      rw [List.append_nil] at this
      exact maximalRuns_skip delimiters pre tok _ hpre this
    · rw [hp]
      obtain ⟨ts, h1, h2⟩ :=
        ih { t with m_token := tok, m_offset := j } (by simp; omega)
      refine ⟨tok :: ts, by simp [h1], ?_⟩
      rw [hs]
      simp only [hdrop] at h2
      exact maximalRuns_skip delimiters pre _ _ hpre
        (MaximalRuns.run tok (d :: rest) ts hne htok (Or.inr ⟨d, rest, hd, rfl⟩) h2)

theorem run_split_unique (delimiters : List Char) (tok1 rest1 tok2 rest2 : List Char)
    (h : tok1 ++ rest1 = tok2 ++ rest2)
    (h1 : ∀ c ∈ tok1, c ∉ delimiters) (h2 : ∀ c ∈ tok2, c ∉ delimiters)
    (hr1 : rest1 = [] ∨ ∃ c r, c ∈ delimiters ∧ rest1 = c :: r)
    (hr2 : rest2 = [] ∨ ∃ c r, c ∈ delimiters ∧ rest2 = c :: r) :
    tok1 = tok2 ∧ rest1 = rest2 := by
  induction tok1 generalizing tok2 with
  | nil =>
    cases tok2 with
    | nil => exact ⟨rfl, h⟩
    | cons c cs =>
      exfalso
      rcases hr1 with rfl | ⟨d, r, hd, rfl⟩
      · cases h
      · simp only [List.nil_append, List.cons_append, List.cons.injEq] at h
        exact h2 c (List.mem_cons_self _ _) (h.1 ▸ hd)
  | cons a as ih =>
    cases tok2 with
    | nil =>
      exfalso
      rcases hr2 with rfl | ⟨d, r, hd, rfl⟩
      · cases h
      · simp only [List.nil_append, List.cons_append, List.cons.injEq] at h
        exact h1 a (List.mem_cons_self _ _) (h.1 ▸ hd)
    | cons c cs =>
      simp only [List.cons_append, List.cons.injEq] at h
      obtain ⟨e1, e2⟩ := ih cs h.2 (fun x hx => h1 x (List.mem_cons_of_mem _ hx))
        (fun x hx => h2 x (List.mem_cons_of_mem _ hx))
      exact ⟨by rw [h.1, e1], e2⟩

/-- A string has one list of maximal runs. -/
theorem maximalRuns_unique (delimiters : List Char) (s : List Char) (ts1 ts2 : List (List Char))
    (h1 : MaximalRuns delimiters s ts1) (h2 : MaximalRuns delimiters s ts2) : ts1 = ts2 := by
  induction h1 generalizing ts2 with
  | nil =>
    generalize hs : ([] : List Char) = s at h2
    cases h2 with
    | nil => rfl
    | skip c s ts hc h => cases hs
    | run tok rest ts hne htok hrest h =>
      exfalso
      cases tok with
      | nil => exact hne rfl
      | cons a as => cases hs
  | skip c s ts hc h ih =>
    generalize hs : c :: s = s1 at h2
    cases h2 with
    | nil => cases hs
    | skip c2 s2 ts2 hc2 h2 =>
      cases hs
      exact ih _ h2
    | run tok rest ts hne htok hrest h =>
      exfalso
      cases tok with
      | nil => exact hne rfl
      | cons a as =>
        simp only [List.cons_append, List.cons.injEq] at hs
        exact htok a (List.mem_cons_self _ _) (hs.1 ▸ hc)
  | run tok rest ts hne htok hrest h ih =>
    generalize hs : tok ++ rest = s1 at h2
    cases h2 with
    | nil =>
      exfalso
      cases tok with
      | nil => exact hne rfl
      | cons a as => cases hs
    | skip c2 s2 ts2 hc2 h2 =>
      exfalso
      cases tok with
      | nil => exact hne rfl
      | cons a as =>
        simp only [List.cons_append, List.cons.injEq] at hs
        exact htok a (List.mem_cons_self _ _) (hs.1 ▸ hc2)
    | run tok2 rest2 ts2 hne2 htok2 hrest2 h2 =>
      obtain ⟨e1, e2⟩ := run_split_unique delimiters tok rest tok2 rest2 hs htok htok2 hrest hrest2
      subst e1 e2
      rw [ih _ h2]

theorem maximalRuns_tokens (delimiters : List Char) (s : List Char) (ts : List (List Char))
    (h : MaximalRuns delimiters s ts) :
    ∀ tok ∈ ts, tok ≠ [] ∧ ∀ c ∈ tok, c ∉ delimiters := by
  induction h with
  | nil => intro tok htok; cases htok
  | skip c s ts hc h ih => exact ih
  | run tok rest ts hne htok hrest h ih =>
    intro tok1 h1
    rcases List.mem_cons.mp h1 with rfl | h1
    · exact ⟨hne, htok⟩
    · exact ih tok1 h1

theorem maximalRuns_trailing (delimiters : List Char) (s post : List Char)
    (ts : List (List Char)) (hpost : ∀ c ∈ post, c ∈ delimiters)
    (h : MaximalRuns delimiters s ts) : MaximalRuns delimiters (s ++ post) ts := by
  induction h with
  | nil => exact maximalRuns_delimiters delimiters post hpost
  | skip c s ts hc h ih => exact .skip c _ ts hc ih
  | run tok rest ts hne htok hrest h ih =>
    rw [List.append_assoc]
    refine .run tok (rest ++ post) ts hne htok ?_ ih
    rcases hrest with rfl | ⟨c, r, hc, rfl⟩
    · cases post with
      | nil => exact Or.inl rfl
      | cons c r => exact Or.inr ⟨c, r, hpost c (List.mem_cons_self _ _), rfl⟩
    · exact Or.inr ⟨c, r ++ post, hc, rfl⟩

theorem allTokens_of_runs (delimiters : List Char) (s : List Char) (ts : List (List Char))
    (h : MaximalRuns delimiters s ts) (fuel : Nat) (hfuel : s.length < fuel) :
    StringTokenizer.allTokens delimiters fuel (StringTokenizer.new s) = some ts := by
  obtain ⟨ts1, h1, h2⟩ := allTokens_runs delimiters fuel (StringTokenizer.new s)
    (by simp only [StringTokenizer.new]; omega)
  simp only [StringTokenizer.new, List.drop_zero] at h2
  rw [h1, maximalRuns_unique delimiters s ts1 ts h2 h]

theorem maximalRuns_of_allTokens (delimiters : List Char) (s : List Char)
    (ts : List (List Char)) (fuel : Nat) (hfuel : s.length < fuel)
    (h : StringTokenizer.allTokens delimiters fuel (StringTokenizer.new s) = some ts) :
    MaximalRuns delimiters s ts := by
  obtain ⟨ts1, h1, h2⟩ := allTokens_runs delimiters fuel (StringTokenizer.new s)
    (by simp only [StringTokenizer.new]; omega)
  simp only [StringTokenizer.new, List.drop_zero] at h2
  rw [h] at h1
  cases h1
  exact h2

/-- One call of `parseNextToken` reads the first maximal run of the unread
part and leaves the others unread. -/
theorem parseNextToken_of_runs (delimiters : List Char) (t : StringTokenizer)
    (tok : List Char) (ts : List (List Char))
    (h : MaximalRuns delimiters (t.m_string.drop t.m_offset) (tok :: ts)) :
    (t.parseNextToken delimiters).1 = true ∧
      (t.parseNextToken delimiters).2.m_token = tok ∧
      (t.parseNextToken delimiters).2.m_string = t.m_string ∧
      MaximalRuns delimiters
        ((t.parseNextToken delimiters).2.m_string.drop
          (t.parseNextToken delimiters).2.m_offset) ts := by
  rcases parseNextToken_cases delimiters t with
    ⟨hall, hp⟩ | ⟨pre, tok1, hs, hpre, hne, htok, hp⟩ |
    ⟨pre, tok1, d, rest, j, hs, hpre, hne, htok, hd, hlt, hjl, hdrop, hp⟩
  · have := maximalRuns_unique delimiters _ _ _ h (maximalRuns_delimiters delimiters _ hall)
    cases this
  · have hrun := MaximalRuns.run tok1 [] [] hne htok (Or.inl rfl) .nil
    rw [List.append_nil] at hrun
    have hall := maximalRuns_skip delimiters pre tok1 _ hpre hrun
    rw [← hs] at hall
    have := maximalRuns_unique delimiters _ _ _ h hall
    cases this
    rw [hp]
    exact ⟨rfl, rfl, rfl, by simp only [List.drop_length]; exact .nil⟩
  · obtain ⟨ts1, _, h2⟩ := allTokens_runs delimiters (t.m_string.length - j + 1)
      { t with m_token := tok1, m_offset := j } (by simp)
    simp only [hdrop] at h2
    have hall := maximalRuns_skip delimiters pre _ _ hpre
      (MaximalRuns.run tok1 (d :: rest) ts1 hne htok (Or.inr ⟨d, rest, hd, rfl⟩) h2)
    rw [← hs] at hall
    have := maximalRuns_unique delimiters _ _ _ h hall
    cases this
    rw [hp]
    exact ⟨rfl, rfl, rfl, by simp only [hdrop]; exact h2⟩

theorem parseStringField_of_runs (data : StringTokenizer) (fieldName : String)
    (tok : List Char) (ts : List (List Char))
    (h : MaximalRuns TOKEN_DELIMITERS (data.m_string.drop data.m_offset) (tok :: ts)) :
    ∃ data1, parseStringField data fieldName = .ok (tok, data1) ∧
      MaximalRuns TOKEN_DELIMITERS (data1.m_string.drop data1.m_offset) ts := by
  obtain ⟨h1, h2, _, h4⟩ := parseNextToken_of_runs TOKEN_DELIMITERS data tok ts h
  have hne := (maximalRuns_tokens _ _ _ h tok (List.mem_cons_self _ _)).1
  refine ⟨(data.parseNextToken TOKEN_DELIMITERS).2, ?_, h4⟩
  unfold parseStringField
  rw [if_neg (by simp [h1]), if_neg (by rw [h2]; exact hne), h2]
/-! ## Registered names are known -/

theorem find_addExchangeCurrencyPair_cases (e : Engine) (x c y d : String) (i : Nat)
    (h : findExchangeCurrencyPair (addExchangeCurrencyPair e x c).1 y d = some i) :
    findExchangeCurrencyPair e y d = some i ∨ (y = x ∧ d = c) := by
  unfold addExchangeCurrencyPair at h
  split at h
  · exact Or.inl h
  · unfold findExchangeCurrencyPair at h ⊢
    change mapFind (e.m_exchangeCurrencyPairToIndexMapping ++ _) (y, d) = some i at h
    rw [mapFind_append] at h
    split at h
    · rename_i i0 hi0
      cases h
      exact Or.inl hi0
    · split at h
      · rename_i hk
        cases hk
        exact Or.inr ⟨rfl, rfl⟩
      · cases h

theorem namesKnown_addExchangeCurrencyPair (e : Engine) (x c : String)
    (hx : x ∈ e.m_exchanges) (hc : c ∈ e.m_currencies) (h : NamesKnown e) :
    NamesKnown (addExchangeCurrencyPair e x c).1 := by
  intro y d i hi
  have hn := addExchangeCurrencyPair_sameNames e x c
  rw [hn.1, hn.2]
  rcases find_addExchangeCurrencyPair_cases e x c y d i hi with h1 | ⟨rfl, rfl⟩
  · exact h y d i h1
  · exact ⟨hx, hc⟩

theorem namesKnown_of_sameRegistry {e e1 : Engine} (h : SameRegistry e e1)
    (he : NamesKnown e) : NamesKnown e1 := by
  intro x c i hi
  rw [sameRegistry_find h] at hi
  rw [h.1, h.2.1]
  exact he x c i hi

theorem namesKnown_addPairs (c : String) (l : List String) (e : Engine)
    (hc : c ∈ e.m_currencies) (hl : ∀ y ∈ l, y ∈ e.m_exchanges) (h : NamesKnown e) :
    NamesKnown (addPairs c l e) := by
  unfold addPairs
  refine (foldl_invariant (fun e1 => NamesKnown e1 ∧ SameNames e e1) _ l ?_ e
    ⟨h, sameNames_refl e⟩).1
  intro e1 y hy ⟨h1, h2⟩
  refine ⟨namesKnown_addExchangeCurrencyPair e1 y c ?_ ?_ h1,
    sameNames_trans h2 (addExchangeCurrencyPair_sameNames e1 y c)⟩
  · rw [h2.1]
    exact hl y hy
  · rw [h2.2]
    exact hc

theorem namesKnown_provisionFor (clock : Nat → Int) (nc nx : Bool) (c x : String)
    (st st1 : Engine × Nat) (hc : c ∈ st.1.m_currencies) (hx : x ∈ st.1.m_exchanges)
    (h : provisionFor clock nc nx c x st = some st1) (hst : NamesKnown st.1) :
    NamesKnown st1.1 := by
  have hconn : ∀ (s : Engine × Nat) (i j : Option Nat) (s1 : Engine × Nat),
      connect clock s i j = some s1 → NamesKnown s.1 → NamesKnown s1.1 :=
    fun s i j s1 hs hn => namesKnown_of_sameRegistry (connect_sameRegistry hs) hn
  unfold provisionFor at h
  split at h
  · unfold provisionNewCurrency at h
    exact connectPairs_preserves NamesKnown clock hconn _ _ _ _ h
      (namesKnown_addPairs c _ st.1 hc (fun y hy => hy) hst)
  · split at h
    · unfold provisionCurrencyForExchange at h
      exact connectOthers_preserves NamesKnown clock hconn _ _ _ _ _ _ h
        (namesKnown_addExchangeCurrencyPair st.1 x c hx hc hst)
    · cases h
      exact hst

theorem namesKnown_applyRateUpdate {clock : Nat → Int} {e e1 : Engine} {u : RateUpdate}
    (h : applyRateUpdate clock e u = some e1) (he : NamesKnown e) : NamesKnown e1 := by
  obtain ⟨ep, hp, hd⟩ := applyRateUpdate_some h
  obtain ⟨si, di, t1, t2, -, -, -, -, rfl⟩ := directUpdate_some hd
  show NamesKnown ep
  obtain ⟨st1, st2, h1, h2, rfl⟩ := provision_some hp
  have hm := insertNames_mem e u
  have h0 : NamesKnown (insertNames e u).1 := by
    intro x c i hi
    have := he x c i hi
    exact ⟨setInsert_mono _ _ _ this.1, setInsert_mono _ _ _ (setInsert_mono _ _ _ this.2)⟩
  have hn1 := provisionFor_sameNames h1
  have k1 := namesKnown_provisionFor clock _ _ _ _ _ _ hm.2.1 hm.1 h1 h0
  exact namesKnown_provisionFor clock _ _ _ _ _ _ (by rw [hn1.2]; exact hm.2.2)
    (by rw [hn1.1]; exact hm.1) h2 k1

theorem namesKnown_of_reachable {e : Engine} (h : Reachable e) : NamesKnown e := by
  induction h with
  | empty =>
    intro x c i hi
    simp [Engine.empty, findExchangeCurrencyPair, mapFind] at hi
  | step clock e u e1 _ _ happ ih => exact namesKnown_applyRateUpdate happ ih

/-! ## Provisioning leaves the cells between old vertices alone -/

theorem fresh_index {e0 e : Engine} (hb : RegistryBijective e0) (hk : KeepsOld e0 e)
    {x c : String} {i : Nat} (hi : findExchangeCurrencyPair e x c = some i)
    (hnew : findExchangeCurrencyPair e0 x c = none) :
    e0.m_exchangeCurrencyPairsByIndex.length ≤ i := by
  by_contra hlt
  have hlt : i < e0.m_exchangeCurrencyPairsByIndex.length := not_le.mp hlt
  have hget : e0.m_exchangeCurrencyPairsByIndex.get? i =
      some (e0.m_exchangeCurrencyPairsByIndex.get ⟨i, hlt⟩) := List.get?_eq_get hlt
  have h0 : findExchangeCurrencyPair e0 (e0.m_exchangeCurrencyPairsByIndex.get ⟨i, hlt⟩).1
      (e0.m_exchangeCurrencyPairsByIndex.get ⟨i, hlt⟩).2 = some i := (hb _ i).mpr hget
  have h1 := hk.1 _ _ _ h0
  have := registryConsistent_injective hk.2.1 hi h1
  rw [this.1, this.2, h0] at hnew
  cases hnew

theorem keepsOld_addExchangeCurrencyPair (e0 e : Engine) (x c : String)
    (h : KeepsOld e0 e) : KeepsOld e0 (addExchangeCurrencyPair e x c).1 := by
  refine ⟨fun y d i hi => find_addExchangeCurrencyPair_mono e x c y d i (h.1 y d i hi),
    registryConsistent_addExchangeCurrencyPair e x c h.2.1, ?_⟩
  intro a b ha hb
  rw [cellAt_addExchangeCurrencyPair]
  exact h.2.2 a b ha hb

theorem keepsOld_connect {e0 : Engine} (hb : RegistryBijective e0) {clock : Nat → Int}
    {st st1 : Engine × Nat} {x1 x2 c : String}
    (hnew : findExchangeCurrencyPair e0 x1 c = none ∨ findExchangeCurrencyPair e0 x2 c = none)
    (h : connect clock st (findExchangeCurrencyPair st.1 x1 c)
      (findExchangeCurrencyPair st.1 x2 c) = some st1)
    (hk : KeepsOld e0 st.1) : KeepsOld e0 st1.1 := by
  have hreg := connect_sameRegistry h
  obtain ⟨i, j, hi, hj, hc⟩ := connect_cells h
  refine ⟨fun y d k hk1 => by rw [sameRegistry_find hreg]; exact hk.1 y d k hk1,
    registryConsistent_of_sameRegistry hreg hk.2.1, ?_⟩
  intro a b ha hb1
  rw [hc a b]
  have hfresh : e0.m_exchangeCurrencyPairsByIndex.length ≤ i ∨
      e0.m_exchangeCurrencyPairsByIndex.length ≤ j := by
    rcases hnew with hn | hn
    · exact Or.inl (fresh_index hb hk hi hn)
    · exact Or.inr (fresh_index hb hk hj hn)
  rw [if_neg]
  · exact hk.2.2 a b ha hb1
  · rintro (⟨rfl, rfl⟩ | ⟨rfl, rfl⟩) <;> omega

theorem keepsOld_connectFollowing {e0 : Engine} (hb : RegistryBijective e0)
    (clock : Nat → Int) (c x1 : String) (hnew : findExchangeCurrencyPair e0 x1 c = none)
    (l : List String) (st st1 : Engine × Nat)
    (h : connectFollowing clock c (findExchangeCurrencyPair st.1 x1 c) l st = some st1)
    (hk : KeepsOld e0 st.1) : KeepsOld e0 st1.1 := by
  induction l generalizing st with
  | nil =>
    simp only [connectFollowing, Option.some.injEq] at h
    subst h
    exact hk
  | cons y rest ih =>
    simp only [connectFollowing] at h
    split at h
    · cases h
    · rename_i st2 h2
      have hreg := connect_sameRegistry h2
      apply ih st2
      · rw [sameRegistry_find hreg]
        exact h
      · exact keepsOld_connect hb (Or.inl hnew) h2 hk

theorem keepsOld_connectPairs {e0 : Engine} (hb : RegistryBijective e0)
    (clock : Nat → Int) (c : String) (hnew : ∀ y, findExchangeCurrencyPair e0 y c = none)
    (l : List String) (st st1 : Engine × Nat)
    (h : connectPairs clock c l st = some st1)
    (hk : KeepsOld e0 st.1) : KeepsOld e0 st1.1 := by
  induction l generalizing st with
  | nil =>
    simp only [connectPairs, Option.some.injEq] at h
    subst h
    exact hk
  | cons x rest ih =>
    simp only [connectPairs] at h
    split at h
    · cases h
    · rename_i st2 h2
      exact ih st2 h (keepsOld_connectFollowing hb clock c x (hnew x) rest st st2 h2 hk)

theorem keepsOld_connectOthers {e0 : Engine} (hb : RegistryBijective e0)
    (clock : Nat → Int) (c x : String) (hnew : findExchangeCurrencyPair e0 x c = none)
    (i : Nat) (l : List String) (st st1 : Engine × Nat)
    (hi : findExchangeCurrencyPair st.1 x c = some i)
    (h : connectOthers clock c x i l st = some st1)
    (hk : KeepsOld e0 st.1) : KeepsOld e0 st1.1 := by
  induction l generalizing st with
  | nil =>
    simp only [connectOthers, Option.some.injEq] at h
    subst h
    exact hk
  | cons y rest ih =>
    simp only [connectOthers] at h
    split at h
    · split at h
      · cases h
      · rename_i st2 h2
        have hreg := connect_sameRegistry h2
        apply ih st2 (by rw [sameRegistry_find hreg]; exact hi) h
        rw [← hi] at h2
        exact keepsOld_connect hb (Or.inl hnew) h2 hk
    · exact ih st hi h hk

theorem keepsOld_provisionFor {e0 : Engine} (hb : RegistryBijective e0) (hn : NamesKnown e0)
    (clock : Nat → Int) (nc nx : Bool) (c x : String) (st st1 : Engine × Nat)
    (hnc : nc = true → c ∉ e0.m_currencies) (hnx : nx = true → x ∉ e0.m_exchanges)
    (h : provisionFor clock nc nx c x st = some st1)
    (hk : KeepsOld e0 st.1) : KeepsOld e0 st1.1 := by
  have none_of : ∀ (y d : String), (y ∉ e0.m_exchanges ∨ d ∉ e0.m_currencies) →
      findExchangeCurrencyPair e0 y d = none := by
    intro y d hyd
    cases hf : findExchangeCurrencyPair e0 y d with
    | none => rfl
    | some i =>
      have := hn y d i hf
      rcases hyd with h1 | h1
      · exact absurd this.1 h1
      · exact absurd this.2 h1
  unfold provisionFor at h
  split at h
  · rename_i hc
    unfold provisionNewCurrency at h
    refine keepsOld_connectPairs hb clock c (fun y => none_of y c (Or.inr (hnc hc))) _ _ _ h ?_
    exact addPairs_preserves (KeepsOld e0)
      (fun e1 y d he1 => keepsOld_addExchangeCurrencyPair e0 e1 y d he1) c _ _ hk
  · split at h
    · rename_i hx
      unfold provisionCurrencyForExchange at h
      exact keepsOld_connectOthers hb clock c x (none_of x c (Or.inl (hnx hx))) _ _
        ((addExchangeCurrencyPair st.1 x c).1, st.2) st1
        (find_addExchangeCurrencyPair_self st.1 x c) h
        (keepsOld_addExchangeCurrencyPair e0 st.1 x c hk)
    · cases h
      exact hk

theorem setInsert_flag (s : List String) (x : String) (h : (setInsert s x).2 = true) :
    x ∉ s := by
  unfold setInsert at h
  split at h
  · cases h
  · assumption

theorem keepsOld_provision {clock : Nat → Int} {e ep : Engine} {u : RateUpdate}
    (hb : RegistryBijective e) (hn : NamesKnown e) (hcons : RegistryConsistent e)
    (h : provision clock e u = some ep) : KeepsOld e ep := by
  obtain ⟨st1, st2, h1, h2, rfl⟩ := provision_some h
  have h0 : KeepsOld e (insertNames e u).1 :=
    ⟨fun x c i hi => hi, hcons, fun a b _ _ => rfl⟩
  have hx : (insertNames e u).2.1 = true → u.exchange ∉ e.m_exchanges :=
    fun hf => setInsert_flag _ _ hf
  have hs : (insertNames e u).2.2.1 = true → u.sourceCurrency ∉ e.m_currencies :=
    fun hf => setInsert_flag _ _ hf
  have hd : (insertNames e u).2.2.2 = true → u.destinationCurrency ∉ e.m_currencies :=
    fun hf hmem => setInsert_flag _ _ hf (setInsert_mono _ _ _ hmem)
  exact keepsOld_provisionFor hb hn clock _ _ _ _ _ _ hd hx h2
    (keepsOld_provisionFor hb hn clock _ _ _ _ _ _ hs hx h1 h0)

/-- No update writes a cell between the vertices of one currency on two
exchanges. -/
theorem applyRateUpdate_keeps_cross_cells {clock : Nat → Int} {e e1 : Engine}
    {u : RateUpdate} (hr : Reachable e) (h : applyRateUpdate clock e u = some e1)
    {i j : Nat} (hc : CrossCell e i j) :
    cellAt e1.m_adjacencyTable i j = cellAt e.m_adjacencyTable i j ∧ CrossCell e1 i j := by
  obtain ⟨ep, hp, hd⟩ := applyRateUpdate_some h
  have hb := registryBijective_of_reachable hr
  have hk := keepsOld_provision hb (namesKnown_of_reachable hr)
    (registryConsistent_of_reachable hr) hp
  obtain ⟨x1, x2, c, hne, hi, hj⟩ := hc
  have hi1 := hk.1 _ _ _ hi
  have hj1 := hk.1 _ _ _ hj
  have hcell := directUpdate_keeps_cross_cells hk.2.1 hd hne hi1 hj1
  refine ⟨?_, ?_⟩
  · rw [hcell]
    exact hk.2.2 i j (find_lt_of_bijective hb hi) (find_lt_of_bijective hb hj)
  · obtain ⟨si, di, t1, t2, -, -, -, -, rfl⟩ := directUpdate_some hd
    exact ⟨x1, x2, c, hne, hi1, hj1⟩
/-! ## The solver on positive factors -/

theorem solverTables_eq_phaseTables (t : AdjacencyTable) :
    solverTables t = phaseTables t t.length := rfl

theorem phaseTables_succ (t : AdjacencyTable) (K : Nat) :
    phaseTables t (K + 1) = relaxPhase t.length K (phaseTables t K) := by
  unfold phaseTables
  rw [List.range_succ, List.foldl_append]
  rfl

/-- A walk whose inner vertices are at most `k` avoids `k`, or there are
walks to `k` and from `k` below `k`. -/
theorem walk_split_pos {t : AdjacencyTable} {k i j : Nat} {c : ℚ}
    (w : Walk t (k + 1) i j c) :
    (∃ c1, Walk t k i j c1) ∨ ∃ c1 c3, Walk t k i k c1 ∧ Walk t k k j c3 := by
  induction w with
  | edge i j he => exact Or.inl ⟨_, Walk.edge i j he⟩
  | cons i m j c he hm w ih =>
    rcases Nat.lt_succ_iff_lt_or_eq.mp hm with hlt | heq
    · rcases ih with ⟨c1, h1⟩ | ⟨c1, c3, w1, w3⟩
      · exact Or.inl ⟨_, Walk.cons i m j c1 he hlt h1⟩
      · exact Or.inr ⟨_, c3, Walk.cons i m k c1 he hlt w1, w3⟩
    · subst heq
      rcases ih with ⟨c1, h1⟩ | ⟨c1, c3, w1, w3⟩
      · exact Or.inr ⟨_, c1, Walk.edge i m he, h1⟩
      · exact Or.inr ⟨_, c3, Walk.edge i m he, w3⟩

theorem backed_relax (n k i j : Nat) (st : RateTable × NextTable) (h : TableShape n st)
    (hi : i < n) (hj : j < n) (hn : NonnegRate st) (hb : Backed st) :
    Backed (relax k i j st) := by
  intro a b m hm
  rw [nextAt_relax n k i j st h hi hj] at hm
  rw [rateAt_relax n k i j st h hi hj]
  split
  · rename_i hc
    exact lt_of_le_of_lt (hn i j) hc.2.2
  · rename_i hc
    rw [if_neg hc] at hm
    exact hb a b m hm

theorem backed_fillCell (t : AdjacencyTable) (hp : PositiveFactors t) (n i j : Nat)
    (st : RateTable × NextTable) (h : TableShape n st) (hi : i < n) (hj : j < n)
    (hb : Backed st) : Backed (fillCell t i j st) := by
  intro a b m hm
  rw [nextAt_fillCell t n i j st h hi hj] at hm
  rw [rateAt_fillCell t n i j st h hi hj]
  split
  · rename_i hc
    exact hp i j hc.2.2
  · rename_i hc
    rw [if_neg hc] at hm
    exact hb a b m hm

/-- With positive factors, at every round of the loop over `k` the local
tables are sound and every entry of `next` that is set stands at a positive
rate. -/
theorem phaseTables_grounded (t : AdjacencyTable) (hp : PositiveFactors t) (K : Nat)
    (hK : K ≤ t.length) :
    Sound t t.length (phaseTables t K) ∧ Backed (phaseTables t K) := by
  induction K with
  | zero =>
    show Sound t t.length (fillTables t t.length _) ∧ Backed (fillTables t t.length _)
    unfold fillTables
    refine foldl_invariant (fun s => Sound t t.length s ∧ Backed s) _ _ ?_ _
      ⟨sound_initial t _, ?_⟩
    · intro s i hi hs
      refine foldl_invariant (fun s => Sound t t.length s ∧ Backed s) _ _ ?_ s hs
      intro s2 j hj hs2
      exact ⟨sound_fillCell t hp _ i j s2 (List.mem_range.mp hi) (List.mem_range.mp hj) hs2.1,
        backed_fillCell t hp _ i j s2 hs2.1.1 (List.mem_range.mp hi) (List.mem_range.mp hj)
          hs2.2⟩
    · intro a b m hm
      unfold nextAt invalidNext at hm
      rw [get2_replicate] at hm
      cases hm
  | succ K ih =>
    have ih := ih (Nat.le_of_succ_le hK)
    rw [phaseTables_succ]
    unfold relaxPhase
    refine foldl_invariant (fun s => Sound t t.length s ∧ Backed s) _ _ ?_ _ ih
    intro s i hi hs
    unfold relaxRow
    refine foldl_invariant (fun s => Sound t t.length s ∧ Backed s) _ _ ?_ s hs
    intro s2 j hj hs2
    exact ⟨sound_relax t _ K i j s2 hK (List.mem_range.mp hi) (List.mem_range.mp hj) hs2.1,
      backed_relax _ K i j s2 hs2.1.1 (List.mem_range.mp hi) (List.mem_range.mp hj)
        hs2.1.2.1 hs2.2⟩

/-- With positive factors, after `K` rounds every pair joined by a walk
whose inner vertices are below `K` has a positive rate. -/
theorem phaseTables_connected (t : AdjacencyTable) (hp : PositiveFactors t) (K : Nat)
    (hK : K ≤ t.length) : Connected t t.length K (phaseTables t K) := by
  induction K with
  | zero =>
    intro i j c hi hj w
    cases w with
    | edge _ _ he =>
      show 0 < rateAt (fillTables t t.length _) i j
      rw [rateAt_fillTables t _ _ (tableShape_initial _) i j hi hj he]
      exact hp i j he
    | cons _ m _ c he hm _ => exact absurd hm (Nat.not_lt_zero m)
  | succ K ih =>
    have ih := ih (Nat.le_of_succ_le hK)
    have hs := (phaseTables_grounded t hp K (Nat.le_of_succ_le hK)).1
    intro i j c hi hj w
    rw [phaseTables_succ]
    rcases walk_split_pos w with ⟨c1, h1⟩ | ⟨c1, c3, w1, w3⟩
    · exact lt_of_lt_of_le (ih i j c1 hi hj h1)
        (rateAt_relaxPhase_mono _ K _ hs.1 i j).2
    · exact lt_of_lt_of_le (mul_pos (ih i K c1 hi hK w1) (ih K j c3 hK hj w3))
        (rateAt_relaxPhase_ge _ K _ hs.1 hs.2.1 i j hi hj)

/-- With positive factors the entry `next[i][j]` is set exactly when a walk
leads from `i` to `j`. -/
theorem nextAt_solverTables_iff (t : AdjacencyTable) (hp : PositiveFactors t) (i j : Nat)
    (hi : i < t.length) (hj : j < t.length) :
    (∃ m, nextAt (solverTables t) i j = some m) ↔ ∃ c, Walk t t.length i j c := by
  obtain ⟨hs, hb⟩ := phaseTables_grounded t hp t.length (le_refl _)
  have hc := phaseTables_connected t hp t.length (le_refl _)
  rw [solverTables_eq_phaseTables]
  constructor
  · rintro ⟨m, hm⟩
    obtain ⟨m1, -, hvia⟩ := hs.2.2 i j (hb i j m hm)
    exact ⟨_, via_walk hvia⟩
  · rintro ⟨c, w⟩
    obtain ⟨m, hm, -⟩ := hs.2.2 i j (hc i j c hi hj w)
    exact ⟨m, hm⟩

theorem isEdge_lt {t : AdjacencyTable} {u v : Nat} (h : isEdge t u v) : u < t.length := by
  by_contra hge
  apply h
  unfold cellAt get2
  rw [List.getD_eq_default _ _ (not_lt.mp hge)]
  rfl

theorem chain_vertices_lt (t : AdjacencyTable) (q : List Nat) (d : Nat) (hd : d < t.length)
    (hc : IsChain t q) (hl : q.getLast? = some d) : ∀ v ∈ q, v < t.length := by
  induction q with
  | nil => intro v hv; cases hv
  | cons a rest ih =>
    cases rest with
    | nil =>
      intro v hv
      simp only [List.getLast?_singleton, Option.some.injEq] at hl
      simp only [List.mem_singleton] at hv
      rw [hv, hl]
      exact hd
    | cons b rest2 =>
      intro v hv
      rcases List.mem_cons.mp hv with rfl | hv
      · exact isEdge_lt hc.1
      · exact ih hc.2 (by simpa [List.getLast?_cons_cons] using hl) v hv

/-- A walk of one or more edges, as a relation and as a vertex sequence. -/
theorem walk_iff_chain (t : AdjacencyTable) (s d : Nat) (hd : d < t.length) :
    (∃ c, Walk t t.length s d c) ↔
      ∃ q : List Nat, 2 ≤ q.length ∧ q.head? = some s ∧ q.getLast? = some d ∧ IsChain t q := by
  constructor
  · rintro ⟨c, w⟩
    obtain ⟨l, hne, hc, hl, -, -⟩ := walk_toList w hd
    cases l with
    | nil => exact absurd rfl hne
    | cons b rest =>
      exact ⟨s :: b :: rest, by simp, rfl, by simpa [List.getLast?_cons_cons] using hl, hc⟩
  · rintro ⟨q, hlen, hh, hl, hc⟩
    cases q with
    | nil => simp at hlen
    | cons a rest =>
      cases rest with
      | nil => simp at hlen
      | cons b rest2 =>
        simp only [List.head?_cons, Option.some.injEq] at hh
        subst hh
        exact ⟨_, chain_walk t t.length a b rest2 d hc
          (chain_vertices_lt t _ d hd hc hl) hl⟩

/-- With positive factors the walk never reads `INVALID_INDEX`. -/
theorem walk_ne_invalidIndex (t : AdjacencyTable) (hp : PositiveFactors t) (d : Nat)
    (hd : d < t.length) (fuel u : Nat) (path p : List Nat)
    (hu : u = d ∨ 0 < rateAt (solverTables t) u d) :
    walk (solverTables t).2 d fuel u path ≠ .invalidIndex p := by
  obtain ⟨hs, -⟩ := phaseTables_grounded t hp t.length (le_refl _)
  have hc := phaseTables_connected t hp t.length (le_refl _)
  rw [← solverTables_eq_phaseTables] at hs hc
  induction fuel generalizing u path with
  | zero =>
    unfold walk
    split
    · intro h; cases h
    · intro h; cases h
  | succ fuel ih =>
    unfold walk
    split
    · intro h; cases h
    · rename_i hne
      have hpos : 0 < rateAt (solverTables t) u d := by
        rcases hu with h | h
        · exact absurd h hne
        · exact h
      obtain ⟨m, hm, hvia⟩ := hs.2.2 u d hpos
      have hm1 : get2 none (solverTables t).2 u d = some m := hm
      simp only [hm1]
      split
      · intro h; cases h
      · apply ih
        obtain ⟨-, h1 | h2⟩ := hvia
        · exact Or.inl h1.1
        · obtain ⟨hmn, c1, w, -⟩ := h2
          exact Or.inr (hc m d c1 hmn hd w)

theorem walk_found_nodup (n : Nat) (next : NextTable) (hnext : NextInRange n next)
    (d fuel u : Nat) (path p : List Nat) (hn : path.Nodup) (hb : ∀ x ∈ path, x < n)
    (h : walk next d fuel u path = .found p) : p.Nodup ∧ ∀ x ∈ p, x < n := by
  induction fuel generalizing u path with
  | zero =>
    unfold walk at h
    split at h
    · cases h
      exact ⟨hn, hb⟩
    · cases h
  | succ fuel ih =>
    unfold walk at h
    split at h
    · cases h
      exact ⟨hn, hb⟩
    · simp only at h
      split at h
      · cases h
      · rename_i v hv
        split at h
        · cases h
        · rename_i hmem
          apply ih v (path ++ [v]) _ _ h
          · rw [List.nodup_append]
            refine ⟨hn, List.nodup_singleton v, ?_⟩
            intro x hx1 hx2
            simp only [List.mem_singleton] at hx2
            exact hmem (hx2 ▸ hx1)
          · intro x hx
            rcases List.mem_append.mp hx with h1 | h1
            · exact hb x h1
            · simp only [List.mem_singleton] at h1
              rw [h1]
              exact hnext u d v hv

theorem positiveFactors_of_rows (t : AdjacencyTable)
    (h : ∀ row ∈ t, ∀ c ∈ row, c.1 ≠ 0 → 0 < c.2) : PositiveFactors t := by
  intro i j he
  unfold isEdge cellAt get2 at he
  unfold factor cellAt get2
  rw [List.getD_eq_getElem?_getD, List.getD_eq_getElem?_getD] at he ⊢
  cases hrow : t[i]? with
  | none => simp [hrow] at he
  | some row =>
    simp only [hrow, Option.getD_some] at he ⊢
    cases hc : row[j]? with
    | none => simp [hc] at he
    | some c =>
      simp only [hc, Option.getD_some] at he ⊢
      exact h row (List.getElem?_mem hrow) c (List.getElem?_mem hc) he

theorem not_isEdge_of_rows (t : AdjacencyTable) (j : Nat)
    (h : ∀ row ∈ t, (row.getD j (0, 0)).1 = 0) (u : Nat) : ¬ isEdge t u j := by
  intro he
  apply he
  unfold cellAt get2
  by_cases hu : u < t.length
  · have hmem : t.getD u [] ∈ t := by
      rw [List.getD_eq_getElem _ _ hu]
      exact List.getElem_mem _
    exact h _ hmem
  · rw [List.getD_eq_default _ _ (not_lt.mp hu)]
    rfl

theorem chain_last_edge (t : AdjacencyTable) (q : List Nat) (d : Nat) (hlen : 2 ≤ q.length)
    (hl : q.getLast? = some d) (hc : IsChain t q) : ∃ u, isEdge t u d := by
  induction q with
  | nil => simp at hlen
  | cons a rest ih =>
    cases rest with
    | nil => simp at hlen
    | cons b rest2 =>
      cases rest2 with
      | nil =>
        simp only [List.getLast?_cons_cons, List.getLast?_singleton, Option.some.injEq] at hl
        subst hl
        exact ⟨a, hc.1⟩
      | cons c rest3 =>
        exact ih (by simp) (by simpa [List.getLast?_cons_cons] using hl) hc.2

theorem walk_ne_outOfBounds (next : NextTable) (d fuel u : Nat) (path : List Nat) :
    walk next d fuel u path ≠ .outOfBounds := by
  induction fuel generalizing u path with
  | zero =>
    unfold walk
    split <;> (intro h; cases h)
  | succ fuel ih =>
    unfold walk
    split
    · intro h; cases h
    · simp only
      split
      · intro h; cases h
      · split
        · intro h; cases h
        · exact ih _ _
/-! ## A round of the loop over `k` acts on the tables as they were at its start -/

theorem phaseRate_ge (k : Nat) (st : RateTable × NextTable) (a b : Nat) :
    rateAt st a k * rateAt st k b ≤ phaseRate k st a b := by
  unfold phaseRate
  split
  · exact le_refl _
  · rename_i h
    exact not_lt.mp h

theorem phaseRate_row (k : Nat) (st : RateTable × NextTable) (hn : NonnegRate st)
    (hd : rateAt st k k ≤ 1) (b : Nat) :
    phaseRate k st k b = rateAt st k b ∧ phaseNext k st k b = nextAt st k b := by
  have : ¬ rateAt st k b < rateAt st k k * rateAt st k b := by
    have := hn k b
    have := hn k k
    intro h
    nlinarith
  unfold phaseRate phaseNext
  rw [if_neg this, if_neg this]
  exact ⟨rfl, rfl⟩

theorem phaseRate_column (k : Nat) (st : RateTable × NextTable) (hn : NonnegRate st)
    (hd : rateAt st k k ≤ 1) (a : Nat) :
    phaseRate k st a k = rateAt st a k ∧ phaseNext k st a k = nextAt st a k := by
  have : ¬ rateAt st a k < rateAt st a k * rateAt st k k := by
    have := hn a k
    have := hn k k
    intro h
    nlinarith
  unfold phaseRate phaseNext
  rw [if_neg this, if_neg this]
  exact ⟨rfl, rfl⟩

theorem phaseInv_row (n k : Nat) (st s : RateTable × NextTable) (hn : NonnegRate st)
    (hd : rateAt st k k ≤ 1) (h : PhaseInv n k st s) (b : Nat) :
    rateAt s k b = rateAt st k b := by
  rcases h.2 k b with h1 | h1
  · exact h1.1
  · rw [h1.1, (phaseRate_row k st hn hd b).1]

theorem phaseInv_column (n k : Nat) (st s : RateTable × NextTable) (hn : NonnegRate st)
    (hd : rateAt st k k ≤ 1) (h : PhaseInv n k st s) (a : Nat) :
    rateAt s a k = rateAt st a k ∧ nextAt s a k = nextAt st a k := by
  rcases h.2 a k with h1 | h1
  · exact h1
  · rw [h1.1, h1.2]
    exact phaseRate_column k st hn hd a

/-- One iteration of the innermost loop during the round of `k`: the entry
it visits takes its final value, and every entry stays at its old or its
final value. -/
theorem phaseInv_relax (n k i j : Nat) (st s : RateTable × NextTable) (hn : NonnegRate st)
    (hd : rateAt st k k ≤ 1) (hi : i < n) (hj : j < n) (h : PhaseInv n k st s) :
    PhaseInv n k st (relax k i j s) ∧
      (rateAt (relax k i j s) i j = phaseRate k st i j ∧
        nextAt (relax k i j s) i j = phaseNext k st i j) ∧
      ∀ a b, (rateAt s a b = phaseRate k st a b ∧ nextAt s a b = phaseNext k st a b) →
        (rateAt (relax k i j s) a b = phaseRate k st a b ∧
          nextAt (relax k i j s) a b = phaseNext k st a b) := by
  have hik := phaseInv_column n k st s hn hd h i
  have hkj := phaseInv_row n k st s hn hd h j
  have hr := rateAt_relax n k i j s h.1 hi hj
  have hx := nextAt_relax n k i j s h.1 hi hj
  rw [hik.1, hkj] at hr hx
  rw [hik.2] at hx
  have hge := phaseRate_ge k st i j
  -- the entry visited
  have hvisit : rateAt (relax k i j s) i j = phaseRate k st i j ∧
      nextAt (relax k i j s) i j = phaseNext k st i j := by
    rw [hr i j, hx i j]
    by_cases hc : rateAt s i j < rateAt st i k * rateAt st k j
    · rw [if_pos ⟨rfl, rfl, hc⟩, if_pos ⟨rfl, rfl, hc⟩]
      rcases h.2 i j with h1 | h1
      · rw [h1.1] at hc
        unfold phaseRate phaseNext
        rw [if_pos hc, if_pos hc]
        exact ⟨rfl, rfl⟩
      · rw [h1.1] at hc
        exact absurd (lt_of_le_of_lt hge hc) (lt_irrefl _)
    · rw [if_neg (fun hh => hc hh.2.2), if_neg (fun hh => hc hh.2.2)]
      rcases h.2 i j with h1 | h1
      · rw [h1.1] at hc
        unfold phaseRate phaseNext
        rw [if_neg hc, if_neg hc]
        exact h1
      · exact h1
  have hother : ∀ a b, ¬ (a = i ∧ b = j) →
      rateAt (relax k i j s) a b = rateAt s a b ∧
        nextAt (relax k i j s) a b = nextAt s a b := by
    intro a b hab
    rw [hr a b, hx a b, if_neg (fun hh => hab ⟨hh.1, hh.2.1⟩),
      if_neg (fun hh => hab ⟨hh.1, hh.2.1⟩)]
    exact ⟨rfl, rfl⟩
  refine ⟨⟨tableShape_relax n k i j s h.1, ?_⟩, hvisit, ?_⟩
  · intro a b
    by_cases hab : a = i ∧ b = j
    · obtain ⟨rfl, rfl⟩ := hab
      exact Or.inr hvisit
    · rw [(hother a b hab).1, (hother a b hab).2]
      exact h.2 a b
  · intro a b hfin
    by_cases hab : a = i ∧ b = j
    · obtain ⟨rfl, rfl⟩ := hab
      exact hvisit
    · rw [(hother a b hab).1, (hother a b hab).2]
      exact hfin

/-- When `rate[k][k]` is at most 1 at the start of the round of `k`, the
round leaves in every entry the value computed from the tables as they were
at its start. -/
theorem relaxPhase_spec (n k : Nat) (st : RateTable × NextTable) (h : TableShape n st)
    (hn : NonnegRate st) (hd : rateAt st k k ≤ 1) (i j : Nat) (hi : i < n) (hj : j < n) :
    rateAt (relaxPhase n k st) i j = phaseRate k st i j ∧
      nextAt (relaxPhase n k st) i j = phaseNext k st i j := by
  unfold relaxPhase
  refine foldl_establish _ _ i (List.mem_range.mpr hi) (PhaseInv n k st)
    (fun s => rateAt s i j = phaseRate k st i j ∧ nextAt s i j = phaseNext k st i j)
    ?_ ?_ ?_ st ⟨h, fun a b => Or.inl ⟨rfl, rfl⟩⟩
  · intro s a ha hs
    unfold relaxRow
    exact foldl_invariant (PhaseInv n k st) _ _
      (fun s2 b hb hs2 =>
        (phaseInv_relax n k a b st s2 hn hd (List.mem_range.mp ha) (List.mem_range.mp hb)
          hs2).1) s hs
  · intro s hs
    unfold relaxRow
    refine foldl_establish _ _ j (List.mem_range.mpr hj) (PhaseInv n k st)
      (fun s => rateAt s i j = phaseRate k st i j ∧ nextAt s i j = phaseNext k st i j)
      ?_ ?_ ?_ s hs
    · intro s2 b hb hs2
      exact (phaseInv_relax n k i b st s2 hn hd hi (List.mem_range.mp hb) hs2).1
    · intro s2 hs2
      exact (phaseInv_relax n k i j st s2 hn hd hi hj hs2).2.1
    · intro s2 b hb hs2 hq
      exact (phaseInv_relax n k i b st s2 hn hd hi (List.mem_range.mp hb) hs2).2.2 i j hq
  · intro s a ha hs hq
    unfold relaxRow
    refine (foldl_invariant
      (fun s2 => PhaseInv n k st s2 ∧
        (rateAt s2 i j = phaseRate k st i j ∧ nextAt s2 i j = phaseNext k st i j)) _ _
      ?_ s ⟨hs, hq⟩).2
    intro s2 b hb hs2
    have := phaseInv_relax n k a b st s2 hn hd (List.mem_range.mp ha) (List.mem_range.mp hb)
      hs2.1
    exact ⟨this.1, this.2.2 i j hs2.2⟩

/-! ## The tables between the rounds, without gainful closed walks -/

theorem phaseTables_sound (t : AdjacencyTable) (hp : PositiveFactors t) (hg : NoGain t)
    (K : Nat) (hK : K ≤ t.length) :
    Sound t t.length (phaseTables t K) ∧ LowerBound t t.length K (phaseTables t K) :=
  floydWarshall_prefix t hp hg _ (sound_fillTables t hp _ _ (sound_initial t _))
    (lowerBound_fillTables t _) K hK

theorem phaseTables_diagonal (t : AdjacencyTable) (hp : PositiveFactors t) (hg : NoGain t)
    (K : Nat) (hK : K ≤ t.length) (k : Nat) (hk : k < t.length) :
    rateAt (phaseTables t K) k k ≤ 1 := by
  obtain ⟨hs, -⟩ := phaseTables_sound t hp hg K hK
  rcases lt_or_eq_of_le (hs.2.1 k k) with hpos | hzero
  · obtain ⟨m, -, hvia⟩ := hs.2.2 k k hpos
    exact hg k _ hk (via_walk hvia)
  · rw [← hzero]
    exact zero_le_one

theorem phaseTables_step (t : AdjacencyTable) (hp : PositiveFactors t) (hg : NoGain t)
    (K : Nat) (hK : K < t.length) (a b : Nat) (ha : a < t.length) (hb : b < t.length) :
    rateAt (phaseTables t (K + 1)) a b = phaseRate K (phaseTables t K) a b ∧
      nextAt (phaseTables t (K + 1)) a b = phaseNext K (phaseTables t K) a b := by
  obtain ⟨hs, -⟩ := phaseTables_sound t hp hg K (le_of_lt hK)
  rw [phaseTables_succ]
  exact relaxPhase_spec _ K _ hs.1 hs.2.1 (phaseTables_diagonal t hp hg K (le_of_lt hK) K hK)
    a b ha hb

theorem phaseTables_mono (t : AdjacencyTable) (hp : PositiveFactors t) (hg : NoGain t)
    (K1 K2 : Nat) (h12 : K1 ≤ K2) (hK : K2 ≤ t.length) (a b : Nat) :
    rateAt (phaseTables t K1) a b ≤ rateAt (phaseTables t K2) a b := by
  induction K2 with
  | zero =>
    have : K1 = 0 := Nat.le_zero.mp h12
    rw [this]
  | succ K2 ih =>
    rcases Nat.lt_succ_iff_lt_or_eq.mp (Nat.lt_succ_of_le h12) with hlt | heq
    · have h1 := ih (Nat.lt_succ_iff.mp hlt) (Nat.le_of_succ_le hK)
      obtain ⟨hs, -⟩ := phaseTables_sound t hp hg K2 (Nat.le_of_succ_le hK)
      rw [phaseTables_succ]
      exact le_trans h1 (rateAt_relaxPhase_mono _ K2 _ hs.1 a b).2
    · rw [heq]

theorem rateAt_pos_lt {n : Nat} {st : RateTable × NextTable} (h : TableShape n st)
    {a b : Nat} (hpos : 0 < rateAt st a b) : a < n ∧ b < n := by
  unfold rateAt get2 at hpos
  by_contra hc
  have hc : n ≤ a ∨ n ≤ b := by
    by_cases ha : a < n
    · right
      by_contra hb
      exact hc ⟨ha, not_le.mp hb⟩
    · exact Or.inl (not_lt.mp ha)
  rcases hc with h1 | h1
  · rw [List.getD_eq_default st.1 _ (by rw [h.1]; exact h1)] at hpos
    simp at hpos
  · by_cases ha : a < n
    · rw [List.getD_eq_default (st.1.getD a []) _ (by rw [h.2.1 a ha]; exact h1)] at hpos
      exact lt_irrefl _ hpos
    · rw [List.getD_eq_default st.1 _ (by rw [h.1]; exact not_lt.mp ha)] at hpos
      simp at hpos

theorem fillTables_edge (t : AdjacencyTable) (n : Nat) (st : RateTable × NextTable)
    (h : TableShape n st) (i j : Nat) (hi : i < n) (hj : j < n) (he : isEdge t i j) :
    rateAt (fillTables t n st) i j = factor t i j ∧
      nextAt (fillTables t n st) i j = some j := by
  have hcell : ∀ (s : RateTable × NextTable) (a b : Nat), TableShape n s → a < n → b < n →
      (rateAt s i j = factor t i j ∧ nextAt s i j = some j) →
      (rateAt (fillCell t a b s) i j = factor t i j ∧
        nextAt (fillCell t a b s) i j = some j) := by
    intro s a b hs ha hb hq
    rw [rateAt_fillCell t n a b s hs ha hb, nextAt_fillCell t n a b s hs ha hb]
    split
    · rename_i hh
      rw [hh.1, hh.2.1]
      exact ⟨rfl, rfl⟩
    · exact hq
  unfold fillTables
  refine foldl_establish _ _ i (List.mem_range.mpr hi) (TableShape n)
    (fun s => rateAt s i j = factor t i j ∧ nextAt s i j = some j) ?_ ?_ ?_ st h
  · intro s a _ hs
    exact foldl_invariant (TableShape n) _ _
      (fun s2 b _ hs2 => tableShape_fillCell t n a b s2 hs2) s hs
  · intro s hs
    refine foldl_establish _ _ j (List.mem_range.mpr hj) (TableShape n)
      (fun s => rateAt s i j = factor t i j ∧ nextAt s i j = some j) ?_ ?_ ?_ s hs
    · intro s2 b _ hs2
      exact tableShape_fillCell t n i b s2 hs2
    · intro s2 hs2
      rw [rateAt_fillCell t n i j s2 hs2 hi hj, nextAt_fillCell t n i j s2 hs2 hi hj,
        if_pos ⟨rfl, rfl, he⟩, if_pos ⟨rfl, rfl, he⟩]
      exact ⟨rfl, rfl⟩
    · intro s2 b hb hs2 hq
      exact hcell s2 i b hs2 hi (List.mem_range.mp hb) hq
  · intro s a ha hs hq
    refine (foldl_invariant (fun s2 => TableShape n s2 ∧
      (rateAt s2 i j = factor t i j ∧ nextAt s2 i j = some j)) _ _ ?_ s ⟨hs, hq⟩).2
    intro s2 b hb hs2
    exact ⟨tableShape_fillCell t n a b s2 hs2.1,
      hcell s2 a b hs2.1 (List.mem_range.mp ha) (List.mem_range.mp hb) hs2.2⟩

theorem fillTables_no_edge (t : AdjacencyTable) (n : Nat) (i j : Nat)
    (he : ¬ isEdge t i j) :
    rateAt (fillTables t n (zeroRate n, invalidNext n)) i j = 0 := by
  unfold fillTables
  refine (foldl_invariant (fun s => TableShape n s ∧ rateAt s i j = 0) _ _ ?_ _
    ⟨tableShape_initial n, ?_⟩).2
  · intro s a ha hs
    refine foldl_invariant (fun s => TableShape n s ∧ rateAt s i j = 0) _ _ ?_ s hs
    intro s2 b hb hs2
    refine ⟨tableShape_fillCell t n a b s2 hs2.1, ?_⟩
    rw [rateAt_fillCell t n a b s2 hs2.1 (List.mem_range.mp ha) (List.mem_range.mp hb)]
    split
    · rename_i hh
      exact absurd (hh.1 ▸ hh.2.1 ▸ hh.2.2) he
    · exact hs2.2
  · unfold rateAt zeroRate
    rw [get2_replicate]

theorem via_mono {t : AdjacencyTable} {k k2 i m j : Nat} {c : ℚ} (hk : k ≤ k2)
    (h : Via t k i m j c) : Via t k2 i m j c := by
  obtain ⟨he, h1 | ⟨hm, c1, w, hc⟩⟩ := h
  · exact ⟨he, Or.inl h1⟩
  · exact ⟨he, Or.inr ⟨lt_of_lt_of_le hm hk, c1, walk_mono hk w, hc⟩⟩

/-- After `K` rounds every positive rate is the product of a walk whose
first hop is the entry of `next` and whose inner vertices are below `K`. -/
theorem phaseTables_witnessed (t : AdjacencyTable) (hp : PositiveFactors t) (hg : NoGain t)
    (K : Nat) (hK : K ≤ t.length) : Witnessed t K (phaseTables t K) := by
  induction K with
  | zero =>
    intro a b hpos
    obtain ⟨ha, hb⟩ := rateAt_pos_lt (phaseTables_sound t hp hg 0 hK).1.1 hpos
    have he : isEdge t a b := by
      by_contra he
      have h0 : rateAt (phaseTables t 0) a b = 0 := fillTables_no_edge t _ a b he
      rw [h0] at hpos
      exact lt_irrefl _ hpos
    have hfill : rateAt (phaseTables t 0) a b = factor t a b ∧
        nextAt (phaseTables t 0) a b = some b :=
      fillTables_edge t _ _ (tableShape_initial _) a b ha hb he
    exact ⟨b, hfill.2, he, Or.inl ⟨rfl, hfill.1⟩⟩
  | succ K ih =>
    have hK1 : K < t.length := hK
    have ih := ih (le_of_lt hK1)
    obtain ⟨hs, -⟩ := phaseTables_sound t hp hg K (le_of_lt hK1)
    intro a b hpos
    obtain ⟨ha, hb⟩ := rateAt_pos_lt (phaseTables_sound t hp hg (K + 1) hK).1.1 hpos
    obtain ⟨hr, hx⟩ := phaseTables_step t hp hg K hK1 a b ha hb
    rw [hr] at hpos ⊢
    rw [hx]
    unfold phaseRate at hpos ⊢
    unfold phaseNext
    by_cases hc : rateAt (phaseTables t K) a b <
        rateAt (phaseTables t K) a K * rateAt (phaseTables t K) K b
    · rw [if_pos hc] at hpos ⊢
      rw [if_pos hc]
      have hik : 0 < rateAt (phaseTables t K) a K := by
        rcases lt_or_eq_of_le (hs.2.1 a K) with h1 | h1
        · exact h1
        · rw [← h1, zero_mul] at hpos
          exact absurd hpos (lt_irrefl _)
      have hkj : 0 < rateAt (phaseTables t K) K b := by
        rcases lt_or_eq_of_le (hs.2.1 K b) with h1 | h1
        · exact h1
        · rw [← h1, mul_zero] at hpos
          exact absurd hpos (lt_irrefl _)
      obtain ⟨m, hm, hv⟩ := ih a K hik
      obtain ⟨m2, -, hv2⟩ := ih K b hkj
      exact ⟨m, hm, via_append (via_mono (Nat.le_succ K) hv) (Nat.lt_succ_self K)
        (walk_mono (Nat.le_succ K) (via_walk hv2))⟩
    · rw [if_neg hc] at hpos ⊢
      rw [if_neg hc]
      obtain ⟨m, hm, hv⟩ := ih a b hpos
      exact ⟨m, hm, via_mono (Nat.le_succ K) hv⟩

/-! ## The round that last changed an entry -/

theorem lastUpdate_zero (t : AdjacencyTable) (hp : PositiveFactors t) (hg : NoGain t)
    (K : Nat) (hK : K ≤ t.length) (a b : Nat) (ha : a < t.length) (hb : b < t.length)
    (h : lastUpdate t K a b = 0) :
    rateAt (phaseTables t K) a b = rateAt (phaseTables t 0) a b ∧
      nextAt (phaseTables t K) a b = nextAt (phaseTables t 0) a b := by
  induction K with
  | zero => exact ⟨rfl, rfl⟩
  | succ K ih =>
    have hK1 : K < t.length := hK
    unfold lastUpdate at h
    split at h
    · cases h
    · rename_i hc
      obtain ⟨hr, hx⟩ := phaseTables_step t hp hg K hK1 a b ha hb
      obtain ⟨h1, h2⟩ := ih (le_of_lt hK1) h
      rw [hr, hx]
      unfold phaseRate phaseNext
      rw [if_neg hc, if_neg hc]
      exact ⟨h1, h2⟩

theorem lastUpdate_succ (t : AdjacencyTable) (hp : PositiveFactors t) (hg : NoGain t)
    (K : Nat) (hK : K ≤ t.length) (a b : Nat) (ha : a < t.length) (hb : b < t.length)
    (k : Nat) (h : lastUpdate t K a b = k + 1) :
    k < K ∧
      rateAt (phaseTables t k) a b <
        rateAt (phaseTables t k) a k * rateAt (phaseTables t k) k b ∧
      rateAt (phaseTables t K) a b =
        rateAt (phaseTables t k) a k * rateAt (phaseTables t k) k b ∧
      nextAt (phaseTables t K) a b = nextAt (phaseTables t k) a k := by
  induction K with
  | zero =>
    unfold lastUpdate at h
    cases h
  | succ K ih =>
    have hK1 : K < t.length := hK
    obtain ⟨hr, hx⟩ := phaseTables_step t hp hg K hK1 a b ha hb
    unfold lastUpdate at h
    split at h
    · rename_i hc
      have hkK : k = K := by omega
      subst hkK
      rw [hr, hx]
      unfold phaseRate phaseNext
      rw [if_pos hc, if_pos hc]
      exact ⟨Nat.lt_succ_self _, hc, rfl, rfl⟩
    · rename_i hc
      obtain ⟨h1, h2, h3, h4⟩ := ih (le_of_lt hK1) h
      rw [hr, hx]
      unfold phaseRate phaseNext
      rw [if_neg hc, if_neg hc]
      exact ⟨Nat.lt_succ_of_lt h1, h2, h3, h4⟩

/-! ## Following `next` reaches the destination -/

theorem chase_unique {next : NextTable} {d u a b : Nat} (h1 : Chase next d u a)
    (h2 : Chase next d u b) : a = b := by
  induction h1 generalizing b with
  | here =>
    cases h2 with
    | here => rfl
    | hop _ v l hne _ _ => exact absurd rfl hne
  | hop u v l hne hv _ ih =>
    cases h2 with
    | here => exact absurd rfl hne
    | hop _ v2 l2 _ hv2 hc2 =>
      rw [hv] at hv2
      cases hv2
      rw [ih hc2]

/-- When following `next` from `u` reaches `d`, the loop of lines 374-399
ends at `d` without its guard firing. -/
theorem walk_of_chase (next : NextTable) (d : Nat) (u l : Nat) (hc : Chase next d u l)
    (fuel : Nat) (path : List Nat)
    (hpath : ∀ x ∈ path, ∃ a, Chase next d x a ∧ l ≤ a) :
    (∃ p, walk next d fuel u path = .found p) ∨ walk next d fuel u path = .outOfFuel := by
  induction hc generalizing fuel path with
  | here =>
    left
    unfold walk
    exact ⟨path, by rw [if_pos rfl]⟩
  | hop u v l hne hv hcv ih =>
    cases fuel with
    | zero =>
      right
      unfold walk
      rw [if_neg hne]
    | succ fuel =>
      unfold walk
      rw [if_neg hne]
      simp only [hv]
      have hmem : v ∉ path := by
        intro hin
        obtain ⟨a, ha, hla⟩ := hpath v hin
        have := chase_unique ha hcv
        omega
      rw [if_neg hmem]
      apply ih
      intro x hx
      rcases List.mem_append.mp hx with h1 | h1
      · obtain ⟨a, ha, hla⟩ := hpath x h1
        exact ⟨a, ha, by omega⟩
      · simp only [List.mem_singleton] at h1
        rw [h1]
        exact ⟨l, hcv, le_refl _⟩

/-- The entry `(x, y)` was last changed in the round of `k` and points to
`m`: then `m` is a vertex from which `y` is reached, and the entry `(m, y)`
was not changed after the round of `k`. -/
theorem lastUpdate_hop (t : AdjacencyTable) (hp : PositiveFactors t) (hg : NoGain t)
    (K : Nat) (hK : K ≤ t.length) (x y k m : Nat) (hx : x < t.length) (hy : y < t.length)
    (hlast : lastUpdate t K x y = k + 1)
    (hm : nextAt (phaseTables t k) x k = some m) :
    m < t.length ∧ nextAt (phaseTables t K) x y = some m ∧
      0 < rateAt (phaseTables t K) m y ∧ lastUpdate t K m y ≤ k + 1 := by
  obtain ⟨hkK, hc, hrK, hxK⟩ := lastUpdate_succ t hp hg K hK x y hx hy k hlast
  have hkn : k < t.length := lt_of_lt_of_le hkK hK
  obtain ⟨hsk, hlk⟩ := phaseTables_sound t hp hg k (le_of_lt hkn)
  obtain ⟨hsK, hlK⟩ := phaseTables_sound t hp hg K hK
  have hwk := phaseTables_witnessed t hp hg k (le_of_lt hkn)
  have hwK := phaseTables_witnessed t hp hg K hK
  have hxk : 0 < rateAt (phaseTables t k) x k := by
    rcases lt_or_eq_of_le (hsk.2.1 x k) with h1 | h1
    · exact h1
    · rw [← h1, zero_mul] at hc
      exact absurd (lt_of_le_of_lt (hsk.2.1 x y) hc) (lt_irrefl _)
  have hky : 0 < rateAt (phaseTables t k) k y := by
    rcases lt_or_eq_of_le (hsk.2.1 k y) with h1 | h1
    · exact h1
    · rw [← h1, mul_zero] at hc
      exact absurd (lt_of_le_of_lt (hsk.2.1 x y) hc) (lt_irrefl _)
  obtain ⟨m1, hm1, hvia⟩ := hwk x k hxk
  rw [hm] at hm1
  cases hm1
  obtain ⟨m2, -, hvia2⟩ := hwk k y hky
  have w2 : Walk t k k y (rateAt (phaseTables t k) k y) := via_walk hvia2
  obtain ⟨he, hcase⟩ := hvia
  have hf : 0 < factor t x m := hp x m he
  have hmk : m ≤ k := by
    rcases hcase with h1 | h1
    · exact le_of_eq h1.1
    · exact le_of_lt h1.1
  have hmn : m < t.length := lt_of_le_of_lt hmk hkn
  have hmK : m < K := lt_of_le_of_lt hmk hkK
  -- the rate to `k` along the first hop, and a walk from `m` to `y`
  have hbound : rateAt (phaseTables t k) x k * rateAt (phaseTables t k) k y ≤
      factor t x m * rateAt (phaseTables t (k + 1)) m y ∧
      ∃ c, Walk t (k + 1) m y c := by
    rcases hcase with ⟨hmk1, hr⟩ | ⟨hmk1, c1, w1, hr⟩
    · subst hmk1
      refine ⟨?_, _, walk_mono (Nat.le_succ _) w2⟩
      rw [hr]
      exact mul_le_mul_of_nonneg_left
        (phaseTables_mono t hp hg m (m + 1) (Nat.le_succ _) hkn m y) (le_of_lt hf)
    · refine ⟨?_, _, walk_append (walk_mono (Nat.le_succ _) w1) (Nat.lt_succ_self k)
        (walk_mono (Nat.le_succ _) w2)⟩
      rw [hr, mul_assoc]
      apply mul_le_mul_of_nonneg_left _ (le_of_lt hf)
      have h1 : c1 ≤ rateAt (phaseTables t k) m k := hlk m k c1 hmn hkn w1
      have h2 : rateAt (phaseTables t k) m k * rateAt (phaseTables t k) k y ≤
          rateAt (phaseTables t (k + 1)) m y := by
        rw [phaseTables_succ]
        exact rateAt_relaxPhase_ge _ k _ hsk.1 hsk.2.1 m y hmn hy
      exact le_trans (mul_le_mul_of_nonneg_right h1 (le_of_lt hky)) h2
  obtain ⟨hle, c, w⟩ := hbound
  have hpos : 0 < rateAt (phaseTables t K) m y :=
    lt_of_lt_of_le (walk_pos hp w) (hlK m y c hmn hy (walk_mono hkK w))
  refine ⟨hmn, by rw [hxK]; exact hm, hpos, ?_⟩
  by_contra hgt
  have hgt : k + 1 < lastUpdate t K m y := not_le.mp hgt
  obtain ⟨k2, hk2⟩ : ∃ k2, lastUpdate t K m y = k2 + 1 :=
    ⟨lastUpdate t K m y - 1, by omega⟩
  obtain ⟨hk2K, hc2, hr2, -⟩ := lastUpdate_succ t hp hg K hK m y hmn hy k2 hk2
  have hkk2 : k + 1 ≤ k2 := by omega
  -- the walk through `m` bounds the entry `(x, y)` from below
  obtain ⟨m3, -, hvia3⟩ := hwK m y hpos
  have hlow : factor t x m * rateAt (phaseTables t K) m y ≤ rateAt (phaseTables t K) x y :=
    hlK x y _ hx hy (Walk.cons x m y _ he hmK (via_walk hvia3))
  have hmono : rateAt (phaseTables t (k + 1)) m y ≤ rateAt (phaseTables t k2) m y :=
    phaseTables_mono t hp hg (k + 1) k2 hkk2 (le_of_lt (lt_of_lt_of_le hk2K hK)) m y
  have hstrict : rateAt (phaseTables t k2) m y < rateAt (phaseTables t K) m y := by
    rw [hr2]
    exact hc2
  have h1 : rateAt (phaseTables t K) x y ≤ factor t x m * rateAt (phaseTables t k2) m y := by
    rw [hrK]
    exact le_trans hle (mul_le_mul_of_nonneg_left hmono (le_of_lt hf))
  have h2 : factor t x m * rateAt (phaseTables t k2) m y <
      factor t x m * rateAt (phaseTables t K) m y := mul_lt_mul_of_pos_left hstrict hf
  exact absurd (lt_of_le_of_lt h1 (lt_of_lt_of_le h2 hlow)) (lt_irrefl _)

/-- Without gainful closed walks, after any number of rounds, following
`next` from a vertex with a positive rate to `y` reaches `y`. -/
theorem chase_phaseTables (t : AdjacencyTable) (hp : PositiveFactors t) (hg : NoGain t)
    (K : Nat) : K ≤ t.length → ∀ x y, x < t.length → y < t.length →
      0 < rateAt (phaseTables t K) x y → ∃ l, Chase (phaseTables t K).2 y x l := by
  induction K using Nat.strong_induction_on with
  | _ K IH =>
    intro hK x y hx hy hpos
    obtain ⟨hsK, -⟩ := phaseTables_sound t hp hg K hK
    have mid : ∀ τ x, x < t.length → lastUpdate t K x y ≤ τ →
        0 < rateAt (phaseTables t K) x y → ∃ l, Chase (phaseTables t K).2 y x l := by
      intro τ
      induction τ with
      | zero =>
        intro x hx hle hpos
        have h0 : lastUpdate t K x y = 0 := Nat.le_zero.mp hle
        obtain ⟨hr, hn⟩ := lastUpdate_zero t hp hg K hK x y hx hy h0
        rw [hr] at hpos
        obtain ⟨m, hm, -, hvia⟩ := phaseTables_witnessed t hp hg 0 (Nat.zero_le _) x y hpos
        have hmy : m = y := by
          rcases hvia with h1 | h1
          · exact h1.1
          · exact absurd h1.1 (Nat.not_lt_zero m)
        subst hmy
        by_cases hxy : x = m
        · subst hxy
          exact ⟨0, Chase.here⟩
        · exact ⟨1, Chase.hop x m 0 hxy (by rw [← hm, ← hn]; rfl) Chase.here⟩
      | succ τ ihτ =>
        intro x hx hle hpos
        by_cases hlt : lastUpdate t K x y ≤ τ
        · exact ihτ x hx hlt hpos
        · have hlast : lastUpdate t K x y = τ + 1 := by omega
          obtain ⟨hkK, hc, -, -⟩ := lastUpdate_succ t hp hg K hK x y hx hy τ hlast
          have hkn : τ < t.length := lt_of_lt_of_le hkK hK
          obtain ⟨hsk, -⟩ := phaseTables_sound t hp hg τ (le_of_lt hkn)
          have hxk : 0 < rateAt (phaseTables t τ) x τ := by
            rcases lt_or_eq_of_le (hsk.2.1 x τ) with h1 | h1
            · exact h1
            · rw [← h1, zero_mul] at hc
              exact absurd (lt_of_le_of_lt (hsk.2.1 x y) hc) (lt_irrefl _)
          obtain ⟨l, hchase⟩ := IH τ hkK (le_of_lt hkn) x τ hx hkn hxk
          -- follow the entries towards `τ` as long as the round of `τ` was the last
          have inner : ∀ x l, Chase (phaseTables t τ).2 τ x l → x < t.length →
              lastUpdate t K x y = τ + 1 → ∃ l2, Chase (phaseTables t K).2 y x l2 := by
            intro x l hch
            induction hch with
            | here =>
              intro hx hlast
              exfalso
              obtain ⟨-, hc, -, -⟩ := lastUpdate_succ t hp hg K hK τ y hx hy τ hlast
              have hd := phaseTables_diagonal t hp hg τ (le_of_lt hkn) τ hkn
              have h1 := hsk.2.1 τ y
              have h2 := hsk.2.1 τ τ
              nlinarith
            | hop u v l hne hv hcv ih =>
              intro hu hlast
              by_cases huy : u = y
              · subst huy
                exact ⟨0, Chase.here⟩
              · obtain ⟨hvn, hnext, hvpos, hvle⟩ :=
                  lastUpdate_hop t hp hg K hK u y τ v hu hy hlast hv
                have hrest : ∃ l2, Chase (phaseTables t K).2 y v l2 := by
                  by_cases hvl : lastUpdate t K v y ≤ τ
                  · exact ihτ v hvn hvl hvpos
                  · exact ih hvn (by omega)
                obtain ⟨l2, hl2⟩ := hrest
                exact ⟨l2 + 1, Chase.hop u v l2 huy hnext hl2⟩
          exact inner x l hchase hx hlast
    exact mid (lastUpdate t K x y) x hx (le_refl _) hpos

/-- Without gainful closed walks the guard of the reconstruction loop never
fires, and a destination that a walk reaches gets a path. -/
theorem constructPath_of_noGain (t : AdjacencyTable) (hp : PositiveFactors t) (hg : NoGain t)
    (s d : Nat) (hs : s < t.length) (hd : d < t.length) :
    (∀ u path, constructPath t.length (solverTables t).2 s d ≠ .cycleDetected u path) ∧
      ((∃ c, Walk t t.length s d c) →
        ∃ p, constructPath t.length (solverTables t).2 s d = .found p) := by
  unfold constructPath
  cases hn : get2 none (solverTables t).2 s d with
  | none =>
    refine ⟨fun u path h => (by cases h), ?_⟩
    intro hw
    obtain ⟨m, hm⟩ := (nextAt_solverTables_iff t hp s d hs hd).mpr hw
    have hm1 : get2 none (solverTables t).2 s d = some m := hm
    rw [hn] at hm1
    cases hm1
  | some m =>
    have hpos : 0 < rateAt (solverTables t) s d :=
      (phaseTables_grounded t hp t.length (le_refl _)).2 s d m hn
    obtain ⟨l, hl⟩ := chase_phaseTables t hp hg t.length (le_refl _) s d hs hd hpos
    have hfound : ∃ p, walk (solverTables t).2 d t.length s [s] = .found p := by
      rcases walk_of_chase (solverTables t).2 d s l hl t.length [s]
        (fun x hx => by
          simp only [List.mem_singleton] at hx
          rw [hx]
          exact ⟨l, hl, le_refl _⟩) with h1 | h1
      · exact h1
      · exfalso
        exact walk_ne_outOfFuel t.length _ (nextInRange_solverTables t) d t.length s [s]
          (List.nodup_singleton s)
          (fun x hx => by simp only [List.mem_singleton] at hx; rw [hx]; exact hs)
          (by simp; omega) h1
    obtain ⟨p, hp1⟩ := hfound
    simp only
    rw [hp1]
    exact ⟨fun u path h => (by cases h), fun _ => ⟨p, rfl⟩⟩
/-! ## The returned path against every walk -/

/-- Without a closed walk of product above 1, a returned path is at least
as good as every walk from the source to the destination, the walk without
an edge included when the two are the same vertex. -/
theorem found_maximal_of_noGain (t : AdjacencyTable) (hp : PositiveFactors t)
    (hg : NoGain t) (s d : Nat) (p q : List Nat)
    (h : generateExchangePath t s d = .found p)
    (hh : q.head? = some s) (hlast : q.getLast? = some d) (hc : IsChain t q) :
    pathProduct t q ≤ pathProduct t p := by
  unfold generateExchangePath at h
  split at h
  · rename_i hguard
    obtain ⟨-, hs, hd⟩ := hguard
    unfold constructPath at h
    split at h
    · cases h
    · obtain ⟨tail, hp1, hle⟩ := walk_attains t hp hg d hd _ s [s] p h
      have hn := chain_vertices_lt t q d hd hc hlast
      cases q with
      | nil => simp at hh
      | cons a rest =>
        simp only [List.head?_cons, Option.some.injEq] at hh
        subst hh
        by_cases hsd : a = d
        · subst hsd
          unfold walk at h
          rw [if_pos rfl] at h
          cases h
          cases rest with
          | nil => exact le_refl _
          | cons b rest2 =>
            exact hg a _ hs (chain_walk t _ a b rest2 a hc hn hlast)
        · rw [if_neg hsd] at hle
          have hp2 : p = a :: tail := by rw [hp1]; rfl
          rw [hp2]
          refine le_trans ?_ hle
          cases rest with
          | nil =>
            simp only [List.getLast?_singleton, Option.some.injEq] at hlast
            exact absurd hlast hsd
          | cons b rest2 =>
            exact (solverTables_sound t hp hg).2 a d _ hs hd
              (chain_walk t _ a b rest2 d hc hn hlast)
  · cases h

/-- The result for equal endpoints: the branch for `INVALID_INDEX`, or the
path of the one vertex. -/
theorem constructPath_self (n : Nat) (next : NextTable) (s : Nat) :
    (get2 none next s s = none ∧ constructPath n next s s = .noPath) ∨
      ((∃ m, get2 none next s s = some m) ∧ constructPath n next s s = .found [s]) := by
  unfold constructPath
  cases hn : get2 none next s s with
  | none => exact Or.inl ⟨rfl, rfl⟩
  | some m =>
    right
    refine ⟨⟨m, rfl⟩, ?_⟩
    simp only
    unfold walk
    rw [if_pos rfl]
/-! ## The two cells of a pair of vertices -/

theorem paired_connect {clock : Nat → Int} {st st1 : Engine × Nat} {i j : Option Nat}
    (h : connect clock st i j = some st1)
    (hp : SymmetricCells st.1.m_adjacencyTable ∧ PairBounded st.1.m_adjacencyTable) :
    SymmetricCells st1.1.m_adjacencyTable ∧ PairBounded st1.1.m_adjacencyTable := by
  obtain ⟨a, b, -, -, hc⟩ := connect_cells h
  constructor
  · intro x y
    rw [hc x y, hc y x]
    by_cases hw : (x = a ∧ y = b) ∨ (x = b ∧ y = a)
    · have hw2 : (y = a ∧ x = b) ∨ (y = b ∧ x = a) := by
        rcases hw with h1 | h1
        · exact Or.inr ⟨h1.2, h1.1⟩
        · exact Or.inl ⟨h1.2, h1.1⟩
      rw [if_pos hw, if_pos hw2]
    · have hw2 : ¬ ((y = a ∧ x = b) ∨ (y = b ∧ x = a)) := by
        rintro (h1 | h1)
        · exact hw (Or.inr ⟨h1.2, h1.1⟩)
        · exact hw (Or.inl ⟨h1.2, h1.1⟩)
      rw [if_neg hw, if_neg hw2]
      exact hp.1 x y
  · intro x y hxy he
    unfold isEdge at he
    unfold factor
    rw [hc x y] at he ⊢
    rw [hc y x]
    by_cases hw : (x = a ∧ y = b) ∨ (x = b ∧ y = a)
    · have hw2 : (y = a ∧ x = b) ∨ (y = b ∧ x = a) := by
        rcases hw with h1 | h1
        · exact Or.inr ⟨h1.2, h1.1⟩
        · exact Or.inl ⟨h1.2, h1.1⟩
      rw [if_pos hw, if_pos hw2]
      norm_num
    · have hw2 : ¬ ((y = a ∧ x = b) ∨ (y = b ∧ x = a)) := by
        rintro (h1 | h1)
        · exact hw (Or.inr ⟨h1.2, h1.1⟩)
        · exact hw (Or.inl ⟨h1.2, h1.1⟩)
      rw [if_neg hw] at he ⊢
      rw [if_neg hw2]
      exact hp.2 x y hxy he

theorem paired_addExchangeCurrencyPair (e : Engine) (x c : String)
    (hp : SymmetricCells e.m_adjacencyTable ∧ PairBounded e.m_adjacencyTable) :
    SymmetricCells (addExchangeCurrencyPair e x c).1.m_adjacencyTable ∧
      PairBounded (addExchangeCurrencyPair e x c).1.m_adjacencyTable := by
  constructor
  · intro i j
    rw [cellAt_addExchangeCurrencyPair, cellAt_addExchangeCurrencyPair]
    exact hp.1 i j
  · intro i j hij he
    unfold isEdge at he
    unfold factor
    rw [cellAt_addExchangeCurrencyPair] at he ⊢
    rw [cellAt_addExchangeCurrencyPair]
    exact hp.2 i j hij he

/-- The cells after the two gated writes of lines 99-112, when the two
vertices differ and the two cells carried the same timestamp. -/
theorem directUpdate_pair {e e1 : Engine} {u : RateUpdate} (h : directUpdate e u = some e1)
    (hsym : SymmetricCells e.m_adjacencyTable) :
    ∃ si di, findExchangeCurrencyPair e u.exchange u.sourceCurrency = some si ∧
      findExchangeCurrencyPair e u.exchange u.destinationCurrency = some di ∧
      (si = di → ∀ x y, x ≠ y →
        cellAt e1.m_adjacencyTable x y = cellAt e.m_adjacencyTable x y) ∧
      (si ≠ di → ∀ x y, cellAt e1.m_adjacencyTable x y =
        if (cellAt e.m_adjacencyTable si di).1 < u.timestamp then
          (if x = si ∧ y = di then (u.timestamp, u.forwardFactor)
           else if x = di ∧ y = si then (u.timestamp, u.backwardFactor)
           else cellAt e.m_adjacencyTable x y)
        else cellAt e.m_adjacencyTable x y) := by
  obtain ⟨si, di, t1, t2, hs, hd, h1, h2, rfl⟩ := directUpdate_some h
  refine ⟨si, di, hs, hd, ?_, ?_⟩
  · intro hsd x y hxy
    subst hsd
    show cellAt t2 x y = _
    rw [updateCell_cellAt h2 x y, if_neg (fun hh => hxy (hh.1.trans hh.2.1.symm)),
      updateCell_cellAt h1 x y, if_neg (fun hh => hxy (hh.1.trans hh.2.1.symm))]
  · intro hsd x y
    show cellAt t2 x y = _
    have hback : cellAt t1 di si = cellAt e.m_adjacencyTable di si := by
      rw [updateCell_cellAt h1 di si, if_neg (fun hh => hsd hh.1.symm)]
    rw [updateCell_cellAt h2 x y, hback, ← hsym si di, updateCell_cellAt h1 x y]
    by_cases hg : (cellAt e.m_adjacencyTable si di).1 < u.timestamp
    · rw [if_pos hg]
      by_cases h12 : x = si ∧ y = di
      · rw [if_pos h12, if_neg (fun hh => hsd (h12.1.symm.trans hh.1)),
          if_pos ⟨h12.1, h12.2, hg⟩]
      · rw [if_neg h12]
        by_cases h21 : x = di ∧ y = si
        · rw [if_pos h21, if_pos ⟨h21.1, h21.2, hg⟩]
        · rw [if_neg h21, if_neg (fun hh => h21 ⟨hh.1, hh.2.1⟩),
            if_neg (fun hh => h12 ⟨hh.1, hh.2.1⟩)]
    · rw [if_neg hg, if_neg (fun hh => hg hh.2.2), if_neg (fun hh => hg hh.2.2)]

theorem paired_directUpdate {e e1 : Engine} {u : RateUpdate} (hv : u.Valid)
    (h : directUpdate e u = some e1)
    (hp : SymmetricCells e.m_adjacencyTable ∧ PairBounded e.m_adjacencyTable) :
    SymmetricCells e1.m_adjacencyTable ∧ PairBounded e1.m_adjacencyTable := by
  obtain ⟨si, di, -, -, hsame, hdiff⟩ := directUpdate_pair h hp.1
  have hval := (validateFactors_eq_none_iff _ _).mp hv
  by_cases hsd : si = di
  · have hc := hsame hsd
    constructor
    · intro x y
      by_cases hxy : x = y
      · rw [hxy]
      · rw [hc x y hxy, hc y x (Ne.symm hxy)]
        exact hp.1 x y
    · intro x y hxy he
      unfold isEdge at he
      unfold factor
      rw [hc x y hxy] at he ⊢
      rw [hc y x (Ne.symm hxy)]
      exact hp.2 x y hxy he
  · have hc := hdiff hsd
    by_cases hg : (cellAt e.m_adjacencyTable si di).1 < u.timestamp
    · simp only [hg, if_true] at hc
      constructor
      · intro x y
        rw [hc x y, hc y x]
        by_cases h12 : x = si ∧ y = di
        · rw [if_pos h12, if_neg (fun hh => hsd (h12.1.symm.trans hh.2)),
            if_pos ⟨h12.2, h12.1⟩]
        · rw [if_neg h12]
          by_cases h21 : x = di ∧ y = si
          · rw [if_pos h21, if_pos ⟨h21.2, h21.1⟩]
          · rw [if_neg h21, if_neg (fun hh => h21 ⟨hh.2, hh.1⟩),
              if_neg (fun hh => h12 ⟨hh.2, hh.1⟩)]
            exact hp.1 x y
      · intro x y hxy he
        unfold isEdge at he
        unfold factor
        rw [hc x y] at he ⊢
        rw [hc y x]
        by_cases h12 : x = si ∧ y = di
        · rw [if_pos h12, if_neg (fun hh => hsd (h12.1.symm.trans hh.2)),
            if_pos ⟨h12.2, h12.1⟩]
          exact hval.2.2
        · rw [if_neg h12] at he ⊢
          by_cases h21 : x = di ∧ y = si
          · rw [if_pos h21, if_pos ⟨h21.2, h21.1⟩]
            show u.backwardFactor * u.forwardFactor ≤ 1
            rw [mul_comm]
            exact hval.2.2
          · rw [if_neg h21] at he ⊢
            rw [if_neg (fun hh => h21 ⟨hh.2, hh.1⟩), if_neg (fun hh => h12 ⟨hh.2, hh.1⟩)]
            exact hp.2 x y hxy he
    · simp only [hg, if_false] at hc
      constructor
      · intro x y
        rw [hc x y, hc y x]
        exact hp.1 x y
      · intro x y hxy he
        unfold isEdge at he
        unfold factor
        rw [hc x y] at he ⊢
        rw [hc y x]
        exact hp.2 x y hxy he

theorem paired_applyRateUpdate {clock : Nat → Int} {e e1 : Engine} {u : RateUpdate}
    (hv : u.Valid) (h : applyRateUpdate clock e u = some e1)
    (hp : SymmetricCells e.m_adjacencyTable ∧ PairBounded e.m_adjacencyTable) :
    SymmetricCells e1.m_adjacencyTable ∧ PairBounded e1.m_adjacencyTable := by
  obtain ⟨ep, hprov, hd⟩ := applyRateUpdate_some h
  have hep := provision_preserves
    (fun e2 => SymmetricCells e2.m_adjacencyTable ∧ PairBounded e2.m_adjacencyTable) clock
    (fun st i j st1 hc hst => paired_connect hc hst)
    paired_addExchangeCurrencyPair e ep u hprov hp
  exact paired_directUpdate hv hd hep

theorem paired_of_reachable {e : Engine} (h : Reachable e) :
    SymmetricCells e.m_adjacencyTable ∧ PairBounded e.m_adjacencyTable := by
  induction h with
  | empty =>
    constructor
    · intro i j
      rfl
    · intro i j _ he
      exact absurd rfl he
  | step clock e u e1 _ hv happ ih => exact paired_applyRateUpdate hv happ ih

/-! ## Edges between exchanges -/

theorem oldOrUnit_provision {clock : Nat → Int} {e ep : Engine} {u : RateUpdate}
    (h : provision clock e u = some ep) : OldOrUnit e ep := by
  refine provision_preserves (OldOrUnit e) clock ?_ ?_ e ep u h (fun a b => Or.inl rfl)
  · intro st i j st1 hc hst a b
    obtain ⟨x, y, -, -, hcell⟩ := connect_cells hc
    rw [hcell a b]
    split
    · exact Or.inr rfl
    · exact hst a b
  · intro e1 x c he1 a b
    rw [cellAt_addExchangeCurrencyPair]
    exact he1 a b

theorem isEdge_lt_square {e : Engine} (hs : SquareTable e) {i j : Nat}
    (he : isEdge e.m_adjacencyTable i j) :
    i < e.m_exchangeCurrencyPairsByIndex.length ∧
      j < e.m_exchangeCurrencyPairsByIndex.length := by
  have hi : i < e.m_adjacencyTable.length := isEdge_lt he
  refine ⟨by rw [← hs.1]; exact hi, ?_⟩
  by_contra hj
  apply he
  unfold cellAt get2
  have hrow : (e.m_adjacencyTable.getD i []).length =
      e.m_exchangeCurrencyPairsByIndex.length := by
    rw [List.getD_eq_getElem _ _ hi]
    exact hs.2 _ (List.getElem_mem _)
  rw [List.getD_eq_default (e.m_adjacencyTable.getD i []) _ (by rw [hrow]; exact not_lt.mp hj)]

theorem find_old_of_lt {e0 e : Engine} (hb : RegistryBijective e0) (hk : KeepsOld e0 e)
    {x c : String} {i : Nat} (hi : findExchangeCurrencyPair e x c = some i)
    (hlt : i < e0.m_exchangeCurrencyPairsByIndex.length) :
    findExchangeCurrencyPair e0 x c = some i := by
  cases h0 : findExchangeCurrencyPair e0 x c with
  | none =>
    have := fresh_index hb hk hi h0
    omega
  | some i0 =>
    have := hk.1 x c i0 h0
    rw [hi] at this
    exact this.symm

/-- A rate update does not write the cells between vertices of two
different exchanges. -/
theorem directUpdate_keeps_foreign_cells {ep e1 : Engine} {u : RateUpdate}
    (hcons : RegistryConsistent ep) (h : directUpdate ep u = some e1)
    {x1 x2 c1 c2 : String} {i j : Nat} (hne : x1 ≠ x2)
    (hi : findExchangeCurrencyPair ep x1 c1 = some i)
    (hj : findExchangeCurrencyPair ep x2 c2 = some j) :
    cellAt e1.m_adjacencyTable i j = cellAt ep.m_adjacencyTable i j := by
  obtain ⟨si, di, t1, t2, hs, hd, h1, h2, rfl⟩ := directUpdate_some h
  show cellAt t2 i j = _
  have p1 : ¬ (i = di ∧ j = si) := by
    intro hh
    have a := registryConsistent_injective hcons hi (hh.1 ▸ hd)
    have b := registryConsistent_injective hcons hj (hh.2 ▸ hs)
    exact hne (a.1.trans b.1.symm)
  have p2 : ¬ (i = si ∧ j = di) := by
    intro hh
    have a := registryConsistent_injective hcons hi (hh.1 ▸ hs)
    have b := registryConsistent_injective hcons hj (hh.2 ▸ hd)
    exact hne (a.1.trans b.1.symm)
  rw [updateCell_cellAt h2 i j, if_neg (fun hh => p1 ⟨hh.1, hh.2.1⟩),
    updateCell_cellAt h1 i j, if_neg (fun hh => p2 ⟨hh.1, hh.2.1⟩)]

theorem crossIdentity_applyRateUpdate {clock : Nat → Int} {e e1 : Engine} {u : RateUpdate}
    (hr : Reachable e) (h : applyRateUpdate clock e u = some e1) (hci : CrossIdentity e) :
    CrossIdentity e1 := by
  obtain ⟨ep, hp, hd⟩ := applyRateUpdate_some h
  have hb := registryBijective_of_reachable hr
  have hcons := registryConsistent_of_reachable hr
  have hk := keepsOld_provision hb (namesKnown_of_reachable hr) hcons hp
  have hoc := onlyCrossChanged_provision (exchanges_nodup_of_reachable hr) hp
  have hou := oldOrUnit_provision hp
  have hsq := squareTable_of_reachable hr
  have hep : CrossIdentity ep := by
    intro x1 c1 x2 c2 i j hi hj hne he
    by_cases hch : cellAt ep.m_adjacencyTable i j = cellAt e.m_adjacencyTable i j
    · have he0 : isEdge e.m_adjacencyTable i j := by
        unfold isEdge at he ⊢
        rw [← hch]
        exact he
      obtain ⟨hil, hjl⟩ := isEdge_lt_square hsq he0
      have := hci x1 c1 x2 c2 i j (find_old_of_lt hb hk hi hil) (find_old_of_lt hb hk hj hjl)
        hne he0
      refine ⟨this.1, ?_⟩
      unfold factor at this ⊢
      rw [hch]
      exact this.2
    · obtain ⟨y1, y2, c, -, h1, h2⟩ := hoc i j hch
      have a := registryConsistent_injective hk.2.1 hi h1
      have b := registryConsistent_injective hk.2.1 hj h2
      refine ⟨a.2.trans b.2.symm, ?_⟩
      rcases hou i j with h3 | h3
      · exact absurd h3 hch
      · exact h3
  intro x1 c1 x2 c2 i j hi hj hne he
  have hreg : ∀ x c, findExchangeCurrencyPair e1 x c = findExchangeCurrencyPair ep x c := by
    obtain ⟨si, di, t1, t2, -, -, -, -, rfl⟩ := directUpdate_some hd
    intro x c
    rfl
  rw [hreg] at hi hj
  have hcell := directUpdate_keeps_foreign_cells hk.2.1 hd hne hi hj
  unfold isEdge at he
  unfold factor
  rw [hcell] at he ⊢
  exact hep x1 c1 x2 c2 i j hi hj hne he

theorem crossIdentity_of_reachable {e : Engine} (h : Reachable e) : CrossIdentity e := by
  induction h with
  | empty =>
    intro x1 c1 x2 c2 i j hi
    simp [Engine.empty, findExchangeCurrencyPair, mapFind] at hi
  | step clock e u e1 hr _ happ ih => exact crossIdentity_applyRateUpdate hr happ ih

/-! ## The end-to-end scenario -/

theorem solverTables_scenarioTable (t1 t2 : Int) (h1 : t1 ≠ 0) (h2 : t2 ≠ 0) :
    solverTables (scenarioTable t1 t2) = solverTables (scenarioTable 1 1) := by
  simp [solverTables, fillTables, fillCell, scenarioTable, cellAt, get2, List.range,
    List.range.loop, h1, h2, set2, zeroRate, invalidNext]

/-- C17: on the snapshot with the vertices A/USD, B/EUR, C/GBP and the edges
A/USD -> B/EUR 0.9, B/EUR -> A/USD 1.05, B/EUR -> C/GBP 0.8 and
C/GBP -> B/EUR 1.2, whatever their non-zero timestamps,
`generateExchangePath(A/USD, C/GBP)` returns exactly `[A/USD, B/EUR, C/GBP]`,
and the entry of `rate` for that pair is 0.72, the product of the factors
along the path. -/
theorem scenario_two_hop_path (t1 t2 : Int) (h1 : t1 ≠ 0) (h2 : t2 ≠ 0) :
    generateExchangePath (scenarioTable t1 t2) 0 2 = .found [0, 1, 2] ∧
      (generateExchangePath (scenarioTable t1 t2) 0 2).returned = some [0, 1, 2] ∧
      rateAt (solverTables (scenarioTable t1 t2)) 0 2 = 72/100 ∧
      pathProduct (scenarioTable t1 t2) [0, 1, 2] = 72/100 := by
  have hg : generateExchangePath (scenarioTable t1 t2) 0 2 = .found [0, 1, 2] := by
    have hguard : (∀ row ∈ scenarioTable t1 t2, (scenarioTable t1 t2).length ≤ row.length) ∧
        0 < (scenarioTable t1 t2).length ∧ 2 < (scenarioTable t1 t2).length := by
      simp [scenarioTable]
    unfold generateExchangePath
    rw [if_pos hguard, solverTables_scenarioTable t1 t2 h1 h2]
    show constructPath 3 (solverTables (scenarioTable 1 1)).2 0 2 = _
    decide!
  refine ⟨hg, by rw [hg]; rfl, ?_, ?_⟩
  · rw [solverTables_scenarioTable t1 t2 h1 h2]
    decide!
  · simp [pathProduct, factor, cellAt, get2, scenarioTable]
    norm_num

theorem scenario_two_hop_path_witness :
    (1509529343 : Int) ≠ 0 ∧ (1509529400 : Int) ≠ 0 ∧
    generateExchangePath (scenarioTable 1509529343 1509529400) 0 2 = .found [0, 1, 2] ∧
      (generateExchangePath (scenarioTable 1509529343 1509529400) 0 2).returned
        = some [0, 1, 2] ∧
      rateAt (solverTables (scenarioTable 1509529343 1509529400)) 0 2 = 72/100 ∧
      pathProduct (scenarioTable 1509529343 1509529400) [0, 1, 2] = 72/100 :=
  ⟨by decide, by decide,
    scenario_two_hop_path 1509529343 1509529400 (by decide) (by decide)⟩

/-! ## Dimensions of the table -/

/-- C15: in every engine state reachable from the empty engine the
adjacency table has exactly `N` rows and every row has exactly `N` cells,
where `N` is the size of the index-to-pair vector. Each creation of a
vertex (`addExchangeCurrencyPair` on an unregistered pair, in a state with
a square table) increases the vector, the number of rows and the length of
every row by exactly one, leaves every existing cell as it was, and the
added cells are absent. -/
theorem table_square_and_growth :
    (∀ e : Engine, Reachable e →
      e.m_adjacencyTable.length = e.m_exchangeCurrencyPairsByIndex.length ∧
      ∀ row ∈ e.m_adjacencyTable, row.length = e.m_exchangeCurrencyPairsByIndex.length) ∧
    (∀ (e : Engine) (x c : String), SquareTable e →
      findExchangeCurrencyPair e x c = none →
      (addExchangeCurrencyPair e x c).1.m_exchangeCurrencyPairsByIndex.length =
        e.m_exchangeCurrencyPairsByIndex.length + 1 ∧
      (addExchangeCurrencyPair e x c).1.m_adjacencyTable.length =
        e.m_adjacencyTable.length + 1 ∧
      (∀ row ∈ (addExchangeCurrencyPair e x c).1.m_adjacencyTable,
        row.length = e.m_adjacencyTable.length + 1) ∧
      (∀ i j, i < e.m_adjacencyTable.length → j < e.m_adjacencyTable.length →
        cellAt (addExchangeCurrencyPair e x c).1.m_adjacencyTable i j =
          cellAt e.m_adjacencyTable i j) ∧
      (∀ i j, e.m_adjacencyTable.length ≤ i ∨ e.m_adjacencyTable.length ≤ j →
        cellAt (addExchangeCurrencyPair e x c).1.m_adjacencyTable i j = (0, 0))) := by
  refine ⟨fun e hr => squareTable_of_reachable hr, ?_⟩
  intro e x c hs hf
  have hsq := squareTable_addExchangeCurrencyPair e x c hs
  have hlen : (addExchangeCurrencyPair e x c).1.m_exchangeCurrencyPairsByIndex.length =
      e.m_exchangeCurrencyPairsByIndex.length + 1 := by
    unfold addExchangeCurrencyPair
    unfold findExchangeCurrencyPair at hf
    rw [hf]
    simp [extendAdjancencyTable]
  refine ⟨hlen, ?_, ?_, ?_, ?_⟩
  · rw [hsq.1, hlen, hs.1]
  · intro row hrow
    rw [hsq.2 row hrow, hlen, hs.1]
  · intro i j _ _
    exact cellAt_addExchangeCurrencyPair e x c i j
  · intro i j hij
    rw [cellAt_addExchangeCurrencyPair]
    unfold cellAt get2
    rw [List.getD_eq_getElem?_getD, List.getD_eq_getElem?_getD]
    rcases hij with h1 | h1
    · rw [List.getElem?_eq_none h1]
      simp
    · cases hrow : e.m_adjacencyTable[i]? with
      | none => simp
      | some row =>
        have hmem := List.getElem?_mem hrow
        have hl := hs.2 row hmem
        simp only [Option.getD_some]
        rw [List.getElem?_eq_none (by rw [hl, ← hs.1]; exact h1)]
        simp

theorem table_square_and_growth_witness :
    Reachable twoExchangeEngine ∧
    twoExchangeEngine.m_adjacencyTable.length =
      twoExchangeEngine.m_exchangeCurrencyPairsByIndex.length ∧
    ∀ row ∈ twoExchangeEngine.m_adjacencyTable,
      row.length = twoExchangeEngine.m_exchangeCurrencyPairsByIndex.length :=
  ⟨reachable_twoExchangeEngine,
    table_square_and_growth.1 twoExchangeEngine reachable_twoExchangeEngine⟩

/-! ## The registry -/

/-- C16: in every reachable engine state `findExchangeCurrencyPair` returns
the index `i` for a pair if and only if the index-to-pair vector holds that
pair at position `i`, every index returned is below the number `N` of
registered vertices, and every position below `N` is the index of a pair.
`addExchangeCurrencyPair` on a registered pair returns its index and changes
nothing; on a new pair it returns `N` and leaves the index of every
registered pair unchanged. -/
theorem registry_bijective :
    (∀ e : Engine, Reachable e →
      (∀ (x c : String) (i : Nat), findExchangeCurrencyPair e x c = some i ↔
        e.m_exchangeCurrencyPairsByIndex.get? i = some (x, c)) ∧
      (∀ (x c : String) (i : Nat), findExchangeCurrencyPair e x c = some i →
        i < e.m_exchangeCurrencyPairsByIndex.length) ∧
      (∀ i, i < e.m_exchangeCurrencyPairsByIndex.length →
        ∃ x c, findExchangeCurrencyPair e x c = some i)) ∧
    (∀ (e : Engine) (x c : String) (i : Nat), findExchangeCurrencyPair e x c = some i →
      addExchangeCurrencyPair e x c = (e, i)) ∧
    (∀ (e : Engine) (x c : String), findExchangeCurrencyPair e x c = none →
      (addExchangeCurrencyPair e x c).2 = e.m_exchangeCurrencyPairsByIndex.length ∧
      findExchangeCurrencyPair (addExchangeCurrencyPair e x c).1 x c =
        some e.m_exchangeCurrencyPairsByIndex.length ∧
      ∀ (y d : String) (i : Nat), findExchangeCurrencyPair e y d = some i →
        findExchangeCurrencyPair (addExchangeCurrencyPair e x c).1 y d = some i) := by
  refine ⟨?_, ?_, ?_⟩
  · intro e hr
    have hb := registryBijective_of_reachable hr
    refine ⟨fun x c i => hb (x, c) i, fun x c i hf => find_lt_of_bijective hb hf, ?_⟩
    intro i hi
    have hget : e.m_exchangeCurrencyPairsByIndex.get? i =
        some (e.m_exchangeCurrencyPairsByIndex.get ⟨i, hi⟩) := List.get?_eq_get hi
    exact ⟨_, _, (hb _ i).mpr hget⟩
  · intro e x c i hf
    unfold addExchangeCurrencyPair
    unfold findExchangeCurrencyPair at hf
    rw [hf]
  · intro e x c hf
    have h2 : (addExchangeCurrencyPair e x c).2 = e.m_exchangeCurrencyPairsByIndex.length := by
      unfold addExchangeCurrencyPair
      unfold findExchangeCurrencyPair at hf
      rw [hf]
    refine ⟨h2, ?_, fun y d i h => find_addExchangeCurrencyPair_mono e x c y d i h⟩
    rw [find_addExchangeCurrencyPair_self, h2]

theorem registry_bijective_witness :
    Reachable twoExchangeEngine ∧
    (∀ (x c : String) (i : Nat), findExchangeCurrencyPair twoExchangeEngine x c = some i ↔
      twoExchangeEngine.m_exchangeCurrencyPairsByIndex.get? i = some (x, c)) ∧
    (∀ (x c : String) (i : Nat), findExchangeCurrencyPair twoExchangeEngine x c = some i →
      i < twoExchangeEngine.m_exchangeCurrencyPairsByIndex.length) ∧
    (∀ i, i < twoExchangeEngine.m_exchangeCurrencyPairsByIndex.length →
      ∃ x c, findExchangeCurrencyPair twoExchangeEngine x c = some i) :=
  ⟨reachable_twoExchangeEngine,
    registry_bijective.1 twoExchangeEngine reachable_twoExchangeEngine⟩

/-! ## The time zone of a timestamp -/

/-- C20: the claim fails in the code. For a token of 25 characters whose
character at offset 19 is a sign and whose date and time portion parses, the
conversion returns a timestamp whether or not the parse of the offset
portion reports failure: the error `invalid time zone` is never produced,
because the test after the parse of the offset reads the fail flag of the
stream of the date and time. On the token `2017-11-01T09:42:23+XX:YY` with
a library that rejects the offset, the result is a timestamp, and the line
`2017-11-01T09:42:23+XX:YY A USD EUR 1.0 1.0` is processed as a rate update,
with nothing reported. -/
theorem invalid_time_zone_accepted :
    (∀ (lib : StdLib) (timestamp : List Char) (fieldName : String),
      timestamp.length = 25 →
      (timestamp.getD 19 ' ' = '-' ∨ timestamp.getD 19 ' ' = '+') →
      (lib.get_time "%Y-%m-%dT%H:%M:%S" (timestamp.take 19)).2 = false →
      (lib.get_time "%H:%M" (timestamp.drop 20)).2 = true →
      ∃ t, timestampOfToken lib timestamp fieldName = .ok t) ∧
    (zoneRejectingLib.get_time "%H:%M" (badZoneToken.drop 20)).2 = true ∧
    timestampOfToken zoneRejectingLib badZoneToken "timestamp" = .ok 1509529343 ∧
    processData zoneRejectingLib sampleClock badZoneLine (World.init Engine.empty) =
      (applyRateUpdate sampleClock Engine.empty
        (mkUpdate 1509529343 "A" "USD" "EUR" 1 1)).map World.init ∧
    (applyRateUpdate sampleClock Engine.empty
      (mkUpdate 1509529343 "A" "USD" "EUR" 1 1)).isSome = true ∧
    (∀ (lib : StdLib) (timestamp : List Char) (fieldName : String),
      timestampOfToken lib timestamp fieldName ≠
        .error ("invalid time zone in time field " ++ fieldName)) := by
  refine ⟨?_, by decide, by rfl, by decide!, by decide!, ?_⟩
  · intro lib timestamp fieldName hlen hsign hdate _
    unfold timestampOfToken
    rw [if_neg (by simp [hlen]), if_neg (not_not.mpr hsign), if_neg (by simp [hdate]),
      if_neg (by simp [hdate])]
    exact ⟨_, rfl⟩
  · intro lib timestamp fieldName
    have hlen : ∀ a b : String, a.length ≠ b.length →
        (Except.error (a ++ fieldName) : Except String Int) ≠ .error (b ++ fieldName) := by
      intro a b hab h
      injection h with h
      have := congrArg String.length h
      simp only [String.length_append] at this
      omega
    unfold timestampOfToken
    split
    · exact hlen _ _ (by decide)
    · split
      · exact hlen _ _ (by decide)
      · split
        · exact hlen _ _ (by decide)
        · intro h
          cases h
/-! ## Tokens of a line -/

/-- C19: for every string `s`, calling `parseNextToken` with the delimiters
space, tab, vertical tab, CR and LF until it returns `false` ends (any bound
above the length of `s` on the number of calls is enough) and reads a list
`ts` of tokens that is the one list of maximal runs of non-delimiter
characters of `s`, in order. Every token is non-empty and holds no
delimiter, delimiters put before and after `s` do not change the tokens,
and after `reset` the same tokens are read again, whatever the tokenizer
had read before. -/
theorem tokenizer_maximal_runs (s : List Char) :
    ∃ ts : List (List Char),
      (∀ fuel, s.length < fuel →
        StringTokenizer.allTokens TOKEN_DELIMITERS fuel (StringTokenizer.new s) = some ts) ∧
      MaximalRuns TOKEN_DELIMITERS s ts ∧
      (∀ ts1, MaximalRuns TOKEN_DELIMITERS s ts1 → ts1 = ts) ∧
      (∀ tok ∈ ts, tok ≠ [] ∧ ∀ c ∈ tok, c ∉ TOKEN_DELIMITERS) ∧
      (∀ pre post : List Char, (∀ c ∈ pre, c ∈ TOKEN_DELIMITERS) →
        (∀ c ∈ post, c ∈ TOKEN_DELIMITERS) → ∀ fuel, (pre ++ s ++ post).length < fuel →
        StringTokenizer.allTokens TOKEN_DELIMITERS fuel
          (StringTokenizer.new (pre ++ s ++ post)) = some ts) ∧
      (∀ (t : StringTokenizer) (fuel : Nat), t.m_string = s → s.length < fuel →
        StringTokenizer.allTokens TOKEN_DELIMITERS fuel t.reset = some ts) := by
  obtain ⟨ts, h1, h2⟩ := allTokens_runs TOKEN_DELIMITERS (s.length + 1) (StringTokenizer.new s)
    (by simp only [StringTokenizer.new]; omega)
  simp only [StringTokenizer.new, List.drop_zero] at h2
  refine ⟨ts, fun fuel hf => allTokens_of_runs _ s ts h2 fuel hf, h2,
    fun ts1 h => maximalRuns_unique _ s ts1 ts h h2, maximalRuns_tokens _ s ts h2, ?_, ?_⟩
  · intro pre post hpre hpost fuel hf
    apply allTokens_of_runs _ _ ts _ fuel hf
    rw [List.append_assoc]
    exact maximalRuns_skip _ pre _ ts hpre (maximalRuns_trailing _ s post ts hpost h2)
  · intro t fuel ht hf
    have : t.reset = StringTokenizer.new s := by
      rw [← ht]
      rfl
    rw [this]
    exact allTokens_of_runs _ s ts h2 fuel hf

/-! ## Queries for an unknown pair -/

/-- C11: for every engine state and every query line (its tokens are the
request marker, the four fields and possibly more) in which the source pair
or the destination pair is not registered, `processData` returns, the lines
written to the primary output are exactly the begin marker with the four
fields followed by the end marker, one error naming the unknown pair is
reported, and the engine state is unchanged. -/
theorem query_unknown_pair (lib : StdLib) (clock : Nat → Int) (data : List Char) (w : World)
    (sx sc dx dc : List Char) (rest : List (List Char))
    (hline : MaximalRuns TOKEN_DELIMITERS data
      (EXCHANGE_RATE_REQUEST.toList :: sx :: sc :: dx :: dc :: rest))
    (hunknown : findExchangeCurrencyPair w.engine (String.mk sx) (String.mk sc) = none ∨
      findExchangeCurrencyPair w.engine (String.mk dx) (String.mk dc) = none) :
    processData lib clock data w = some
      { engine := w.engine
        cout := w.cout ++
          [BEST_RATES_BEGIN ++ " " ++ String.mk sx ++ " " ++ String.mk sc ++ " " ++
            String.mk dx ++ " " ++ String.mk dc, BEST_RATES_END]
        cerr := w.cerr ++
          ["Error: " ++
            (if findExchangeCurrencyPair w.engine (String.mk sx) (String.mk sc) = none then
              "source currency/exchnage pair " ++ String.mk sx ++ "/" ++ String.mk sc ++
                " is unknown"
            else
              "destination currency/exchnage pair " ++ String.mk dx ++ "/" ++ String.mk dc ++
                " is unknown") ++
            ", data (" ++ String.mk data ++ ")"] } := by
  have h0 : MaximalRuns TOKEN_DELIMITERS
      ((StringTokenizer.new data).m_string.drop (StringTokenizer.new data).m_offset)
      (EXCHANGE_RATE_REQUEST.toList :: sx :: sc :: dx :: dc :: rest) := hline
  obtain ⟨p1, p2, _, p4⟩ := parseNextToken_of_runs TOKEN_DELIMITERS _ _ _ h0
  obtain ⟨d1, q1, r1⟩ := parseStringField_of_runs _ "source_exchange" _ _ p4
  obtain ⟨d2, q2, r2⟩ := parseStringField_of_runs d1 "source_currency" _ _ r1
  obtain ⟨d3, q3, r3⟩ := parseStringField_of_runs d2 "destination_exchange" _ _ r2
  obtain ⟨d4, q4, _⟩ := parseStringField_of_runs d3 "destination_currency" _ _ r3
  unfold processData processDataBody
  rw [if_neg (by simp [p1]), if_pos (by rw [p2]; rfl)]
  unfold processRequest
  simp only [q1, q2, q3, q4]
  unfold answerRequest printPath
  cases hs : findExchangeCurrencyPair w.engine (String.mk sx) (String.mk sc) with
  | none => simp
  | some si =>
    rw [hs] at hunknown
    rcases hunknown with hu | hu
    · cases hu
    · simp [hu]

theorem query_unknown_pair_witness :
    MaximalRuns TOKEN_DELIMITERS "EXCHANGE_RATE_REQUEST A USD B EUR".toList
      (EXCHANGE_RATE_REQUEST.toList :: "A".toList :: "USD".toList :: "B".toList ::
        "EUR".toList :: []) ∧
    (findExchangeCurrencyPair (World.init twoExchangeEngine).engine
        (String.mk "A".toList) (String.mk "USD".toList) = none ∨
      findExchangeCurrencyPair (World.init twoExchangeEngine).engine
        (String.mk "B".toList) (String.mk "EUR".toList) = none) ∧
    processData rejectingLib sampleClock "EXCHANGE_RATE_REQUEST A USD B EUR".toList
        (World.init twoExchangeEngine) = some
      { engine := twoExchangeEngine
        cout := ["BEST_RATES_BEGIN A USD B EUR", "BEST_RATES_END"]
        cerr := ["Error: destination currency/exchnage pair B/EUR is unknown, " ++
          "data (EXCHANGE_RATE_REQUEST A USD B EUR)"] } :=
  ⟨maximalRuns_of_allTokens _ _ _ 34 (by decide) (by decide),
    Or.inr (by decide),
    query_unknown_pair rejectingLib sampleClock _ (World.init twoExchangeEngine)
      "A".toList "USD".toList "B".toList "EUR".toList []
      (maximalRuns_of_allTokens _ _ _ 34 (by decide) (by decide)) (Or.inr (by decide))⟩

/-! ## Identity edges and direct quotes -/

/-- C18 does not hold: there is no reachable engine state with an identity
edge in a cell `(i, j)` and no valid rate update with a timestamp newer
than that of the cell such that processing the update puts the timestamp of
the update and one of its quoted factors into the cell `(i, j)`. -/
theorem identity_edge_not_superseded :
    ¬ ∃ (clock : Nat → Int) (e e1 : Engine) (u : RateUpdate) (i j : Nat),
      Reachable e ∧ u.Valid ∧ IdentityEdge e i j ∧
      (cellAt e.m_adjacencyTable i j).1 < u.timestamp ∧
      applyRateUpdate clock e u = some e1 ∧
      (cellAt e1.m_adjacencyTable i j = (u.timestamp, u.forwardFactor) ∨
        cellAt e1.m_adjacencyTable i j = (u.timestamp, u.backwardFactor)) := by
  rintro ⟨clock, e, e1, u, i, j, hr, -, hid, hlt, happ, hcell⟩
  have hkeep := (applyRateUpdate_keeps_cross_cells hr happ hid.1).1
  rw [hkeep] at hcell
  rcases hcell with h | h
  · rw [h] at hlt
    exact lt_irrefl _ hlt
  · rw [h] at hlt
    exact lt_irrefl _ hlt

/-- C18, as the code has it: a rate update addresses two vertices of one
exchange and an identity edge joins vertices of two exchanges, so for every
reachable engine state, every identity edge in a cell `(i, j)` and every
rate update whose processing completes, the cell `(i, j)` holds the same
timestamp and the same factor after the update, and is still an identity
edge. -/
theorem identity_edge_kept (clock : Nat → Int) (e e1 : Engine) (u : RateUpdate) (i j : Nat)
    (hr : Reachable e) (hid : IdentityEdge e i j)
    (h : applyRateUpdate clock e u = some e1) :
    cellAt e1.m_adjacencyTable i j = cellAt e.m_adjacencyTable i j ∧
      IdentityEdge e1 i j := by
  obtain ⟨hcell, hcross⟩ := applyRateUpdate_keeps_cross_cells hr h hid.1
  refine ⟨hcell, hcross, ?_⟩
  unfold IdentityCell
  rw [hcell]
  exact hid.2

theorem identity_edge_kept_witness :
    Reachable twoExchangeEngine ∧ IdentityEdge twoExchangeEngine 0 2 ∧
    (mkUpdate 1509529400 "B" "USD" "GBP" (1/2) 2).Valid ∧
    (cellAt twoExchangeEngine.m_adjacencyTable 0 2).1 < 1509529400 ∧
    applyRateUpdate sampleClock twoExchangeEngine
      (mkUpdate 1509529400 "B" "USD" "GBP" (1/2) 2) = some quotedEngine ∧
    cellAt quotedEngine.m_adjacencyTable 0 2 = cellAt twoExchangeEngine.m_adjacencyTable 0 2 ∧
    IdentityEdge quotedEngine 0 2 :=
  ⟨reachable_twoExchangeEngine,
    ⟨⟨"A", "B", "USD", by decide, by decide, by decide⟩, by decide!, by decide!⟩,
    by decide!, by decide!, by decide!,
    identity_edge_kept sampleClock twoExchangeEngine quotedEngine
      (mkUpdate 1509529400 "B" "USD" "GBP" (1/2) 2) 0 2 reachable_twoExchangeEngine
      ⟨⟨"A", "B", "USD", by decide, by decide, by decide⟩, by decide!, by decide!⟩ (by decide!)⟩

/-! ## Unreachable destinations -/

/-- C12: for every adjacency table with positive factors (every row at
least as long as the table) and every pair of vertex indices `s` and `d`
such that no directed walk of one or more edges leads from `s` to `d`, the
entry `next[s][d]` is `INVALID_INDEX` when the reconstruction starts,
`generateExchangePath` takes the branch for it and returns the empty
sequence, and nothing is written as a warning. -/
theorem no_walk_no_path (t : AdjacencyTable) (s d : Nat) (hp : PositiveFactors t)
    (hrows : ∀ row ∈ t, t.length ≤ row.length) (hs : s < t.length) (hd : d < t.length)
    (hno : ¬ ∃ q : List Nat, 2 ≤ q.length ∧ q.head? = some s ∧ q.getLast? = some d ∧
      IsChain t q) :
    nextAt (solverTables t) s d = none ∧
      generateExchangePath t s d = .noPath ∧
      (generateExchangePath t s d).returned = some [] ∧
      ∀ e : Engine, pathWarning e (generateExchangePath t s d) = some [] := by
  have hnone : nextAt (solverTables t) s d = none := by
    cases hn : nextAt (solverTables t) s d with
    | none => rfl
    | some m =>
      exfalso
      apply hno
      exact (walk_iff_chain t s d hd).mp
        ((nextAt_solverTables_iff t hp s d hs hd).mp ⟨m, hn⟩)
  have hres : generateExchangePath t s d = .noPath := by
    unfold generateExchangePath
    rw [if_pos ⟨hrows, hs, hd⟩]
    unfold constructPath
    have : get2 none (solverTables t).2 s d = none := hnone
    rw [this]
  refine ⟨hnone, hres, ?_, ?_⟩
  · rw [hres]
    rfl
  · intro e
    rw [hres]
    rfl

theorem no_walk_no_path_witness :
    PositiveFactors isolatedTable ∧
    (¬ ∃ q : List Nat, 2 ≤ q.length ∧ q.head? = some 0 ∧ q.getLast? = some 2 ∧
      IsChain isolatedTable q) ∧
    nextAt (solverTables isolatedTable) 0 2 = none ∧
    generateExchangePath isolatedTable 0 2 = .noPath ∧
    (generateExchangePath isolatedTable 0 2).returned = some [] ∧
    ∀ e : Engine, pathWarning e (generateExchangePath isolatedTable 0 2) = some [] :=
  ⟨positiveFactors_of_rows _ (by decide!),
    fun ⟨q, hlen, _, hl, hc⟩ =>
      (chain_last_edge isolatedTable q 2 hlen hl hc).elim
        (fun u hu => not_isEdge_of_rows isolatedTable 2 (by decide) u hu),
    no_walk_no_path isolatedTable 0 2 (positiveFactors_of_rows _ (by decide!))
      (by decide) (by decide) (by decide)
      (fun ⟨q, hlen, _, hl, hc⟩ =>
        (chain_last_edge isolatedTable q 2 hlen hl hc).elim
          (fun u hu => not_isEdge_of_rows isolatedTable 2 (by decide) u hu))⟩

/-! ## The reconstruction loop stays inside the tables -/

/-- C14: for every square adjacency table with positive factors and every
pair of vertex indices `s` and `d`, the reconstruction loop ends within the
`N` iterations it is given, never reads `INVALID_INDEX` from `next[u][d]`,
every value it reads from `next` is a vertex index, no vector is indexed
outside its bounds, and the path returned has no repeated vertex, at most
`N` vertices, and vertex indices only. -/
theorem reconstruction_in_range (t : AdjacencyTable) (s d : Nat) (hp : PositiveFactors t)
    (hsq : ∀ row ∈ t, row.length = t.length) (hs : s < t.length) (hd : d < t.length) :
    generateExchangePath t s d ≠ .outOfFuel ∧
      generateExchangePath t s d ≠ .outOfBounds ∧
      (∀ p, generateExchangePath t s d ≠ .invalidIndex p) ∧
      (∀ i j v, nextAt (solverTables t) i j = some v → v < t.length) ∧
      ∃ p, (generateExchangePath t s d).returned = some p ∧ p.Nodup ∧
        p.length ≤ t.length ∧ ∀ v ∈ p, v < t.length := by
  have hguard : (∀ row ∈ t, t.length ≤ row.length) ∧ s < t.length ∧ d < t.length :=
    ⟨fun row hrow => le_of_eq (hsq row hrow).symm, hs, hd⟩
  have hfuel := generateExchangePath_ne_outOfFuel t s d
  have hnext := nextInRange_solverTables t
  have hbounds : generateExchangePath t s d ≠ .outOfBounds := by
    unfold generateExchangePath
    rw [if_pos hguard]
    unfold constructPath
    split
    · intro h; cases h
    · exact walk_ne_outOfBounds _ _ _ _ _
  have hinvalid : ∀ p, generateExchangePath t s d ≠ .invalidIndex p := by
    intro p
    unfold generateExchangePath
    rw [if_pos hguard]
    unfold constructPath
    split
    · intro h; cases h
    · rename_i m hm
      apply walk_ne_invalidIndex t hp d hd
      right
      exact (phaseTables_grounded t hp t.length (le_refl _)).2 s d m hm
  refine ⟨hfuel, hbounds, hinvalid, fun i j v h => hnext i j v h, ?_⟩
  cases hres : generateExchangePath t s d with
  | noPath => exact ⟨[], rfl, List.nodup_nil, Nat.zero_le _, fun v hv => by cases hv⟩
  | cycleDetected u path =>
    exact ⟨[], rfl, List.nodup_nil, Nat.zero_le _, fun v hv => by cases hv⟩
  | invalidIndex p => exact absurd hres (hinvalid p)
  | outOfBounds => exact absurd hres hbounds
  | outOfFuel => exact absurd hres hfuel
  | found p =>
    have hp2 : p.Nodup ∧ ∀ x ∈ p, x < t.length := by
      unfold generateExchangePath at hres
      rw [if_pos hguard] at hres
      unfold constructPath at hres
      split at hres
      · cases hres
      · exact walk_found_nodup t.length _ hnext d t.length s [s] p (List.nodup_singleton s)
          (fun x hx => by simp only [List.mem_singleton] at hx; rw [hx]; exact hs) hres
    exact ⟨p, rfl, hp2.1, nodup_length_le t.length p hp2.1 hp2.2, hp2.2⟩

theorem reconstruction_in_range_witness :
    PositiveFactors arbitrageTable ∧
    (∀ row ∈ arbitrageTable, row.length = arbitrageTable.length) ∧
    generateExchangePath arbitrageTable 0 3 ≠ .outOfFuel ∧
    generateExchangePath arbitrageTable 0 3 ≠ .outOfBounds ∧
    (∀ p, generateExchangePath arbitrageTable 0 3 ≠ .invalidIndex p) ∧
    (∀ i j v, nextAt (solverTables arbitrageTable) i j = some v → v < arbitrageTable.length) ∧
    ∃ p, (generateExchangePath arbitrageTable 0 3).returned = some p ∧ p.Nodup ∧
      p.length ≤ arbitrageTable.length ∧ ∀ v ∈ p, v < arbitrageTable.length :=
  ⟨positiveFactors_of_rows _ (by decide!), by decide,
    reconstruction_in_range arbitrageTable 0 3 (positiveFactors_of_rows _ (by decide!))
      (by decide) (by decide) (by decide)⟩

/-! ## The cycle guard -/

/-- C13 fails as stated: the engine reached by `arbitrageUpdates` holds the
cycle EUR -> GBP -> JPY -> EUR of product 4. For the registered vertices
1 = X/EUR and 0 = X/USD, joined by an edge, the reconstruction walk of
`generateExchangePath` goes 1, 2, 3 and reads 1 again: the guard fires, a
warning is written and the empty path is returned. -/
theorem arbitrage_cycle_guard_fires :
    Reachable arbitrageEngine ∧
    findExchangeCurrencyPair arbitrageEngine "X" "EUR" = some 1 ∧
    findExchangeCurrencyPair arbitrageEngine "X" "USD" = some 0 ∧
    isEdge arbitrageEngine.m_adjacencyTable 1 0 ∧
    IsChain arbitrageEngine.m_adjacencyTable [1, 0] ∧
    generateExchangePath arbitrageEngine.m_adjacencyTable 1 0 = .cycleDetected 1 [1, 2, 3] ∧
    (generateExchangePath arbitrageEngine.m_adjacencyTable 1 0).returned = some [] ∧
    pathWarning arbitrageEngine (generateExchangePath arbitrageEngine.m_adjacencyTable 1 0) =
      some ["Warning: endless loop over cycle detected: starting with: 1 (X/EUR), " ++
        "path: 1 (X/EUR) -> 2 (X/GBP) -> 3 (X/JPY)"] :=
  ⟨reachable_arbitrageEngine, by decide!, by decide!, by decide!, ⟨by decide!, trivial⟩,
    by decide!, by decide!, by decide!⟩

/-- C13, as the code has it: for every reachable engine state in which no
directed cycle of the adjacency table multiplies to more than 1, and every
pair of registered vertices `s` and `d`, the reconstruction walk of
`generateExchangePath` never revisits a vertex (the cycle guard never
fires), and whenever a directed walk of one or more edges leads from `s` to
`d` the path returned is non-empty. -/
theorem cycle_guard_silent (e : Engine) (s d : Nat) (hr : Reachable e)
    (hna : NoArbitrage e.m_adjacencyTable)
    (hs : s < e.m_exchangeCurrencyPairsByIndex.length)
    (hd : d < e.m_exchangeCurrencyPairsByIndex.length) :
    (∀ u path, generateExchangePath e.m_adjacencyTable s d ≠ .cycleDetected u path) ∧
      ((∃ q : List Nat, 2 ≤ q.length ∧ q.head? = some s ∧ q.getLast? = some d ∧
          IsChain e.m_adjacencyTable q) →
        ∃ p, generateExchangePath e.m_adjacencyTable s d = .found p ∧
          (generateExchangePath e.m_adjacencyTable s d).returned = some p ∧ p ≠ []) := by
  have hsq := squareTable_of_reachable hr
  have hp := positiveFactors_of_reachable hr
  have hg := noGain_of_noArbitrage e.m_adjacencyTable hp hna
  have hs1 : s < e.m_adjacencyTable.length := by rw [hsq.1]; exact hs
  have hd1 : d < e.m_adjacencyTable.length := by rw [hsq.1]; exact hd
  have hguard : (∀ row ∈ e.m_adjacencyTable, e.m_adjacencyTable.length ≤ row.length) ∧
      s < e.m_adjacencyTable.length ∧ d < e.m_adjacencyTable.length :=
    ⟨fun row hrow => by rw [hsq.2 row hrow, hsq.1], hs1, hd1⟩
  obtain ⟨h1, h2⟩ := constructPath_of_noGain e.m_adjacencyTable hp hg s d hs1 hd1
  have heq : generateExchangePath e.m_adjacencyTable s d =
      constructPath e.m_adjacencyTable.length (solverTables e.m_adjacencyTable).2 s d := by
    unfold generateExchangePath
    rw [if_pos hguard]
  refine ⟨fun u path => by rw [heq]; exact h1 u path, ?_⟩
  intro hq
  obtain ⟨p, hp1⟩ := h2 ((walk_iff_chain e.m_adjacencyTable s d hd1).mpr hq)
  rw [← heq] at hp1
  refine ⟨p, hp1, by rw [hp1]; rfl, ?_⟩
  intro hnil
  have := (generateExchangePath_found e.m_adjacencyTable s d p hp1).1
  rw [hnil] at this
  cases this

theorem cycle_guard_silent_witness :
    Reachable threeExchangeEngine ∧ NoArbitrage threeExchangeEngine.m_adjacencyTable ∧
    0 < threeExchangeEngine.m_exchangeCurrencyPairsByIndex.length ∧
    3 < threeExchangeEngine.m_exchangeCurrencyPairsByIndex.length ∧
    (∀ u path, generateExchangePath threeExchangeEngine.m_adjacencyTable 0 3 ≠
      .cycleDetected u path) ∧
    ((∃ q : List Nat, 2 ≤ q.length ∧ q.head? = some 0 ∧ q.getLast? = some 3 ∧
        IsChain threeExchangeEngine.m_adjacencyTable q) →
      ∃ p, generateExchangePath threeExchangeEngine.m_adjacencyTable 0 3 = .found p ∧
        (generateExchangePath threeExchangeEngine.m_adjacencyTable 0 3).returned = some p ∧
        p ≠ []) :=
  ⟨reachable_threeExchangeEngine,
    noArbitrage_of_rows _ (positiveFactors_of_reachable reachable_threeExchangeEngine)
      (by decide!),
    by decide, by decide,
    cycle_guard_silent threeExchangeEngine 0 3 reachable_threeExchangeEngine
      (noArbitrage_of_rows _ (positiveFactors_of_reachable reachable_threeExchangeEngine)
        (by decide!))
      (by decide) (by decide)⟩

/-! ## Optimality over all walks -/

/-- C21: for every adjacency table with positive factors (every row at
least as long as the table) in which no directed cycle, self-loops
included, multiplies to more than 1, and every pair of vertex indices `s`
and `d` such that a walk of one or more edges leads from `s` to `d`,
`generateExchangePath` returns a non-empty path without repeated vertices
that is a walk from `s` to `d`, and the product of the factors along it is
greater than or equal to the product along every walk from `s` to `d`: it
is the maximum over all walks. -/
theorem generateExchangePath_maximal (t : AdjacencyTable) (s d : Nat)
    (hp : PositiveFactors t) (hna : NoArbitrage t)
    (hrows : ∀ row ∈ t, t.length ≤ row.length) (hs : s < t.length) (hd : d < t.length)
    (hreach : ∃ q : List Nat, 2 ≤ q.length ∧ q.head? = some s ∧ q.getLast? = some d ∧
      IsChain t q) :
    ∃ p, generateExchangePath t s d = .found p ∧
      (generateExchangePath t s d).returned = some p ∧ p ≠ [] ∧ p.Nodup ∧
      p.head? = some s ∧ p.getLast? = some d ∧ IsChain t p ∧
      ∀ q : List Nat, q.head? = some s → q.getLast? = some d → IsChain t q →
        pathProduct t q ≤ pathProduct t p := by
  have hg := noGain_of_noArbitrage t hp hna
  have heq : generateExchangePath t s d =
      constructPath t.length (solverTables t).2 s d := by
    unfold generateExchangePath
    rw [if_pos ⟨hrows, hs, hd⟩]
  obtain ⟨p, hp1⟩ := (constructPath_of_noGain t hp hg s d hs hd).2
    ((walk_iff_chain t s d hd).mpr hreach)
  rw [← heq] at hp1
  obtain ⟨hhead, hlast, hchain⟩ := generateExchangePath_found t s d p hp1
  have hnd : p.Nodup := by
    have h2 := hp1
    rw [heq] at h2
    unfold constructPath at h2
    split at h2
    · cases h2
    · exact (walk_found_nodup t.length _ (nextInRange_solverTables t) d t.length s [s] p
        (List.nodup_singleton s)
        (fun x hx => by simp only [List.mem_singleton] at hx; rw [hx]; exact hs) h2).1
  refine ⟨p, hp1, by rw [hp1]; rfl, ?_, hnd, hhead, hlast, hchain, ?_⟩
  · intro hnil
    rw [hnil] at hhead
    cases hhead
  · intro q hqh hql hqc
    exact found_maximal_of_noGain t hp hg s d p q hp1 hqh hql hqc

theorem generateExchangePath_maximal_witness :
    PositiveFactors threeExchangeEngine.m_adjacencyTable ∧
    NoArbitrage threeExchangeEngine.m_adjacencyTable ∧
    (∃ q : List Nat, 2 ≤ q.length ∧ q.head? = some 0 ∧ q.getLast? = some 3 ∧
      IsChain threeExchangeEngine.m_adjacencyTable q) ∧
    ∃ p, generateExchangePath threeExchangeEngine.m_adjacencyTable 0 3 = .found p ∧
      (generateExchangePath threeExchangeEngine.m_adjacencyTable 0 3).returned = some p ∧
      p ≠ [] ∧ p.Nodup ∧ p.head? = some 0 ∧ p.getLast? = some 3 ∧
      IsChain threeExchangeEngine.m_adjacencyTable p ∧
      ∀ q : List Nat, q.head? = some 0 → q.getLast? = some 3 →
        IsChain threeExchangeEngine.m_adjacencyTable q →
        pathProduct threeExchangeEngine.m_adjacencyTable q ≤
          pathProduct threeExchangeEngine.m_adjacencyTable p :=
  ⟨positiveFactors_of_reachable reachable_threeExchangeEngine,
    noArbitrage_of_rows _ (positiveFactors_of_reachable reachable_threeExchangeEngine)
      (by decide!),
    ⟨[0, 1, 3], by decide, by decide, by decide, ⟨by decide!, by decide!, trivial⟩⟩,
    generateExchangePath_maximal threeExchangeEngine.m_adjacencyTable 0 3
      (positiveFactors_of_reachable reachable_threeExchangeEngine)
      (noArbitrage_of_rows _ (positiveFactors_of_reachable reachable_threeExchangeEngine)
        (by decide!))
      (by decide) (by decide) (by decide)
      ⟨[0, 1, 3], by decide, by decide, by decide, ⟨by decide!, by decide!, trivial⟩⟩⟩

/-! ## Equal endpoints -/

/-- C23: for every adjacency table with positive factors (every row at
least as long as the table) and every vertex index `s`,
`generateExchangePath(s, s)` returns the empty sequence or exactly `[s]`;
it returns `[s]` if and only if a closed walk of one or more edges through
`s` exists (a self-edge is such a walk), and the empty sequence if and only
if none exists. -/
theorem generateExchangePath_self (t : AdjacencyTable) (s : Nat) (hp : PositiveFactors t)
    (hrows : ∀ row ∈ t, t.length ≤ row.length) (hs : s < t.length) :
    (generateExchangePath t s s = .noPath ∨ generateExchangePath t s s = .found [s]) ∧
      ((generateExchangePath t s s).returned = some [] ∨
        (generateExchangePath t s s).returned = some [s]) ∧
      ((generateExchangePath t s s).returned = some [s] ↔
        ∃ q : List Nat, 2 ≤ q.length ∧ q.head? = some s ∧ q.getLast? = some s ∧
          IsChain t q) ∧
      ((generateExchangePath t s s).returned = some [] ↔
        ¬ ∃ q : List Nat, 2 ≤ q.length ∧ q.head? = some s ∧ q.getLast? = some s ∧
          IsChain t q) ∧
      (isEdge t s s → (generateExchangePath t s s).returned = some [s]) := by
  have heq : generateExchangePath t s s =
      constructPath t.length (solverTables t).2 s s := by
    unfold generateExchangePath
    rw [if_pos ⟨hrows, hs, hs⟩]
  have hiff : (∃ m, get2 none (solverTables t).2 s s = some m) ↔
      ∃ q : List Nat, 2 ≤ q.length ∧ q.head? = some s ∧ q.getLast? = some s ∧
        IsChain t q :=
    (nextAt_solverTables_iff t hp s s hs hs).trans (walk_iff_chain t s s hs)
  have hself : isEdge t s s →
      ∃ q : List Nat, 2 ≤ q.length ∧ q.head? = some s ∧ q.getLast? = some s ∧
        IsChain t q :=
    fun he => ⟨[s, s], by simp, rfl, rfl, he, trivial⟩
  rw [heq]
  rcases constructPath_self t.length (solverTables t).2 s with ⟨hn, hres⟩ | ⟨hm, hres⟩
  · have hno : ¬ ∃ q : List Nat, 2 ≤ q.length ∧ q.head? = some s ∧
        q.getLast? = some s ∧ IsChain t q := by
      intro hq
      obtain ⟨m, hm⟩ := hiff.mpr hq
      rw [hn] at hm
      cases hm
    rw [hres]
    refine ⟨Or.inl rfl, Or.inl rfl, ⟨fun h => ?_, fun h => absurd h hno⟩,
      ⟨fun _ => hno, fun _ => rfl⟩, fun he => absurd (hself he) hno⟩
    simp [PathResult.returned] at h
  · have hq := hiff.mp hm
    rw [hres]
    refine ⟨Or.inr rfl, Or.inr rfl, ⟨fun _ => hq, fun _ => rfl⟩,
      ⟨fun h => ?_, fun h => absurd hq h⟩, fun _ => rfl⟩
    simp [PathResult.returned] at h

theorem generateExchangePath_self_witness :
    PositiveFactors isolatedTable ∧
    (generateExchangePath isolatedTable 0 0 = .noPath ∨
      generateExchangePath isolatedTable 0 0 = .found [0]) ∧
    ((generateExchangePath isolatedTable 0 0).returned = some [] ∨
      (generateExchangePath isolatedTable 0 0).returned = some [0]) ∧
    ((generateExchangePath isolatedTable 0 0).returned = some [0] ↔
      ∃ q : List Nat, 2 ≤ q.length ∧ q.head? = some 0 ∧ q.getLast? = some 0 ∧
        IsChain isolatedTable q) ∧
    ((generateExchangePath isolatedTable 0 0).returned = some [] ↔
      ¬ ∃ q : List Nat, 2 ≤ q.length ∧ q.head? = some 0 ∧ q.getLast? = some 0 ∧
        IsChain isolatedTable q) ∧
    (isEdge isolatedTable 0 0 → (generateExchangePath isolatedTable 0 0).returned = some [0]) :=
  ⟨positiveFactors_of_rows _ (by decide!),
    generateExchangePath_self isolatedTable 0 (positiveFactors_of_rows _ (by decide!))
      (by decide) (by decide)⟩

/-! ## The cells of a reachable engine -/

/-- C22: in every engine state reachable from the empty engine, whatever
the clock reads, for all distinct vertices `i` and `j` the cell `(i, j)` is
an edge if and only if the cell `(j, i)` is an edge, the two cells carry
the same timestamp, and for an edge both factors are positive and their
product is at most 1; and every edge between vertices of two different
exchanges joins two vertices of the same currency and has the factor 1. -/
theorem reachable_cells_paired (e : Engine) (hr : Reachable e) :
    (∀ i j, i ≠ j →
      (isEdge e.m_adjacencyTable i j ↔ isEdge e.m_adjacencyTable j i) ∧
      (cellAt e.m_adjacencyTable i j).1 = (cellAt e.m_adjacencyTable j i).1 ∧
      (isEdge e.m_adjacencyTable i j →
        0 < factor e.m_adjacencyTable i j ∧ 0 < factor e.m_adjacencyTable j i ∧
        factor e.m_adjacencyTable i j * factor e.m_adjacencyTable j i ≤ 1)) ∧
    (∀ i j x1 c1 x2 c2,
      e.m_exchangeCurrencyPairsByIndex.get? i = some (x1, c1) →
      e.m_exchangeCurrencyPairsByIndex.get? j = some (x2, c2) → x1 ≠ x2 →
      isEdge e.m_adjacencyTable i j → c1 = c2 ∧ factor e.m_adjacencyTable i j = 1) := by
  obtain ⟨hsym, hbound⟩ := paired_of_reachable hr
  have hpos := positiveFactors_of_reachable hr
  have hb := registryBijective_of_reachable hr
  have hci := crossIdentity_of_reachable hr
  have hiff : ∀ i j, isEdge e.m_adjacencyTable i j → isEdge e.m_adjacencyTable j i := by
    intro i j he
    unfold isEdge at he ⊢
    rw [← hsym i j]
    exact he
  refine ⟨?_, ?_⟩
  · intro i j hij
    refine ⟨⟨hiff i j, hiff j i⟩, hsym i j, ?_⟩
    intro he
    exact ⟨hpos i j he, hpos j i (hiff i j he), hbound i j hij he⟩
  · intro i j x1 c1 x2 c2 hi hj hne he
    exact hci x1 c1 x2 c2 i j ((hb (x1, c1) i).mpr hi) ((hb (x2, c2) j).mpr hj) hne he

theorem reachable_cells_paired_witness :
    Reachable quotedEngine ∧
    (∀ i j, i ≠ j →
      (isEdge quotedEngine.m_adjacencyTable i j ↔ isEdge quotedEngine.m_adjacencyTable j i) ∧
      (cellAt quotedEngine.m_adjacencyTable i j).1 =
        (cellAt quotedEngine.m_adjacencyTable j i).1 ∧
      (isEdge quotedEngine.m_adjacencyTable i j →
        0 < factor quotedEngine.m_adjacencyTable i j ∧
        0 < factor quotedEngine.m_adjacencyTable j i ∧
        factor quotedEngine.m_adjacencyTable i j *
          factor quotedEngine.m_adjacencyTable j i ≤ 1)) ∧
    (∀ i j x1 c1 x2 c2,
      quotedEngine.m_exchangeCurrencyPairsByIndex.get? i = some (x1, c1) →
      quotedEngine.m_exchangeCurrencyPairsByIndex.get? j = some (x2, c2) → x1 ≠ x2 →
      isEdge quotedEngine.m_adjacencyTable i j →
      c1 = c2 ∧ factor quotedEngine.m_adjacencyTable i j = 1) :=
  ⟨Reachable.step sampleClock twoExchangeEngine
      (mkUpdate 1509529400 "B" "USD" "GBP" (1/2) 2) quotedEngine
      reachable_twoExchangeEngine (by decide!) (by decide!),
    reachable_cells_paired quotedEngine
      (Reachable.step sampleClock twoExchangeEngine
        (mkUpdate 1509529400 "B" "USD" "GBP" (1/2) 2) quotedEngine
        reachable_twoExchangeEngine (by decide!) (by decide!))⟩

end ExchangeRate
